import Mathlib

/-! # StoreQL toolchain (`backend/sqc`): a shallow embedding and its verification

The development follows the layout of the Go package:

* `automata/lexer.go`    : `Token`, `Lexer`, `NextToken`, `Tokenize`
* `language/parser.go`   : `ASTNode`, `Parser`, `Parse`
* `language/interpreter.go` : `QueryResult`, `Interpreter`, `Execute`
* `sqc.go`               : the entry points `Execute`, `Validate`, `Tokenize`
* `automata/state_machine.go` : `FSM`, `Trigger`, `NewOrderStateMachine`
* `adt/stack.go`, `adt/queue.go`, `adt/set.go`, `adt/tree.go` : `ArrayStack`,
  `LinkedQueue`, `HashSet`, `GenericTree`
* `concurrency/producer_consumer.go` : `Buffer`
* `concurrency/pipeline.go` : `FanIn`

Conventions of the embedding.

* A Go `string` is a sequence of bytes: `GoString := List Byte` with `Byte := Fin 256`.
  The lexer reads its input one byte at a time and converts each byte with `rune(b)`,
  so the `unicode` predicates are only ever applied to code points below 256.
* Go `int` values that only count upwards from 0 or 1 (`pos`, `line`, `column`) are `Nat`.
* A Go function returning `(T, error)` returns `Except GoError T`.
* A run that does not return normally (a run-time panic of a slice expression, or a
  `for` loop that is still running when its iteration bound is used up) is `none` in an
  outer `Option`.  Functions that cannot panic and have no unbounded loop return plain values.
-/

namespace StoreQL

/-! ## Strings and errors -/

/-- One byte of a Go string. -/
abbrev Byte := Fin 256

/-- Go `string`: an immutable byte sequence. -/
abbrev GoString := List Byte

/-- UTF-8 encoding of one code point, as Go stores string literals and as
`string(r)` converts a rune `r`. -/
def utf8 (n : Nat) : GoString :=
  if n < 0x80 then [Fin.ofNat n]
  else if n < 0x800 then [Fin.ofNat (0xC0 + n / 0x40), Fin.ofNat (0x80 + n % 0x40)]
  else if n < 0x10000 then
    [Fin.ofNat (0xE0 + n / 0x1000), Fin.ofNat (0x80 + n / 0x40 % 0x40), Fin.ofNat (0x80 + n % 0x40)]
  else
    [Fin.ofNat (0xF0 + n / 0x40000), Fin.ofNat (0x80 + n / 0x1000 % 0x40),
     Fin.ofNat (0x80 + n / 0x40 % 0x40), Fin.ofNat (0x80 + n % 0x40)]

/-- The bytes of a string literal of the source. -/
def str (s : String) : GoString :=
  (s.toList.map fun c => utf8 c.toNat).flatten

/-- Go slice expression `s[lo:hi]` on a string; Go panics unless `lo ≤ hi ≤ len(s)`. -/
def slice (s : GoString) (lo hi : Nat) : Option GoString :=
  if lo ≤ hi ∧ hi ≤ s.length then some ((s.drop lo).take (hi - lo)) else none

/-- Go `error` value, identified with its message (`err.Error()`). -/
structure GoError where
  msg : GoString
deriving DecidableEq, Repr

/-- The call `errors.New(text)`. -/
def errorsNew (text : String) : GoError := ⟨str text⟩

/-! ## `unicode` and `strings` on the bytes the lexer feeds them

Go's `unicode.IsLetter`, `unicode.IsDigit` and `unicode.IsSpace` consult the Latin-1
property table for code points up to U+00FF.  The lexer only calls them on `rune(b)`
for a byte `b`, so the tables below are the whole of what it can observe. -/

/-- The predicate `unicode.IsLetter(rune(b))`: A-Z, a-z, U+00AA, U+00B5, U+00BA,
U+00C0..U+00D6, U+00D8..U+00F6, U+00F8..U+00FF. -/
def isLetter (b : Byte) : Bool :=
  (65 ≤ b.val && b.val ≤ 90) || (97 ≤ b.val && b.val ≤ 122) ||
  b.val == 0xAA || b.val == 0xB5 || b.val == 0xBA ||
  (0xC0 ≤ b.val && b.val ≤ 0xD6) || (0xD8 ≤ b.val && b.val ≤ 0xF6) || 0xF8 ≤ b.val

/-- The predicate `unicode.IsDigit(rune(b))`: below U+0100 only `0`..`9`. -/
def isDigit (b : Byte) : Bool :=
  48 ≤ b.val && b.val ≤ 57

/-- The predicate `unicode.IsSpace(rune(b))`: tab, LF, VT, FF, CR, space, U+0085, U+00A0. -/
def isSpace (b : Byte) : Bool :=
  b.val == 9 || b.val == 10 || b.val == 11 || b.val == 12 || b.val == 13 ||
  b.val == 32 || b.val == 0x85 || b.val == 0xA0

/-- ASCII upper-casing of one byte. -/
def upperByte (b : Byte) : Byte :=
  if 97 ≤ b.val ∧ b.val ≤ 122 then Fin.ofNat (b.val - 32) else b

/-- The call `strings.ToUpper(value)` as `scanIdentifierOrKeyword` uses it.
On ASCII-only input Go maps `a`..`z` to `A`..`Z` and keeps every other byte, which is
what this definition does.  On input with a byte above 0x7F Go maps `unicode.ToUpper`
over the decoded runes; the only runes above 0x7F whose upper case is ASCII are U+0131
and U+017F, whose encodings end in the bytes 0xB1 and 0xBF, and neither byte passes the
scanner's letter/digit/underscore test.  For every `value` the scanner can produce, Go's
result therefore keeps a byte above 0x7F exactly when this one does, so the keyword
lookup (the only use of the result when it is not a keyword) agrees. -/
def ToUpper (s : GoString) : GoString :=
  s.map upperByte

/-! ## automata/lexer.go -/

/-- TokenType of lexer.go. -/
inductive TokenType where
  | EOF | Keyword | Identifier | String | Number | Operator
  | Comma | Dot | LeftParen | RightParen | Asterisk | Error
deriving DecidableEq, Repr

/-- Token of lexer.go (`Typ` is the Go field `Type`). -/
structure Token where
  Typ : TokenType
  Value : GoString
  Line : Nat
  Column : Nat
deriving DecidableEq, Repr

/-- LexerState of lexer.go. -/
inductive LexerState where
  | Start | Identifier | Number | String | Operator | End
deriving DecidableEq, Repr

/-- Lexer of lexer.go. -/
structure Lexer where
  input : GoString
  pos : Nat
  line : Nat
  column : Nat
  state : LexerState
deriving DecidableEq, Repr

/-- The map `keywords`; a missing key reads as `false`. -/
def keywords (s : GoString) : Bool :=
  s ∈ [str "SELECT", str "FROM", str "WHERE", str "AND", str "OR",
       str "ORDER", str "BY", str "LIMIT", str "GROUP", str "ASC", str "DESC",
       str "FIND", str "UPDATE", str "SET", str "ANALYZE", str "IN",
       str "LIKE", str "NULL", str "TRUE", str "FALSE", str "CONCURRENT"]

/-- NewLexer of lexer.go. -/
def NewLexer (input : GoString) : Lexer :=
  { input := input, pos := 0, line := 1, column := 1, state := .Start }

namespace Lexer

/-- Lexer.current: the byte at `pos` as a rune, 0 at the end of the input. -/
def current (l : Lexer) : Byte :=
  if h : l.pos < l.input.length then l.input[l.pos] else 0

/-- Lexer.advance: one byte forward, keeping `line` and `column`; no-op at the end. -/
def advance (l : Lexer) : Lexer :=
  if h : l.pos < l.input.length then
    if l.input[l.pos] = 10 then
      { l with line := l.line + 1, column := 1, pos := l.pos + 1 }
    else
      { l with column := l.column + 1, pos := l.pos + 1 }
  else l

/-- The loop `for l.pos < len(l.input) && cond(l.current()) { l.advance() }`, which the
source writes out in `skipWhitespace`, `scanIdentifierOrKeyword`, `scanNumber` and
`scanString`.  The first argument bounds the number of iterations; `advanceWhile` below
passes `len(l.input) - l.pos`, and `advanceLoop_exit` shows the loop condition is false
in the state returned under that bound. -/
def advanceLoop (cond : Byte → Bool) : Nat → Lexer → Lexer
  | 0, l => l
  | n + 1, l =>
    if l.pos < l.input.length && cond l.current then advanceLoop cond n l.advance else l

/-- The loop of `advanceLoop` run to its exit. -/
def advanceWhile (cond : Byte → Bool) (l : Lexer) : Lexer :=
  advanceLoop cond (l.input.length - l.pos) l

/-- Lexer.skipWhitespace. -/
def skipWhitespace (l : Lexer) : Lexer :=
  l.advanceWhile isSpace

/-- The loop condition of scanIdentifierOrKeyword on the current rune:
`unicode.IsLetter(c) || unicode.IsDigit(c) || c == '_'`. -/
def isIdentPart (c : Byte) : Bool :=
  isLetter c || isDigit c || c == 95

/-- Lexer.scanIdentifierOrKeyword. -/
def scanIdentifierOrKeyword (l : Lexer) (startColumn : Nat) : Option (Token × Lexer) :=
  let start := l.pos
  let l := l.advanceWhile isIdentPart
  (slice l.input start l.pos).map fun value =>
    let valueUpper := ToUpper value
    if keywords valueUpper then
      ({ Typ := .Keyword, Value := valueUpper, Line := l.line, Column := startColumn }, l)
    else
      ({ Typ := .Identifier, Value := value, Line := l.line, Column := startColumn }, l)

/-- Lexer.scanNumber. -/
def scanNumber (l : Lexer) (startColumn : Nat) : Option (Token × Lexer) :=
  let start := l.pos
  let l := l.advanceWhile isDigit
  let l :=
    if l.pos < l.input.length && l.current == 46 then
      l.advance.advanceWhile isDigit
    else l
  (slice l.input start l.pos).map fun value =>
    ({ Typ := .Number, Value := value, Line := l.line, Column := startColumn }, l)

/-- Lexer.scanString. -/
def scanString (l : Lexer) (quote : Byte) (startColumn : Nat) : Option (Token × Lexer) :=
  let l := l.advance
  let start := l.pos
  let l := l.advanceWhile fun c => c != quote
  if l.pos ≥ l.input.length then
    some ({ Typ := .Error, Value := str "unterminated string", Line := l.line,
            Column := startColumn }, l)
  else
    (slice l.input start l.pos).map fun value =>
      let l := l.advance
      ({ Typ := .String, Value := value, Line := l.line, Column := startColumn }, l)

/-- Lexer.scanOperator. -/
def scanOperator (l : Lexer) (startColumn : Nat) : Option (Token × Lexer) :=
  let start := l.pos
  let l := l.advance
  let twoCharCase : Option (Option (Token × Lexer)) :=
    if l.pos < l.input.length then
      (slice l.input start (l.pos + 1)).map fun twoChar =>
        if twoChar = str "<=" ∨ twoChar = str ">=" ∨ twoChar = str "!=" ∨ twoChar = str "==" then
          let l := l.advance
          some ({ Typ := .Operator, Value := twoChar, Line := l.line, Column := startColumn }, l)
        else none
    else some none
  match twoCharCase with
  | none => none
  | some (some r) => some r
  | some none =>
    (slice l.input start l.pos).map fun value =>
      ({ Typ := .Operator, Value := value, Line := l.line, Column := startColumn }, l)

/-- The function isOperatorChar of lexer.go: one of `= ! < > + -`. -/
def isOperatorChar (ch : Byte) : Bool :=
  ch == 61 || ch == 33 || ch == 60 || ch == 62 || ch == 43 || ch == 45

/-- Lexer.NextToken. -/
def NextToken (l : Lexer) : Option (Token × Lexer) :=
  let l := l.skipWhitespace
  if l.pos ≥ l.input.length then
    some ({ Typ := .EOF, Value := [], Line := l.line, Column := l.column }, l)
  else
    let ch := l.current
    let startColumn := l.column
    if isLetter ch || ch == 95 then l.scanIdentifierOrKeyword startColumn
    else if isDigit ch then l.scanNumber startColumn
    else if ch == 34 || ch == 39 then l.scanString ch startColumn
    else if ch == 40 then
      let l := l.advance
      some ({ Typ := .LeftParen, Value := str "(", Line := l.line, Column := startColumn }, l)
    else if ch == 41 then
      let l := l.advance
      some ({ Typ := .RightParen, Value := str ")", Line := l.line, Column := startColumn }, l)
    else if ch == 44 then
      let l := l.advance
      some ({ Typ := .Comma, Value := str ",", Line := l.line, Column := startColumn }, l)
    else if ch == 46 then
      let l := l.advance
      some ({ Typ := .Dot, Value := str ".", Line := l.line, Column := startColumn }, l)
    else if ch == 42 then
      let l := l.advance
      some ({ Typ := .Asterisk, Value := str "*", Line := l.line, Column := startColumn }, l)
    else if isOperatorChar ch then l.scanOperator startColumn
    else
      let l := l.advance
      some ({ Typ := .Error, Value := utf8 ch.val, Line := l.line, Column := startColumn }, l)

/-- The `for` loop of Lexer.Tokenize, with `tokens` the slice built so far.  The first
argument bounds the number of iterations; `none` when `NextToken` panics or the bound is
used up before the loop breaks. -/
def tokenizeLoop : Nat → Lexer → List Token → Option (List Token × Lexer)
  | 0, _, _ => none
  | n + 1, l, tokens =>
    match l.NextToken with
    | none => none
    | some (token, l) =>
      let tokens := tokens ++ [token]
      if token.Typ = .EOF ∨ token.Typ = .Error then some (tokens, l)
      else tokenizeLoop n l tokens

/-- Lexer.Tokenize: the loop of `tokenizeLoop` bounded by `len(input) + 1` iterations,
then `return tokens, nil`. -/
def Tokenize (l : Lexer) : Option (Except GoError (List Token)) :=
  (tokenizeLoop (l.input.length + 1) l []).map fun r => .ok r.1

end Lexer

/-! ## adt/tree.go -/

/-- TreeNode of tree.go: a value and the ordered children.  The Go field `Parent` is a
back pointer to the node that lists this one among its `Children`; it is written when a
node is created and read nowhere, and the embedding leaves it to the nesting. -/
inductive TreeNode (T : Type) where
  | mk (Value : T) (Children : List (TreeNode T))

namespace TreeNode

/-- Field `Value`. -/
def Value {T : Type} : TreeNode T → T
  | mk v _ => v

/-- Field `Children`. -/
def Children {T : Type} : TreeNode T → List (TreeNode T)
  | mk _ cs => cs

/-- The statement `n.Children = append(n.Children, child)`. -/
def appendChild {T : Type} (n : TreeNode T) (child : TreeNode T) : TreeNode T :=
  mk n.Value (n.Children ++ [child])

end TreeNode

/-! ## language/parser.go -/

/-- NodeType of parser.go. -/
inductive NodeType where
  | Query | Select | Find | Update | Analyze | Where
  | Condition | Field | Value | Operator | OrderBy | Limit
deriving DecidableEq, Repr

/-- The string constant behind each NodeType. -/
def NodeType.text : NodeType → GoString
  | .Query => str "QUERY" | .Select => str "SELECT" | .Find => str "FIND"
  | .Update => str "UPDATE" | .Analyze => str "ANALYZE" | .Where => str "WHERE"
  | .Condition => str "CONDITION" | .Field => str "FIELD" | .Value => str "VALUE"
  | .Operator => str "OPERATOR" | .OrderBy => str "ORDER_BY" | .Limit => str "LIMIT"

/-- ASTNode of parser.go (`Typ` is the Go field `Type`).  The Go fields `Children` and
`Metadata` are nil in every node the parser builds and are read nowhere: the tree shape
lives in `TreeNode`. -/
structure ASTNode where
  Typ : NodeType
  Value : GoString
deriving DecidableEq, Repr

/-- The type `*adt.TreeNode[*ASTNode]` of a non-nil tree.  Every pointer inside such a tree
(the children and the `*ASTNode` values) is non-nil, as in every tree that `Parse` builds;
a nil root is `none` in `Option AST`. -/
abbrev AST := TreeNode ASTNode

/-- A childless tree node holding `&ASTNode{Type: t, Value: v}`. -/
def leaf (t : NodeType) (v : GoString) : AST :=
  .mk { Typ := t, Value := v } []

/-- Parser of parser.go: the token slice and the cursor.  The Go field `ast` holds the
root created by `Parse`; `addNode` links each statement node under it at once and the
statement functions then fill that node through the pointer.  The embedding passes the
statement node along explicitly and `Parse` links it under the root when `parseQuery`
returns; on an error `Parse` returns nil, so the two orders give the same results. -/
structure Parser where
  tokens : List Token
  pos : Nat
deriving DecidableEq, Repr

/-- NewParser of parser.go. -/
def NewParser (tokens : List Token) : Parser :=
  { tokens := tokens, pos := 0 }

namespace Parser

/-- Parser.hasMore. -/
def hasMore (p : Parser) : Bool :=
  if h : p.pos < p.tokens.length then p.tokens[p.pos].Typ != .EOF else false

/-- Parser.currentToken: the token under the cursor, a zero-valued EOF token past the end. -/
def currentToken (p : Parser) : Token :=
  if h : p.pos < p.tokens.length then p.tokens[p.pos]
  else { Typ := .EOF, Value := [], Line := 0, Column := 0 }

/-- Parser.advance. -/
def advance (p : Parser) : Parser :=
  if p.pos < p.tokens.length then { p with pos := p.pos + 1 } else p

/-- Parser.peek. -/
def peek (p : Parser) (value : GoString) : Bool :=
  p.hasMore && p.currentToken.Value == value

/-- Parser.expect. -/
def expect (p : Parser) (value : GoString) : Bool :=
  p.hasMore && p.currentToken.Value == value

/-- Parser.addNode: the fresh statement node (see `Parser` for the link under the root). -/
def addNode (_p : Parser) (nodeType : NodeType) (value : GoString) : AST :=
  leaf nodeType value

/-- Parser.parseFieldList. -/
def parseFieldList (p : Parser) (parent : AST) : Except GoError (Parser × AST) :=
  let token := p.currentToken
  if token.Typ = .Asterisk then
    .ok (p.advance, parent.appendChild (leaf .Field (str "*")))
  else if token.Typ = .Identifier then
    .ok (p.advance, parent.appendChild (leaf .Field token.Value))
  else .ok (p, parent)

/-- Parser.parseSource. -/
def parseSource (p : Parser) (parent : AST) : Except GoError (Parser × AST) :=
  if p.currentToken.Typ ≠ .Identifier ∧ p.currentToken.Typ ≠ .Keyword then
    .error (errorsNew "expected source name")
  else
    .ok (p.advance, parent.appendChild (leaf .Field p.currentToken.Value))

/-- Parser.parseWhereClause. -/
def parseWhereClause (p : Parser) (parent : AST) : Except GoError (Parser × AST) :=
  let p := p.advance
  .ok (p, parent.appendChild (leaf .Where (str "WHERE")))

/-- Parser.parseOrderByClause. -/
def parseOrderByClause (p : Parser) (parent : AST) : Except GoError (Parser × AST) :=
  let p := p.advance
  if !p.expect (str "BY") then .error (errorsNew "expected BY after ORDER")
  else
    let p := p.advance
    .ok (p, parent.appendChild (leaf .OrderBy (str "ORDER_BY")))

/-- Parser.parseLimitClause. -/
def parseLimitClause (p : Parser) (parent : AST) : Except GoError (Parser × AST) :=
  let p := p.advance
  if p.currentToken.Typ ≠ .Number then .error (errorsNew "expected number after LIMIT")
  else
    .ok (p.advance, parent.appendChild (leaf .Limit p.currentToken.Value))

/-- The statement `if p.peek(kw) { if err := clause(parent); err != nil { return err } }`
that guards every optional clause. -/
def optionalClause (kw : GoString) (clause : Parser → AST → Except GoError (Parser × AST))
    (p : Parser) (parent : AST) : Except GoError (Parser × AST) :=
  if p.peek kw then clause p parent else .ok (p, parent)

/-- Parser.parseSelectStatement; returns the statement node it built. -/
def parseSelectStatement (p : Parser) : Except GoError (Parser × AST) := do
  let selectNode := p.addNode .Select (str "SELECT")
  let p := p.advance
  let (p, selectNode) ← p.parseFieldList selectNode
  if !p.expect (str "FROM") then throw (errorsNew "expected FROM keyword")
  let p := p.advance
  let (p, selectNode) ← p.parseSource selectNode
  let (p, selectNode) ← optionalClause (str "WHERE") parseWhereClause p selectNode
  let (p, selectNode) ← optionalClause (str "ORDER") parseOrderByClause p selectNode
  let (p, selectNode) ← optionalClause (str "LIMIT") parseLimitClause p selectNode
  return (p, selectNode)

/-- Parser.parseFindStatement; returns the statement node it built. -/
def parseFindStatement (p : Parser) : Except GoError (Parser × AST) := do
  let findNode := p.addNode .Find (str "FIND")
  let p := p.advance
  if p.currentToken.Typ ≠ .Identifier ∧ p.currentToken.Typ ≠ .Keyword then
    throw (errorsNew "expected entity name")
  let findNode := findNode.appendChild (leaf .Field p.currentToken.Value)
  let p := p.advance
  let (p, findNode) ← optionalClause (str "WHERE") parseWhereClause p findNode
  let (p, findNode) ← optionalClause (str "ORDER") parseOrderByClause p findNode
  return (p, findNode)

/-- Parser.parseUpdateStatement; returns the statement node it built. -/
def parseUpdateStatement (p : Parser) : Except GoError (Parser × AST) := do
  let updateNode := p.addNode .Update (str "UPDATE")
  let p := p.advance
  if p.currentToken.Typ ≠ .Identifier then throw (errorsNew "expected entity name")
  let updateNode := updateNode.appendChild (leaf .Field p.currentToken.Value)
  let p := p.advance
  if !p.expect (str "SET") then throw (errorsNew "expected SET keyword")
  let p := p.advance
  return (p, updateNode)

/-- Parser.parseAnalyzeStatement; returns the statement node it built. -/
def parseAnalyzeStatement (p : Parser) : Except GoError (Parser × AST) := do
  let analyzeNode := p.addNode .Analyze (str "ANALYZE")
  let p := p.advance
  if p.currentToken.Typ ≠ .Identifier then throw (errorsNew "expected entity name")
  let analyzeNode := analyzeNode.appendChild (leaf .Field p.currentToken.Value)
  let p := p.advance
  return (p, analyzeNode)

/-- Parser.parseQuery; returns the statement node of the production it selected. -/
def parseQuery (p : Parser) : Except GoError (Parser × AST) :=
  if !p.hasMore then .error (errorsNew "unexpected end of input")
  else
    let token := p.currentToken
    if token.Value = str "SELECT" then p.parseSelectStatement
    else if token.Value = str "FIND" then p.parseFindStatement
    else if token.Value = str "UPDATE" then p.parseUpdateStatement
    else if token.Value = str "ANALYZE" then p.parseAnalyzeStatement
    else .error ⟨str "unexpected keyword: " ++ token.Value⟩

/-- Parser.Parse: the root with the parsed statement as its child, or the error. -/
def Parse (p : Parser) : Except GoError AST :=
  if p.tokens.length = 0 then .error (errorsNew "no tokens to parse")
  else
    let root := leaf .Query (str "ROOT")
    match p.parseQuery with
    | .error err => .error err
    | .ok (_, stmt) => .ok (root.appendChild stmt)

end Parser

/-! ## language/interpreter.go

The data store is an external collaborator (`*gorm.DB`).  The interpreter uses it through
two call chains only, which the embedding takes as the interface of the store:

* `db.[Select(fields).]Limit(n).Find(&rows)` : a fetch of at most `n` records of one model,
* `db.Model(&M{}).Count(&count)`             : the number of records of one model.

Each handler returns, next to its Go result, the list of store calls it issued, in order. -/

/-- The gorm models the interpreter names: models.Product, models.Order, models.Store. -/
inductive Model where
  | Product | Order | Store
deriving DecidableEq, Repr

/-- One call chain issued on the store. -/
inductive DBOp where
  | Find (m : Model) (fields : List GoString) (limit : Nat)
  | Count (m : Model)
deriving DecidableEq, Repr

/-- What the store answers.  `find m fields n` is the outcome of
`db.Select(fields).Limit(n).Find(&rows)` (`fields = []` when `Select` is not called): the
rows, or the value of `.Error`.  `count m` is the outcome of `db.Model(&m{}).Count(&count)`:
the number written to `count`, or the error, in which case `count` keeps its zero value. -/
structure DB (Row : Type) where
  find : Model → List GoString → Nat → Except GoError (List Row)
  count : Model → Except GoError Nat

/-- QueryResult of interpreter.go (`Typ` is the Go field `Type`); `Data` is nil (`none`)
or the fetched slice. -/
structure QueryResult (Row : Type) where
  Typ : GoString
  Data : Option (List Row)
  Count : Nat
  Success : Bool
  Message : GoString

/-- Interpreter of interpreter.go; both pointers may be nil. -/
structure Interpreter (Row : Type) where
  ast : Option AST
  db : Option (DB Row)

/-- NewInterpreter of interpreter.go. -/
def NewInterpreter {Row : Type} (ast : Option AST) (db : Option (DB Row)) : Interpreter Row :=
  { ast := ast, db := db }

/-- The verb `%d` of fmt.Sprintf on a non-negative integer. -/
def decimal (n : Nat) : GoString :=
  (Nat.toDigits 10 n).map fun c => Fin.ofNat c.toNat

namespace Interpreter

variable {Row : Type}

/-- The block shared by every `case` of the two fetching handlers:
`var rows []M; if err := <fetch>.Error; err == nil { db.Model(&M{}).Count(&count); data = rows }`.
Returns `data`, `count` and the calls issued. -/
def fetchAndCount (db : DB Row) (m : Model) (fields : List GoString) :
    Option (List Row) × Nat × List DBOp :=
  match db.find m fields 100 with
  | .ok rows =>
    let count := match db.count m with
      | .ok n => n
      | .error _ => 0
    (some rows, count, [.Find m fields 100, .Count m])
  | .error _ => (none, 0, [.Find m fields 100])

/-- The loop of executeSelect that collects `fields` and `source`. -/
def selectComponents (node : AST) : List GoString × GoString :=
  node.Children.foldl
    (fun (acc : List GoString × GoString) child =>
      if child.Value.Typ = .Field then
        let fields := acc.1 ++ [child.Value.Value]
        let source :=
          if acc.2 = [] ∧ node.Children.length > 1 then
            match node.Children[1]? with
            | some second => if second.Value.Typ = .Field then second.Value.Value else acc.2
            | none => acc.2
          else acc.2
        (fields, source)
      else acc)
    ([], [])

/-- Interpreter.executeSelect. -/
def executeSelect (i : Interpreter Row) (node : AST) :
    Except GoError (QueryResult Row) × List DBOp :=
  let fields := (selectComponents node).1
  let source := (selectComponents node).2
  let fetched : Option (List Row) × Nat × List DBOp :=
    match i.db with
    | some db =>
      if source ≠ [] then
        if source = str "products" then fetchAndCount db .Product fields
        else if source = str "orders" then fetchAndCount db .Order fields
        else (none, 0, [])
      else (none, 0, [])
    | none => (none, 0, [])
  let data := fetched.1
  let count := fetched.2.1
  (.ok { Typ := str "SELECT", Data := data, Count := count, Success := true,
         Message := str "Selected " ++ decimal count ++ str " records FROM " ++ source ++
           str " (REAL data)" }, fetched.2.2)

/-- The entity of a FIND, UPDATE or ANALYZE node: the text of the first child when that
child is a Field node, otherwise empty. -/
def entityOf (node : AST) : GoString :=
  match node.Children with
  | first :: _ => if first.Value.Typ = .Field then first.Value.Value else []
  | [] => []

/-- Interpreter.executeFind. -/
def executeFind (i : Interpreter Row) (node : AST) :
    Except GoError (QueryResult Row) × List DBOp :=
  let entity := entityOf node
  let fetched : Option (List Row) × Nat × List DBOp :=
    match i.db with
    | some db =>
      if entity = str "products" then fetchAndCount db .Product []
      else if entity = str "orders" then fetchAndCount db .Order []
      else if entity = str "stores" then fetchAndCount db .Store []
      else (none, 0, [])
    | none => (none, 0, [])
  let data := fetched.1
  let count := fetched.2.1
  (.ok { Typ := str "FIND", Data := data, Count := count, Success := true,
         Message := str "Found " ++ decimal count ++ str " " ++ entity ++
           str " from REAL database" }, fetched.2.2)

/-- Interpreter.executeUpdate. -/
def executeUpdate (_i : Interpreter Row) (node : AST) :
    Except GoError (QueryResult Row) × List DBOp :=
  let entity := entityOf node
  (.ok { Typ := str "UPDATE", Data := none, Count := 0, Success := true,
         Message := str "Executed UPDATE " ++ entity }, [])

/-- Interpreter.executeAnalyze. -/
def executeAnalyze (_i : Interpreter Row) (node : AST) :
    Except GoError (QueryResult Row) × List DBOp :=
  let entity := entityOf node
  (.ok { Typ := str "ANALYZE", Data := none, Count := 0, Success := true,
         Message := str "Executed ANALYZE " ++ entity }, [])

/-- Interpreter.Execute. -/
def Execute (i : Interpreter Row) : Except GoError (QueryResult Row) × List DBOp :=
  match i.ast with
  | none => (.error ⟨str "empty AST"⟩, [])
  | some ast =>
    match ast.Children with
    | [] => (.error ⟨str "empty AST"⟩, [])
    | queryNode :: _ =>
      match queryNode.Value.Typ with
      | .Select => i.executeSelect queryNode
      | .Find => i.executeFind queryNode
      | .Update => i.executeUpdate queryNode
      | .Analyze => i.executeAnalyze queryNode
      | t => (.error ⟨str "unknown query type: " ++ t.text⟩, [])

end Interpreter

/-! ## sqc.go -/

/-- The call `fmt.Errorf(prefix + "%w", err)`. -/
def wrapError (pre : String) (err : GoError) : GoError :=
  ⟨str pre ++ err.msg⟩

/-- The function sqc.Execute; the second component lists the store calls issued. -/
def Execute {Row : Type} (query : GoString) (db : Option (DB Row)) :
    Option (Except GoError (QueryResult Row) × List DBOp) :=
  (NewLexer query).Tokenize.map fun lexed =>
    match lexed with
    | .error err => (.error (wrapError "lexical analysis failed: " err), [])
    | .ok tokens =>
      match (NewParser tokens).Parse with
      | .error err => (.error (wrapError "parsing failed: " err), [])
      | .ok ast =>
        match (NewInterpreter (some ast) db).Execute with
        | (.error err, ops) => (.error (wrapError "execution failed: " err), ops)
        | (.ok result, ops) => (.ok result, ops)

/-- The function sqc.Validate; `.ok ()` is the nil error. -/
def Validate (query : GoString) : Option (Except GoError Unit) :=
  (NewLexer query).Tokenize.map fun lexed =>
    match lexed with
    | .error err => .error err
    | .ok tokens =>
      match (NewParser tokens).Parse with
      | .error err => .error err
      | .ok _ => .ok ()

/-- The function sqc.Tokenize. -/
def Tokenize (query : GoString) : Option (Except GoError (List Token)) :=
  (NewLexer query).Tokenize

/-! ## automata/state_machine.go

Every method of `*FSM` holds the mutex `mu` for its whole body, so the calls on one machine
happen one after another; the embedding describes this sequential behaviour and leaves the
mutex out.  A method with a pointer receiver returns the machine as it is after the call.
A Go map is a function to `Option`, `none` where the key is absent; the inner maps of
`transitions` are created by `make` and are never nil, so `transitions[s] == nil` holds
exactly when the key `s` is absent.

A callback is a Go function value, called for its effects.  The embedding keeps the
callbacks as values of a type `CB` and `Trigger` returns, next to its error, the effects it
performs in program order: the write to `current` and the callback invocations with their
arguments.  Callbacks run while `Trigger` holds the mutex and cannot call back into the
machine without blocking; they are taken not to touch it. -/

/-- State of state_machine.go, a string type (`models.OrderStatus`). -/
abbrev State := GoString

/-- Event of state_machine.go, a string type. -/
abbrev Event := GoString

/-- The constants of `models.OrderStatus` behind the order states. -/
def OrderPending : State := str "pending"
/-- OrderConfirmed. -/
def OrderConfirmed : State := str "confirmed"
/-- OrderProcessing. -/
def OrderProcessing : State := str "processing"
/-- OrderShipped. -/
def OrderShipped : State := str "shipped"
/-- OrderDelivered. -/
def OrderDelivered : State := str "delivered"
/-- OrderCancelled. -/
def OrderCancelled : State := str "cancelled"
/-- OrderRefunded. -/
def OrderRefunded : State := str "refunded"

/-- EventConfirm. -/
def EventConfirm : Event := str "CONFIRM"
/-- EventProcess. -/
def EventProcess : Event := str "PROCESS"
/-- EventShip. -/
def EventShip : Event := str "SHIP"
/-- EventDeliver. -/
def EventDeliver : Event := str "DELIVER"
/-- EventCancel. -/
def EventCancel : Event := str "CANCEL"
/-- EventRefund. -/
def EventRefund : Event := str "REFUND"

/-- Transition of state_machine.go (`Evt` is the Go field `Event`). -/
structure Transition where
  From : State
  Evt : Event
  To : State
deriving DecidableEq, Repr

/-- FSM of state_machine.go, without the mutex. -/
structure FSM (CB : Type) where
  current : State
  transitions : State → Option (Event → Option State)
  callbacks : Event → Option (List CB)

/-- What `Trigger` does besides returning: the assignment `fsm.current = s` and the call
`callback(from, to)`. -/
inductive Effect (CB : Type) where
  | SetCurrent (s : State)
  | Call (callback : CB) (fromState toState : State)
deriving DecidableEq, Repr

/-- NewFSM of state_machine.go. -/
def NewFSM {CB : Type} (initialState : State) : FSM CB :=
  { current := initialState, transitions := fun _ => none, callbacks := fun _ => none }

namespace FSM

variable {CB : Type}

/-- FSM.AddTransition. -/
def AddTransition (fsm : FSM CB) (fromState : State) (event : Event) (toState : State) : FSM CB :=
  let inner : Event → Option State :=
    match fsm.transitions fromState with
    | none => fun _ => none
    | some m => m
  { fsm with
    transitions := fun s =>
      if s = fromState then some (fun e => if e = event then some toState else inner e)
      else fsm.transitions s }

/-- FSM.Trigger: the error (`.ok ()` is nil), the machine after the call and the effects
performed, in order. -/
def Trigger (fsm : FSM CB) (event : Event) : Except GoError Unit × FSM CB × List (Effect CB) :=
  match fsm.transitions fsm.current with
  | none => (.error (errorsNew "no transitions defined for current state"), fsm, [])
  | some m =>
    match m event with
    | none => (.error (errorsNew "invalid transition"), fsm, [])
    | some nextState =>
      let oldState := fsm.current
      let fsm1 := { fsm with current := nextState }
      let calls : List (Effect CB) :=
        match fsm1.callbacks event with
        | some callbacks => callbacks.map fun callback => .Call callback oldState nextState
        | none => []
      (.ok (), fsm1, .SetCurrent nextState :: calls)

/-- FSM.Current: the value returned and the machine after the call. -/
def Current (fsm : FSM CB) : State × FSM CB :=
  (fsm.current, fsm)

/-- FSM.CanTransition: the value returned and the machine after the call. -/
def CanTransition (fsm : FSM CB) (event : Event) : Bool × FSM CB :=
  match fsm.transitions fsm.current with
  | none => (false, fsm)
  | some m =>
    match m event with
    | some _ => (true, fsm)
    | none => (false, fsm)

/-- FSM.OnTransition. -/
def OnTransition (fsm : FSM CB) (event : Event) (callback : CB) : FSM CB :=
  let registered : List CB :=
    match fsm.callbacks event with
    | none => []
    | some cbs => cbs
  { fsm with
    callbacks := fun e => if e = event then some (registered ++ [callback]) else fsm.callbacks e }

end FSM

/-- NewOrderStateMachine of state_machine.go. -/
def NewOrderStateMachine {CB : Type} : FSM CB :=
  let fsm : FSM CB := NewFSM OrderPending
  let fsm := fsm.AddTransition OrderPending EventConfirm OrderConfirmed
  let fsm := fsm.AddTransition OrderPending EventCancel OrderCancelled
  let fsm := fsm.AddTransition OrderConfirmed EventProcess OrderProcessing
  let fsm := fsm.AddTransition OrderConfirmed EventCancel OrderCancelled
  let fsm := fsm.AddTransition OrderProcessing EventShip OrderShipped
  let fsm := fsm.AddTransition OrderProcessing EventCancel OrderCancelled
  let fsm := fsm.AddTransition OrderShipped EventDeliver OrderDelivered
  let fsm := fsm.AddTransition OrderShipped EventCancel OrderCancelled
  let fsm := fsm.AddTransition OrderDelivered EventRefund OrderRefunded
  let fsm := fsm.AddTransition OrderCancelled EventRefund OrderRefunded
  fsm

/-! ## adt/stack.go

The methods of `*ArrayStack`, `*LinkedQueue` and `*HashSet` hold the mutex of their object
for the whole body; as for the state machine, the embedding describes the calls on one
object one after another and leaves the mutex out.  A method returns the object as it is
after the call, also when it only reads. -/

/-- ArrayStack of stack.go: the slice `items`, the top of the stack last. -/
structure ArrayStack (T : Type) where
  items : List T
deriving DecidableEq, Repr

/-- NewStack of stack.go. -/
def NewStack {T : Type} : ArrayStack T :=
  { items := [] }

namespace ArrayStack

variable {T : Type}

/-- ArrayStack.Push. -/
def Push (s : ArrayStack T) (item : T) : ArrayStack T :=
  { items := s.items ++ [item] }

/-- ArrayStack.Pop: the pair `(T, error)` and the stack after the call. -/
def Pop (s : ArrayStack T) : Except GoError T × ArrayStack T :=
  if h : s.items.length = 0 then (.error (errorsNew "stack is empty"), s)
  else
    let index := s.items.length - 1
    have hi : index < s.items.length := Nat.sub_lt (Nat.pos_of_ne_zero h) Nat.one_pos
    let item := s.items[index]
    (.ok item, { items := s.items.take index })

/-- ArrayStack.Peek: the pair `(T, error)` and the stack after the call. -/
def Peek (s : ArrayStack T) : Except GoError T × ArrayStack T :=
  if h : s.items.length = 0 then (.error (errorsNew "stack is empty"), s)
  else
    have hi : s.items.length - 1 < s.items.length :=
      Nat.sub_lt (Nat.pos_of_ne_zero h) Nat.one_pos
    (.ok s.items[s.items.length - 1], s)

/-- ArrayStack.IsEmpty. -/
def IsEmpty (s : ArrayStack T) : Bool × ArrayStack T :=
  (s.items.length == 0, s)

/-- ArrayStack.Size. -/
def Size (s : ArrayStack T) : Nat × ArrayStack T :=
  (s.items.length, s)

/-- ArrayStack.Clear. -/
def Clear (_s : ArrayStack T) : ArrayStack T :=
  { items := [] }

end ArrayStack

/-! ## adt/queue.go

The nodes of a queue are allocated one by one and linked through pointers.  The embedding
keeps the nodes a queue has allocated in the list `heap`, in the order of allocation; a
pointer `*node[T]` is `none` for nil or the index of a node in `heap`.  Go has no pointer
that is neither nil nor the address of an allocated object, so a method that would follow
such a pointer has no Go run to describe: it returns `none` in an outer `Option`. -/

/-- The struct `node` of queue.go. -/
structure node (T : Type) where
  data : T
  next : Option Nat
deriving DecidableEq, Repr

/-- LinkedQueue of queue.go, with the nodes allocated so far. -/
structure LinkedQueue (T : Type) where
  heap : List (node T)
  head : Option Nat
  tail : Option Nat
  size : Int
deriving DecidableEq, Repr

/-- NewQueue of queue.go. -/
def NewQueue {T : Type} : LinkedQueue T :=
  { heap := [], head := none, tail := none, size := 0 }

namespace LinkedQueue

variable {T : Type}

/-- LinkedQueue.Enqueue. -/
def Enqueue (q : LinkedQueue T) (item : T) : Option (LinkedQueue T) :=
  let newNode := q.heap.length
  let heap := q.heap ++ [{ data := item, next := none }]
  match q.tail with
  | none =>
    some { heap := heap, head := some newNode, tail := some newNode, size := q.size + 1 }
  | some t =>
    match heap[t]? with
    | none => none
    | some n =>
      some { heap := heap.set t { n with next := some newNode }, head := q.head,
             tail := some newNode, size := q.size + 1 }

/-- LinkedQueue.Dequeue: the pair `(T, error)` and the queue after the call. -/
def Dequeue (q : LinkedQueue T) : Option (Except GoError T × LinkedQueue T) :=
  match q.head with
  | none => some (.error (errorsNew "queue is empty"), q)
  | some h =>
    match q.heap[h]? with
    | none => none
    | some n =>
      let item := n.data
      let head := n.next
      let tail := if head = none then none else q.tail
      some (.ok item, { heap := q.heap, head := head, tail := tail, size := q.size - 1 })

/-- LinkedQueue.Front: the pair `(T, error)` and the queue after the call. -/
def Front (q : LinkedQueue T) : Option (Except GoError T × LinkedQueue T) :=
  match q.head with
  | none => some (.error (errorsNew "queue is empty"), q)
  | some h =>
    match q.heap[h]? with
    | none => none
    | some n => some (.ok n.data, q)

/-- LinkedQueue.IsEmpty. -/
def IsEmpty (q : LinkedQueue T) : Bool × LinkedQueue T :=
  (q.size == 0, q)

/-- LinkedQueue.Size. -/
def Size (q : LinkedQueue T) : Int × LinkedQueue T :=
  (q.size, q)

/-- LinkedQueue.Clear. -/
def Clear (q : LinkedQueue T) : LinkedQueue T :=
  { heap := q.heap, head := none, tail := none, size := 0 }

end LinkedQueue


/-! ## adt/set.go

A Go map of type `map[T]struct{}` holds entries whose keys are pairwise unequal under the
operator `==` of `T`.  The embedding keeps the keys in a list, and a `range` over the map
visits them in the order of the list.  Go leaves the order of a `range` over a map
unspecified; the theorems below are about membership and size and are stated for every
such list, whatever its order.

The operator `==` of a key type need not hold between a value and itself: a floating-point
NaN is unequal to every value, itself included, so a lookup of NaN never finds an entry and
every assignment with the key NaN adds one. -/

/-- The operator `==` of a Go type `T` that satisfies the constraint `comparable` and whose
comparison never panics (a strictly comparable type: booleans, numbers, strings, pointers,
channels, and arrays and structs of such types).  The operator is symmetric and transitive;
it is not required to be reflexive. -/
class GoComparable (T : Type) where
  /-- The value of `a == b`. -/
  eq : T → T → Bool
  /-- The value of `a == b` is the value of `b == a`. -/
  symm : ∀ a b, eq a b = eq b a
  /-- Values equal to the same value are equal. -/
  trans : ∀ a b c, eq a b = true → eq b c = true → eq a c = true

/-- The operator `==` of a type whose values are equal exactly when they are the same
value, as for the integers, the booleans and the strings. -/
def GoComparable.ofDecidableEq (T : Type) [DecidableEq T] : GoComparable T where
  eq a b := decide (a = b)
  symm a b := by
    show decide (a = b) = decide (b = a)
    by_cases h : a = b
    · subst h; rfl
    · rw [decide_eq_false h, decide_eq_false (fun h2 => h h2.symm)]
  trans a b c h1 h2 := by
    show decide (a = c) = true
    have h3 : decide (a = b) = true := h1
    have h4 : decide (b = c) = true := h2
    rw [decide_eq_true_eq] at h3 h4 ⊢
    exact h3.trans h4

/-- Go strings are equal exactly when they have the same bytes. -/
instance : GoComparable GoString := GoComparable.ofDecidableEq GoString

/-- The values of the Go type `float64`, a type that satisfies `comparable`, as far as `==`
tells them apart: NaN, the two infinities and the finite numbers.  The finite numbers are
kept as rationals, the two zeros as the one number 0. -/
inductive Float64 where
  | NaN
  | negInf
  | posInf
  | finite (value : ℚ)

/-- The operator `==` on `float64`: NaN is unequal to every value, itself included. -/
def Float64.eq : Float64 → Float64 → Bool
  | .negInf, .negInf => true
  | .posInf, .posInf => true
  | .finite a, .finite b => decide (a = b)
  | _, _ => false

instance : GoComparable Float64 where
  eq := Float64.eq
  symm a b := by
    cases a <;> cases b <;> simp only [Float64.eq]
    rename_i a b
    by_cases h : a = b
    · subst h; rfl
    · rw [decide_eq_false h, decide_eq_false (fun h2 => h h2.symm)]
  trans a b c h1 h2 := by
    cases a <;> cases b <;> cases c <;> simp only [Float64.eq] at h1 h2 ⊢ <;>
      first | rfl | exact Bool.noConfusion h1 | exact Bool.noConfusion h2 | skip
    rw [decide_eq_true_eq] at h1 h2 ⊢
    exact h1.trans h2

/-- The map type `map[T]struct{}` for a comparable `T`: the keys of the entries, no two of
them equal under `==`. -/
structure KeySet (T : Type) [GoComparable T] where
  keys : List T
  distinct : keys.Pairwise fun a b => GoComparable.eq a b = false

namespace KeySet

variable {T : Type} [GoComparable T]

/-- The call `make(map[T]struct{})`. -/
def make : KeySet T :=
  { keys := [], distinct := List.Pairwise.nil }

/-- The second value of `_, exists := m[k]`: whether an entry has a key equal to `k`. -/
def has (m : KeySet T) (k : T) : Bool :=
  m.keys.any fun key => GoComparable.eq key k

/-- The assignment `m[k] = struct{}{}`: a new entry when no key is equal to `k`; otherwise
the entry with the equal key stays, with `k` written over its key (as the Go runtime does;
`HashSet.Add` only stores a key that the lookup did not find). -/
def store (m : KeySet T) (k : T) : KeySet T :=
  if h : m.has k = true then
    { keys := m.keys.map fun key => if GoComparable.eq key k then k else key,
      distinct := by
        refine List.Pairwise.map _ ?_ m.distinct
        intro a b hab
        by_cases ha : GoComparable.eq a k = true <;> by_cases hb : GoComparable.eq b k = true
        · have hkb : GoComparable.eq k b = true := by rw [GoComparable.symm]; exact hb
          rw [GoComparable.trans a k b ha hkb] at hab
          cases hab
        · rw [if_pos ha, if_neg hb, GoComparable.symm]
          simpa using hb
        · rw [if_neg ha, if_pos hb]
          simpa using ha
        · rw [if_neg ha, if_neg hb]
          exact hab }
  else
    { keys := m.keys ++ [k],
      distinct := by
        refine List.pairwise_append.2 ⟨m.distinct, List.pairwise_singleton _ _, ?_⟩
        intro a ha b hb
        rw [List.mem_singleton] at hb
        subst hb
        by_contra hab
        exact h (List.any_eq_true.2 ⟨a, ha, by simpa using hab⟩) }

/-- The call `delete(m, k)`: the entry whose key is equal to `k` goes, if there is one. -/
def delete (m : KeySet T) (k : T) : KeySet T :=
  { keys := m.keys.filter fun key => !GoComparable.eq key k,
    distinct := m.distinct.sublist (List.filter_sublist _) }

/-- The call `len(m)`. -/
def len (m : KeySet T) : Nat :=
  m.keys.length

end KeySet

/-- HashSet of set.go. -/
structure HashSet (T : Type) [GoComparable T] where
  items : KeySet T

/-- NewSet of set.go. -/
def NewSet {T : Type} [GoComparable T] : HashSet T :=
  { items := KeySet.make }

namespace HashSet

variable {T : Type} [GoComparable T]

/-- HashSet.Add: the value returned and the set after the call. -/
def Add (s : HashSet T) (item : T) : Bool × HashSet T :=
  if s.items.has item then (false, s)
  else (true, { items := s.items.store item })

/-- HashSet.Remove. -/
def Remove (s : HashSet T) (item : T) : Bool × HashSet T :=
  if !s.items.has item then (false, s)
  else (true, { items := s.items.delete item })

/-- HashSet.Contains. -/
def Contains (s : HashSet T) (item : T) : Bool × HashSet T :=
  (s.items.has item, s)

/-- HashSet.Size. -/
def Size (s : HashSet T) : Nat × HashSet T :=
  (s.items.len, s)

/-- HashSet.Clear. -/
def Clear (_s : HashSet T) : HashSet T :=
  { items := KeySet.make }

/-- HashSet.Items: the keys in the order of the `range`. -/
def Items (s : HashSet T) : List T × HashSet T :=
  (s.items.keys.foldl (fun result item => result ++ [item]) [], s)

/-- HashSet.Union: the new set, then the receiver and the argument after the call. -/
def Union (s other : HashSet T) : HashSet T × HashSet T × HashSet T :=
  let result : HashSet T := NewSet
  let listed := s.Items
  let result := listed.1.foldl (fun (r : HashSet T) item => (r.Add item).2) result
  let listed2 := other.Items
  let result := listed2.1.foldl (fun (r : HashSet T) item => (r.Add item).2) result
  (result, listed.2, listed2.2)

/-- HashSet.Intersection: the new set, then the receiver and the argument after the call. -/
def Intersection (s other : HashSet T) : HashSet T × HashSet T × HashSet T :=
  let result : HashSet T := NewSet
  let listed := s.Items
  let looped := listed.1.foldl
    (fun (acc : HashSet T × HashSet T) item =>
      let test := acc.2.Contains item
      if test.1 then ((acc.1.Add item).2, test.2) else (acc.1, test.2))
    (result, other)
  (looped.1, listed.2, looped.2)

/-- HashSet.Difference: the new set, then the receiver and the argument after the call. -/
def Difference (s other : HashSet T) : HashSet T × HashSet T × HashSet T :=
  let result : HashSet T := NewSet
  let listed := s.Items
  let looped := listed.1.foldl
    (fun (acc : HashSet T × HashSet T) item =>
      let test := acc.2.Contains item
      if !test.1 then ((acc.1.Add item).2, test.2) else (acc.1, test.2))
    (result, other)
  (looped.1, listed.2, looped.2)

end HashSet

/-! ## adt/tree.go: GenericTree

`TreeNode` is embedded above as a value: a node with its children.  A pointer
`*TreeNode[T]` that a caller of GenericTree holds is embedded relative to the tree: it is
nil, or the path from the root to a node of the tree (the indices of the children to
follow), or it points to a node that is not linked under the root.  A path that leads to no
node of the tree is read as such an outside node. -/

/-- A pointer `*TreeNode[T]` held by a caller of a tree. -/
inductive NodePtr where
  | nil
  | node (path : List Nat)
  | outside
deriving DecidableEq, Repr

namespace TreeNode

variable {T : Type}

/-- The node that the path leads to, starting at `n`. -/
def nodeAt (n : TreeNode T) : List Nat → Option (TreeNode T)
  | [] => some n
  | i :: rest =>
    match n.Children[i]? with
    | none => none
    | some c => c.nodeAt rest

/-- The tree under `n` after the node that the path leads to has been changed by `f`
through a pointer to it; `none` when the path leads to no node. -/
def modifyAt (f : TreeNode T → TreeNode T) : List Nat → TreeNode T → Option (TreeNode T)
  | [], n => some (f n)
  | i :: rest, n =>
    match n.Children[i]? with
    | none => none
    | some c => (modifyAt f rest c).map fun c1 => .mk n.Value (n.Children.set i c1)

/-- TreeNode.AddChild: the node after the call and the child it returns. -/
def AddChild (n : TreeNode T) (value : T) : TreeNode T × TreeNode T :=
  let child : TreeNode T := .mk value []
  (n.appendChild child, child)

end TreeNode

/-- GenericTree of tree.go. -/
structure GenericTree (T : Type) where
  root : Option (TreeNode T)
  size : Int

/-- NewTree of tree.go. -/
def NewTree {T : Type} (rootValue : T) : GenericTree T :=
  { root := some (.mk rootValue []), size := 1 }

namespace GenericTree

variable {T : Type}

/-- GenericTree.Root. -/
def Root (t : GenericTree T) : NodePtr × GenericTree T :=
  match t.root with
  | some _ => (.node [], t)
  | none => (.nil, t)

/-- GenericTree.Insert: the pointer to the new node and the tree after the call.  Under a
nil parent, or a parent outside the tree, the new node is not linked under the root. -/
def Insert (t : GenericTree T) (parent : NodePtr) (value : T) : NodePtr × GenericTree T :=
  let newNode : TreeNode T := .mk value []
  match parent with
  | .nil => (.outside, { t with size := t.size + 1 })
  | .outside => (.outside, { t with size := t.size + 1 })
  | .node path =>
    match t.root with
    | none => (.outside, { t with size := t.size + 1 })
    | some r =>
      match r.nodeAt path, TreeNode.modifyAt (fun p => p.appendChild newNode) path r with
      | some p, some r1 =>
        (.node (path ++ [p.Children.length]), { root := some r1, size := t.size + 1 })
      | _, _ => (.outside, { t with size := t.size + 1 })

/-- The tree after `AddChild(value)` has been called on the node that `n` points to:
TreeNode.AddChild changes that node and has no access to the tree it belongs to. -/
def afterAddChild (t : GenericTree T) (n : NodePtr) (value : T) : NodePtr × GenericTree T :=
  match n with
  | .nil => (.outside, t)
  | .outside => (.outside, t)
  | .node path =>
    match t.root with
    | none => (.outside, t)
    | some r =>
      match r.nodeAt path, TreeNode.modifyAt (fun p => (p.AddChild value).1) path r with
      | some p, some r1 => (.node (path ++ [p.Children.length]), { t with root := some r1 })
      | _, _ => (.outside, t)

mutual
/-- GenericTree.traverseHelper: the nodes passed to `visitor`, in the order of the calls. -/
def traverseHelper : TreeNode T → List (TreeNode T)
  | .mk v cs => .mk v cs :: traverseChildren cs
/-- The loop `for _, child := range node.Children` of traverseHelper. -/
def traverseChildren : List (TreeNode T) → List (TreeNode T)
  | [] => []
  | child :: rest => traverseHelper child ++ traverseChildren rest
end

/-- GenericTree.Traverse: the nodes passed to `visitor`, in the order of the calls. -/
def Traverse (t : GenericTree T) : List (TreeNode T) :=
  match t.root with
  | some r => traverseHelper r
  | none => []

/-- GenericTree.Size. -/
def Size (t : GenericTree T) : Int × GenericTree T :=
  (t.size, t)

end GenericTree

/-! ## concurrency/producer_consumer.go

Every method of `*Buffer` holds the mutex `mu` from its first statement to its return, and
`Wait` gives it up only while the caller is suspended, so the method bodies run one at a
time.  The embedding describes the calls on one buffer one after another, in the order in
which they get the mutex.  In such a run nobody is waiting on a condition variable, so
`Signal` does nothing, and a `Wait` is never followed by a wake-up: a `Produce` on a full
buffer and a `Consume` on an empty one do not return, which is `none` in the outer
`Option`, like a run-time panic (an index out of range, a division by zero).  The zero
value of `T` is `default`. -/

/-- Buffer of producer_consumer.go, without the mutex and the condition variables. -/
structure Buffer (T : Type) where
  data : List T
  capacity : Nat
  size : Nat
  head : Nat
  tail : Nat
deriving DecidableEq, Repr

/-- NewBuffer of producer_consumer.go; `make` panics on a negative length. -/
def NewBuffer {T : Type} [Inhabited T] (capacity : Int) : Option (Buffer T) :=
  if capacity < 0 then none
  else some { data := List.replicate capacity.toNat default, capacity := capacity.toNat,
              size := 0, head := 0, tail := 0 }

namespace Buffer

variable {T : Type} [Inhabited T]

/-- The statements `b.data[b.tail] = item; b.tail = (b.tail + 1) % b.capacity; b.size++`
shared by Produce and TryProduce. -/
def put (b : Buffer T) (item : T) : Option (Buffer T) :=
  if b.tail < b.data.length then
    if b.capacity = 0 then none
    else some { b with data := b.data.set b.tail item, tail := (b.tail + 1) % b.capacity,
                       size := b.size + 1 }
  else none

/-- The statements `item := b.data[b.head]; b.head = (b.head + 1) % b.capacity; b.size--`
shared by Consume and TryConsume. -/
def take (b : Buffer T) : Option (T × Buffer T) :=
  match b.data[b.head]? with
  | none => none
  | some item =>
    if b.capacity = 0 then none
    else some (item, { b with head := (b.head + 1) % b.capacity, size := b.size - 1 })

/-- Buffer.Produce. -/
def Produce (b : Buffer T) (item : T) : Option (Buffer T) :=
  if b.size = b.capacity then none
  else b.put item

/-- Buffer.Consume. -/
def Consume (b : Buffer T) : Option (T × Buffer T) :=
  if b.size = 0 then none
  else b.take

/-- Buffer.TryProduce. -/
def TryProduce (b : Buffer T) (item : T) : Option (Bool × Buffer T) :=
  if b.size = b.capacity then some (false, b)
  else (b.put item).map fun b1 => (true, b1)

/-- Buffer.TryConsume: the pair `(T, bool)` and the buffer after the call. -/
def TryConsume (b : Buffer T) : Option ((T × Bool) × Buffer T) :=
  if b.size = 0 then some ((default, false), b)
  else b.take.map fun r => ((r.1, true), r.2)

/-- Buffer.Size. -/
def Size (b : Buffer T) : Nat × Buffer T :=
  (b.size, b)

end Buffer

/-! ## concurrency/pipeline.go: FanIn

`FanIn` makes the channel `out`, starts one goroutine and returns `out` at once.  What is
embedded is the run of that goroutine: the values it sends on `out`, in order, before the
deferred `close(out)`.

A channel that the goroutine only receives from is embedded by what it delivers: the
sequence of the values sent on it before it is closed.  A `range` over such a channel runs
its body once for each value, in order, and ends when the channel is closed.

The `select` in the loop offers two communications, the send on `out` and the receive
from `ctx.Done()`.  Which of them takes place is decided outside the goroutine, by a
receiver on `out` and by a cancellation of `ctx`; the embedding takes the decision as the
parameter `cancelled`: `cancelled k` tells whether the `select` that the goroutine executes
as its `k`-th one, counted from 0, takes the case `<-ctx.Done()`.  In a run without
cancellation `cancelled` is false throughout.  A run in which the goroutine stays blocked
in a `select` for ever, or in which an input is never closed, sends a prefix of what is
described here and never closes `out`; such runs are not embedded. -/

/-- The loop `for item := range input` of FanIn, entered with `k` selects executed and
`sent` sent on `out` so far: whether the goroutine returns from inside the loop, the number
of selects executed and the values sent by then. -/
def fanInRange {T : Type} (cancelled : Nat → Bool) :
    List T → Nat → List T → Bool × Nat × List T
  | [], k, sent => (false, k, sent)
  | item :: rest, k, sent =>
    if cancelled k then (true, k + 1, sent)
    else fanInRange cancelled rest (k + 1) (sent ++ [item])

/-- The loop `for _, input := range inputs` of FanIn: the values sent on `out` when the
goroutine returns. -/
def fanInLoop {T : Type} (cancelled : Nat → Bool) :
    List (List T) → Nat → List T → List T
  | [], _, sent => sent
  | input :: inputs, k, sent =>
    match fanInRange cancelled input k sent with
    | (true, _, sent1) => sent1
    | (false, k1, sent1) => fanInLoop cancelled inputs k1 sent1

/-- FanIn of pipeline.go: the sequence of values delivered on the channel it returns,
which is closed after them. -/
def FanIn {T : Type} (cancelled : Nat → Bool) (inputs : List (List T)) : List T :=
  fanInLoop cancelled inputs 0 []

/-! ## Vocabulary of the verification

The definitions below are not part of the program; the theorems are stated with them.

For the lexer they describe a state by the bytes it has not read yet (`rest`) and by the
bytes a call reads (`consume`); `lexeme` reads one token off a byte sequence, and
`NextToken_eq_lexeme` proves that the position-based `NextToken` above computes exactly
that.  For the parser they name the unread tokens (`Parser.rest`), the token the parser
sees there (`seen`) and the tests it applies to it (`Token.reads`). -/

namespace Lexer

/-- The unread input `input[pos:]`. -/
def rest (l : Lexer) : GoString := l.input.drop l.pos

/-- Line and column after reading one byte. -/
def track (lc : Nat × Nat) (b : Byte) : Nat × Nat :=
  if b = 10 then (lc.1 + 1, 1) else (lc.1, lc.2 + 1)

/-- The state after reading the bytes `bs`. -/
def consume (l : Lexer) (bs : GoString) : Lexer :=
  { l with pos := l.pos + bs.length,
           line := (bs.foldl track (l.line, l.column)).1,
           column := (bs.foldl track (l.line, l.column)).2 }

end Lexer

/-- The text of a number token read off `r`: the digits, then a dot and more digits when
a dot follows the digits. -/
def numberText (r : GoString) : GoString :=
  match r.dropWhile isDigit with
  | d :: r2 => if d == 46 then r.takeWhile isDigit ++ d :: r2.takeWhile isDigit
               else r.takeWhile isDigit
  | [] => r.takeWhile isDigit

/-- The token read off `c :: r` when `c` is a quote: kind, text and bytes read. -/
def stringLexeme (c : Byte) (r : GoString) : TokenType × GoString × GoString :=
  match r.dropWhile (fun b => b != c) with
  | [] => (.Error, str "unterminated string", c :: r.takeWhile (fun b => b != c))
  | q :: _ => (.String, r.takeWhile (fun b => b != c),
               c :: (r.takeWhile (fun b => b != c) ++ [q]))

/-- The token read off `c :: r` when `c` is an operator character: kind, text and bytes read. -/
def operatorLexeme (c : Byte) (r : GoString) : TokenType × GoString × GoString :=
  match r with
  | d :: _ =>
    if [c, d] = str "<=" ∨ [c, d] = str ">=" ∨ [c, d] = str "!=" ∨ [c, d] = str "==" then
      (.Operator, [c, d], [c, d])
    else (.Operator, [c], [c])
  | [] => (.Operator, [c], [c])

/-- The first token of the byte sequence `r` (which does not start with white space):
its kind, its text, and the bytes it is read from. -/
def lexeme : GoString → TokenType × GoString × GoString
  | [] => (.EOF, [], [])
  | c :: r =>
    if isLetter c || c == 95 then
      let w := (c :: r).takeWhile Lexer.isIdentPart
      if keywords (ToUpper w) then (.Keyword, ToUpper w, w) else (.Identifier, w, w)
    else if isDigit c then (.Number, numberText (c :: r), numberText (c :: r))
    else if c == 34 || c == 39 then stringLexeme c r
    else if c == 40 then (.LeftParen, str "(", [c])
    else if c == 41 then (.RightParen, str ")", [c])
    else if c == 44 then (.Comma, str ",", [c])
    else if c == 46 then (.Dot, str ".", [c])
    else if c == 42 then (.Asterisk, str "*", [c])
    else if Lexer.isOperatorChar c then operatorLexeme c r
    else (.Error, utf8 c.val, [c])

/-- Kind and text of each token of a sequence. -/
def shape (tokens : List Token) : List (TokenType × GoString) :=
  tokens.map fun t => (t.Typ, t.Value)

/-- Kind and text of the tokens read off the byte sequence `r`, one `lexeme` after the
other up to the first EOF or Error; the first argument bounds the number of tokens. -/
def lexAll : Nat → GoString → Option (List (TokenType × GoString))
  | 0, _ => none
  | n + 1, r =>
    let tk := lexeme (r.dropWhile isSpace)
    if tk.1 = .EOF ∨ tk.1 = .Error then some [(tk.1, tk.2.1)]
    else (lexAll n ((r.dropWhile isSpace).drop tk.2.2.length)).map fun rest =>
      (tk.1, tk.2.1) :: rest

/-- The zero-valued EOF token that `Parser.currentToken` returns past the end. -/
def eofToken : Token := { Typ := .EOF, Value := [], Line := 0, Column := 0 }

/-- The unread tokens `tokens[pos:]` of a parser. -/
def Parser.rest (p : Parser) : List Token := p.tokens.drop p.pos

/-- The token the parser sees when `ts` is unread: the first one, the EOF token past the end. -/
def seen (ts : List Token) : Token := ts.headD eofToken

/-- The parser takes the token `t` for the keyword `v` (the test of `peek` and `expect`):
`t` is not of kind EOF and its text is `v`. -/
def Token.reads (t : Token) (v : GoString) : Prop := t.Typ ≠ .EOF ∧ t.Value = v

instance (t : Token) (v : GoString) : Decidable (t.reads v) :=
  inferInstanceAs (Decidable (t.Typ ≠ .EOF ∧ t.Value = v))

/-- The Go call returned a non-nil error. -/
def failed {α : Type} (r : Except GoError α) : Prop := ∃ err, r = .error err

instance {α : Type} (r : Except GoError α) : Decidable (failed r) :=
  match r with
  | .error err => isTrue ⟨err, rfl⟩
  | .ok _ => isFalse (fun h => h.elim fun _ he => by cases he)

/-- The tokens `fl` are what parseFieldList reads in front of `rest`: one asterisk or
identifier token, or nothing when `rest` starts with neither. -/
def fieldListOf (fl rest : List Token) : Prop :=
  (∃ f, fl = [f] ∧ (f.Typ = .Asterisk ∨ f.Typ = .Identifier)) ∨
  (fl = [] ∧ (seen rest).Typ ≠ .Asterisk ∧ (seen rest).Typ ≠ .Identifier)

instance (fl rest : List Token) : Decidable (fieldListOf fl rest) :=
  match fl with
  | [] =>
    if h : (seen rest).Typ ≠ .Asterisk ∧ (seen rest).Typ ≠ .Identifier then
      isTrue (Or.inr ⟨rfl, h⟩)
    else isFalse (fun hf => hf.elim (fun ⟨_, he, _⟩ => by cases he) (fun ⟨_, h'⟩ => h h'))
  | [f] =>
    if h : f.Typ = .Asterisk ∨ f.Typ = .Identifier then isTrue (Or.inl ⟨f, rfl, h⟩)
    else isFalse (fun hf => hf.elim
      (fun ⟨g, he, hg⟩ => by cases he; exact h hg) (fun ⟨he, _⟩ => by cases he))
  | _ :: _ :: _ =>
    isFalse (fun hf => hf.elim (fun ⟨_, he, _⟩ => by cases he) (fun ⟨he, _⟩ => by cases he))

/-- The tokens `wh` are an optional WHERE clause as the parser reads it: nothing, or the
one token taken for WHERE. -/
def whereOf (wh : List Token) : Prop :=
  wh = [] ∨ ∃ w, wh = [w] ∧ w.reads (str "WHERE")

instance (wh : List Token) : Decidable (whereOf wh) :=
  match wh with
  | [] => isTrue (Or.inl rfl)
  | [w] =>
    if h : w.reads (str "WHERE") then isTrue (Or.inr ⟨w, rfl, h⟩)
    else isFalse (fun hw => hw.elim (fun he => by cases he)
      (fun ⟨_, he, hg⟩ => by cases he; exact h hg))
  | _ :: _ :: _ =>
    isFalse (fun hw => hw.elim (fun he => by cases he) (fun ⟨_, he, _⟩ => by cases he))

/-- The tokens `ob` are an optional ORDER BY clause as the parser reads it: nothing, or
the two tokens taken for ORDER and BY. -/
def orderOf (ob : List Token) : Prop :=
  ob = [] ∨ ∃ o b, ob = [o, b] ∧ o.reads (str "ORDER") ∧ b.reads (str "BY")

instance (ob : List Token) : Decidable (orderOf ob) :=
  match ob with
  | [] => isTrue (Or.inl rfl)
  | [_] =>
    isFalse (fun ho => ho.elim (fun he => by cases he) (fun ⟨_, _, he, _⟩ => by cases he))
  | [o, b] =>
    if h : o.reads (str "ORDER") ∧ b.reads (str "BY") then isTrue (Or.inr ⟨o, b, rfl, h⟩)
    else isFalse (fun ho => ho.elim (fun he => by cases he)
      (fun ⟨_, _, he, hg⟩ => by cases he; exact h hg))
  | _ :: _ :: _ :: _ =>
    isFalse (fun ho => ho.elim (fun he => by cases he) (fun ⟨_, _, he, _⟩ => by cases he))

/-- A store used to instantiate the theorems about the interpreter: every fetch returns
the three records 1, 2, 3 and every count is 250. -/
def sampleDB : DB Nat :=
  { find := fun _ _ _ => .ok [1, 2, 3], count := fun _ => .ok 250 }

/-! ## Vocabulary for trees and for the parser cursor -/

mutual
/-- Every node of a tree: the root, then the nodes under each child, in order. -/
def TreeNode.subtrees {T : Type} : TreeNode T → List (TreeNode T)
  | .mk v cs => .mk v cs :: TreeNode.subtreesOf cs
/-- The nodes of a list of trees, tree after tree. -/
def TreeNode.subtreesOf {T : Type} : List (TreeNode T) → List (TreeNode T)
  | [] => []
  | c :: cs => TreeNode.subtrees c ++ TreeNode.subtreesOf cs
end

/-- The kinds of the children of a node, read left to right. -/
def childKinds (n : AST) : List NodeType :=
  n.Children.map (fun c => c.Value.Typ)

/-- The parser `q` reads the tokens of `p` and its cursor is not behind the cursor of `p`;
it lies within `0 .. len(tokens)` when the cursor of `p` does. -/
def Parser.follows (q p : Parser) : Prop :=
  q.tokens = p.tokens ∧ p.pos ≤ q.pos ∧ (p.pos ≤ p.tokens.length → q.pos ≤ q.tokens.length)

instance (q p : Parser) : Decidable (q.follows p) := by
  unfold Parser.follows; exact inferInstance

/-! ## Vocabulary for the state machine -/

/-- One method call on a machine. -/
inductive FSMCall (CB : Type) where
  | AddTransition (fromState : State) (event : Event) (toState : State)
  | Trigger (event : Event)
  | Current
  | CanTransition (event : Event)
  | OnTransition (event : Event) (callback : CB)

/-- The machine after one method call. -/
def FSM.after {CB : Type} (fsm : FSM CB) : FSMCall CB → FSM CB
  | .AddTransition fromState event toState => fsm.AddTransition fromState event toState
  | .Trigger event => (fsm.Trigger event).2.1
  | .Current => fsm.Current.2
  | .CanTransition event => (fsm.CanTransition event).2
  | .OnTransition event callback => fsm.OnTransition event callback

/-- The machine after a sequence of method calls. -/
def FSM.afterAll {CB : Type} (fsm : FSM CB) (calls : List (FSMCall CB)) : FSM CB :=
  calls.foldl FSM.after fsm

/-- The transitions that a sequence of calls registers, in the order of the calls. -/
def registrations {CB : Type} (calls : List (FSMCall CB)) : List Transition :=
  calls.filterMap fun c =>
    match c with
    | .AddTransition fromState event toState => some { From := fromState, Evt := event, To := toState }
    | _ => none

/-- The callbacks that a sequence of calls registers for `event`, in the order of the calls. -/
def callbacksFor {CB : Type} (event : Event) (calls : List (FSMCall CB)) : List CB :=
  calls.filterMap fun c =>
    match c with
    | .OnTransition e callback => if e = event then some callback else none
    | _ => none

/-- The target of the last registration for `(s, e)` in a list of registrations. -/
def lastTarget (regs : List Transition) (s : State) (e : Event) : Option State :=
  (regs.reverse.find? fun t => t.From = s ∧ t.Evt = e).map fun t => t.To

/-- The entry of the transition table for `(s, e)`: `transitions[s][e]`, `none` when the
key `s` or the key `e` is absent. -/
def FSM.lookup {CB : Type} (fsm : FSM CB) (s : State) (e : Event) : Option State :=
  match fsm.transitions s with
  | none => none
  | some m => m e

/-- The machine built by `NewFSM(s0)` followed by a sequence of method calls. -/
def built {CB : Type} (s0 : State) (calls : List (FSMCall CB)) : FSM CB :=
  (NewFSM s0).afterAll calls

/-! ## Vocabulary for the containers -/

/-- The stack after `Push(x)` for each `x` of `xs`, in order. -/
def ArrayStack.pushAll {T : Type} (s : ArrayStack T) (xs : List T) : ArrayStack T :=
  xs.foldl ArrayStack.Push s

/-- What `n` Pop calls in a row return, in order, and the stack after them. -/
def ArrayStack.popN {T : Type} : Nat → ArrayStack T → List (Except GoError T) × ArrayStack T
  | 0, s => ([], s)
  | n + 1, s =>
    let r := s.Pop
    let rest := ArrayStack.popN n r.2
    (r.1 :: rest.1, rest.2)

/-- One method call on a queue. -/
inductive QueueCall (T : Type) where
  | Enqueue (item : T)
  | Dequeue
  | Front
  | IsEmpty
  | Size
  | Clear
deriving DecidableEq, Repr

/-- The queue after one method call. -/
def LinkedQueue.after {T : Type} (q : LinkedQueue T) : QueueCall T → Option (LinkedQueue T)
  | .Enqueue item => q.Enqueue item
  | .Dequeue => q.Dequeue.map fun r => r.2
  | .Front => q.Front.map fun r => r.2
  | .IsEmpty => some q.IsEmpty.2
  | .Size => some q.Size.2
  | .Clear => some q.Clear

/-- The queue after a sequence of method calls. -/
def LinkedQueue.afterAll {T : Type} (q : LinkedQueue T) (calls : List (QueueCall T)) :
    Option (LinkedQueue T) :=
  calls.foldlM LinkedQueue.after q

/-- The queue as the specification describes it, a sequence of items: what a sequence of
method calls leaves in a queue that starts empty.  Enqueue adds at the rear, Dequeue takes
from the front, Clear empties, the other calls change nothing. -/
def fifoAfter {T : Type} (calls : List (QueueCall T)) : List T :=
  calls.foldl
    (fun items c =>
      match c with
      | .Enqueue item => items ++ [item]
      | .Dequeue => items.tail
      | .Clear => []
      | _ => items)
    []

/-- The data of the nodes linked from the pointer `p` on, following `next` up to nil;
`none` when a pointer leads outside `heap` or more than `fuel` nodes are linked. -/
def chainFrom {T : Type} (heap : List (node T)) : Nat → Option Nat → Option (List T)
  | _, none => some []
  | 0, some _ => none
  | fuel + 1, some a =>
    match heap[a]? with
    | none => none
    | some n => (chainFrom heap fuel n.next).map fun rest => n.data :: rest

/-- The data of the nodes reachable from `head`, in order.  A chain of distinct nodes has
at most `len(heap)` of them. -/
def LinkedQueue.toList {T : Type} (q : LinkedQueue T) : Option (List T) :=
  chainFrom q.heap q.heap.length q.head

/-- What `n` Dequeue calls in a row return, in order, and the queue after them. -/
def LinkedQueue.dequeueN {T : Type} :
    Nat → LinkedQueue T → Option (List (Except GoError T) × LinkedQueue T)
  | 0, q => some ([], q)
  | n + 1, q =>
    match q.Dequeue with
    | none => none
    | some (r, q1) =>
      match LinkedQueue.dequeueN n q1 with
      | none => none
      | some (rs, q2) => some (r :: rs, q2)

/-- The queue `q` holds the items `xs`: `size` is their number, and either the queue is
empty with both pointers nil, or `head` and `tail` point to nodes of the heap, `tail` to
the node allocated last, the nodes from `head` to `tail` are linked each to the one
allocated after it, they carry `xs`, and the node at `tail` has no successor. -/
def LinkedQueue.holds {T : Type} (q : LinkedQueue T) (xs : List T) : Prop :=
  q.size = xs.length ∧
  match q.head, q.tail with
  | none, none => xs = []
  | some h, some t =>
    t + 1 = q.heap.length ∧ h ≤ t ∧ (q.heap.drop h).map (fun n => n.data) = xs ∧
    (∀ i, h ≤ i → i < t → (q.heap[i]?).map (fun n => n.next) = some (some (i + 1))) ∧
    (q.heap[t]?).map (fun n => n.next) = some none
  | _, _ => False

/-- The set after `Add(x)` on a new set for each `x` of `xs`, in order. -/
def HashSet.ofList {T : Type} [GoComparable T] (xs : List T) : HashSet T :=
  xs.foldl (fun s x => (s.Add x).2) NewSet

/-- One call that changes a tree, on a node of the tree given by its path: `Insert` under
that node, or `AddChild` on that node. -/
inductive TreeCall (T : Type) where
  | Insert (parent : List Nat) (value : T)
  | AddChild (node : List Nat) (value : T)
deriving DecidableEq, Repr

/-- The tree after one call; `none` when the path of the call leads to no node of the tree. -/
def GenericTree.afterCall {T : Type} (t : GenericTree T) : TreeCall T → Option (GenericTree T)
  | .Insert path value =>
    match t.Insert (.node path) value with
    | (.node _, t1) => some t1
    | _ => none
  | .AddChild path value =>
    match t.afterAddChild (.node path) value with
    | (.node _, t1) => some t1
    | _ => none

/-- The tree after a sequence of calls, each on a node that is in the tree by then. -/
def GenericTree.afterCalls {T : Type} (t : GenericTree T) (calls : List (TreeCall T)) :
    Option (GenericTree T) :=
  calls.foldlM GenericTree.afterCall t

/-- The number of AddChild calls in a sequence of calls. -/
def addChildCalls {T : Type} (calls : List (TreeCall T)) : Nat :=
  (calls.filter fun c =>
    match c with
    | .AddChild _ _ => true
    | _ => false).length

/-! ## Vocabulary for the bounded buffer -/

/-- One method call on a buffer. -/
inductive BufferCall (T : Type) where
  | Produce (item : T)
  | Consume
  | TryProduce (item : T)
  | TryConsume
  | Size
deriving DecidableEq, Repr

/-- What a method call on a buffer returns. -/
inductive BufferReturn (T : Type) where
  | nothing
  | item (x : T)
  | flag (ok : Bool)
  | itemFlag (x : T) (ok : Bool)
  | count (n : Nat)
deriving DecidableEq, Repr

/-- One method call on a buffer: what it returns and the buffer after it; `none` when the
call does not return. -/
def Buffer.call {T : Type} [Inhabited T] (b : Buffer T) :
    BufferCall T → Option (BufferReturn T × Buffer T)
  | .Produce x => (b.Produce x).map fun b1 => (.nothing, b1)
  | .Consume => b.Consume.map fun r => (.item r.1, r.2)
  | .TryProduce x => (b.TryProduce x).map fun r => (.flag r.1, r.2)
  | .TryConsume => b.TryConsume.map fun r => (.itemFlag r.1.1 r.1.2, r.2)
  | .Size => some (.count b.Size.1, b.Size.2)

/-- A sequence of method calls on a buffer: what they return, in order, and the buffer
after them; `none` when one of them does not return. -/
def Buffer.run {T : Type} [Inhabited T] (b : Buffer T) :
    List (BufferCall T) → Option (List (BufferReturn T) × Buffer T)
  | [] => some ([], b)
  | c :: rest =>
    match b.call c with
    | none => none
    | some (r, b1) =>
      match Buffer.run b1 rest with
      | none => none
      | some (rs, b2) => some (r :: rs, b2)

/-- The items a buffer holds, the oldest first: the `size` slots of `data` from `head` on,
around the end of the slice. -/
def Buffer.contents {T : Type} [Inhabited T] (b : Buffer T) : List T :=
  (List.range b.size).map fun i => b.data.getD ((b.head + i) % b.capacity) default

/-- The specification of the buffer: a first-in first-out queue of at most `capacity`
items. -/
structure BoundedFifo (T : Type) where
  capacity : Nat
  items : List T
deriving DecidableEq, Repr

/-- One call on the queue of the specification: a producer blocks, or fails for the try
variant, when the queue holds `capacity` items; a consumer blocks, or fails, when it holds
none; otherwise an item is added at the rear or taken from the front. -/
def BoundedFifo.call {T : Type} [Inhabited T] (q : BoundedFifo T) :
    BufferCall T → Option (BufferReturn T × BoundedFifo T)
  | .Produce x =>
    if q.items.length = q.capacity then none
    else some (.nothing, { q with items := q.items ++ [x] })
  | .Consume =>
    match q.items with
    | [] => none
    | x :: rest => some (.item x, { q with items := rest })
  | .TryProduce x =>
    if q.items.length = q.capacity then some (.flag false, q)
    else some (.flag true, { q with items := q.items ++ [x] })
  | .TryConsume =>
    match q.items with
    | [] => some (.itemFlag default false, q)
    | x :: rest => some (.itemFlag x true, { q with items := rest })
  | .Size => some (.count q.items.length, q)

/-- A sequence of calls on the queue of the specification. -/
def BoundedFifo.run {T : Type} [Inhabited T] (q : BoundedFifo T) :
    List (BufferCall T) → Option (List (BufferReturn T) × BoundedFifo T)
  | [] => some ([], q)
  | c :: rest =>
    match q.call c with
    | none => none
    | some (r, q1) =>
      match BoundedFifo.run q1 rest with
      | none => none
      | some (rs, q2) => some (r :: rs, q2)

/-- The invariant of a buffer of capacity `c`. -/
def Buffer.wellFormed {T : Type} (c : Nat) (b : Buffer T) : Prop :=
  b.capacity = c ∧ b.data.length = c ∧ b.size ≤ c ∧ b.head < c ∧
    b.tail = (b.head + b.size) % c

instance {T : Type} (c : Nat) (b : Buffer T) : Decidable (b.wellFormed c) := by
  unfold Buffer.wellFormed; exact inferInstance

/-! ## Vocabulary for the tree of a statement -/

/-- The tokens `lm` are an optional LIMIT clause as the parser reads it: nothing, or the
token taken for LIMIT followed by a Number token. -/
def limitOf (lm : List Token) : Prop :=
  lm = [] ∨ ∃ l n, lm = [l, n] ∧ l.reads (str "LIMIT") ∧ n.Typ = .Number

instance (lm : List Token) : Decidable (limitOf lm) :=
  match lm with
  | [] => isTrue (Or.inl rfl)
  | [_] =>
    isFalse (fun hl => hl.elim (fun he => by cases he) (fun ⟨_, _, he, _⟩ => by cases he))
  | [l, n] =>
    if h : l.reads (str "LIMIT") ∧ n.Typ = .Number then isTrue (Or.inr ⟨l, n, rfl, h⟩)
    else isFalse (fun hl => hl.elim (fun he => by cases he)
      (fun ⟨_, _, he, hg⟩ => by cases he; exact h hg))
  | _ :: _ :: _ :: _ =>
    isFalse (fun hl => hl.elim (fun he => by cases he) (fun ⟨_, _, he, _⟩ => by cases he))

/-- The Field nodes of the field-list tokens `fl`: an asterisk token gives the text `*`,
an identifier token its own text. -/
def fieldNodes (fl : List Token) : List AST :=
  fl.map fun f => leaf .Field (if f.Typ = .Asterisk then str "*" else f.Value)

/-- The clause nodes of the clause tokens, in the order WHERE, ORDER BY, LIMIT: a Where
node when `wh` holds the WHERE token, an OrderBy node when `ob` holds ORDER and BY, a Limit
node with the text of the number when `lm` holds LIMIT and the number. -/
def clauseNodes (wh ob lm : List Token) : List AST :=
  (if wh = [] then [] else [leaf .Where (str "WHERE")]) ++
  ((if ob = [] then [] else [leaf .OrderBy (str "ORDER_BY")]) ++
   (match lm with
    | [_, n] => [leaf .Limit n.Value]
    | _ => []))

/-- The tokens of `SELECT * FROM products WHERE ORDER BY LIMIT 5`. -/
def clauseQueryTokens : List Token :=
  [{ Typ := .Keyword, Value := str "SELECT", Line := 1, Column := 1 },
   { Typ := .Asterisk, Value := str "*", Line := 1, Column := 8 },
   { Typ := .Keyword, Value := str "FROM", Line := 1, Column := 10 },
   { Typ := .Identifier, Value := str "products", Line := 1, Column := 15 },
   { Typ := .Keyword, Value := str "WHERE", Line := 1, Column := 24 },
   { Typ := .Keyword, Value := str "ORDER", Line := 1, Column := 30 },
   { Typ := .Keyword, Value := str "BY", Line := 1, Column := 36 },
   { Typ := .Keyword, Value := str "LIMIT", Line := 1, Column := 39 },
   { Typ := .Number, Value := str "5", Line := 1, Column := 45 },
   { Typ := .EOF, Value := [], Line := 1, Column := 46 }]

/-- The tree of `SELECT * FROM products WHERE ORDER BY LIMIT 5`: two Field nodes, the
field list before the source, and one node of each clause. -/
def clauseQueryTree : AST :=
  .mk ⟨.Query, str "ROOT"⟩ [.mk ⟨.Select, str "SELECT"⟩
    [leaf .Field (str "*"), leaf .Field (str "products"), leaf .Where (str "WHERE"),
     leaf .OrderBy (str "ORDER_BY"), leaf .Limit (str "5")]]

/-! # Theorems -/

/-! ## The lexer on its unread input -/

namespace Lexer

theorem consume_nil (l : Lexer) : l.consume [] = l := by
  cases l; simp [consume]

theorem consume_append (l : Lexer) (a b : GoString) :
    (l.consume a).consume b = l.consume (a ++ b) := by
  simp [consume, List.foldl_append, Nat.add_assoc]

theorem consume_input (l : Lexer) (bs : GoString) : (l.consume bs).input = l.input := rfl

theorem consume_pos (l : Lexer) (bs : GoString) : (l.consume bs).pos = l.pos + bs.length := rfl

theorem rest_consume (l : Lexer) (bs r : GoString) (h : l.rest = bs ++ r) :
    (l.consume bs).rest = r := by
  unfold rest at *
  simp only [consume_input, consume_pos]
  rw [← List.drop_drop, h]
  simp

theorem rest_nil_iff (l : Lexer) : l.rest = [] ↔ l.input.length ≤ l.pos := by
  simp [rest]

theorem rest_cons (l : Lexer) (h : l.pos < l.input.length) :
    l.rest = l.input[l.pos] :: (l.input.drop (l.pos + 1)) := by
  unfold rest
  exact List.drop_eq_getElem_cons h

theorem current_of_rest (l : Lexer) (b : Byte) (r : GoString) (h : l.rest = b :: r) :
    l.pos < l.input.length ∧ l.current = b := by
  have hlt : l.pos < l.input.length := by
    by_contra hc
    have : l.rest = [] := (rest_nil_iff l).2 (by omega)
    simp [this] at h
  refine ⟨hlt, ?_⟩
  rw [rest_cons l hlt] at h
  simp only [List.cons.injEq] at h
  simp [current, hlt, h.1]

theorem advance_of_rest (l : Lexer) (b : Byte) (r : GoString) (h : l.rest = b :: r) :
    l.advance = l.consume [b] := by
  have hlt := (current_of_rest l b r h).1
  have hb : l.input[l.pos] = b := by
    rw [rest_cons l hlt] at h
    simp only [List.cons.injEq] at h
    exact h.1
  unfold advance consume
  rw [dif_pos hlt, hb]
  simp only [List.foldl_cons, List.foldl_nil, track, List.length_singleton]
  by_cases h10 : b = 10
  · rw [if_pos h10, if_pos h10]
  · rw [if_neg h10, if_neg h10]

theorem advance_of_rest_nil (l : Lexer) (h : l.rest = []) : l.advance = l := by
  have := (rest_nil_iff l).1 h
  simp [advance, Nat.not_lt.2 this]

theorem advanceLoop_eq (cond : Byte → Bool) :
    ∀ (n : Nat) (l : Lexer), l.input.length - l.pos ≤ n →
      advanceLoop cond n l = l.consume (l.rest.takeWhile cond) := by
  intro n
  induction n with
  | zero =>
    intro l h
    have : l.rest = [] := (rest_nil_iff l).2 (by omega)
    simp [advanceLoop, this, consume_nil]
  | succ n ih =>
    intro l h
    unfold advanceLoop
    by_cases hlt : l.pos < l.input.length
    · have hr := rest_cons l hlt
      have hc := (current_of_rest l _ _ hr).2
      by_cases hcond : cond l.current = true
      · simp only [hlt, hcond, decide_True, Bool.and_self, if_true]
        have hadv := advance_of_rest l _ _ hr
        have hrest : l.advance.rest = l.input.drop (l.pos + 1) := by
          rw [hadv]; exact rest_consume l _ _ hr
        rw [ih l.advance (by rw [hadv]; simp only [consume_input, consume_pos, List.length_singleton]; omega)]
        rw [hrest, hadv, consume_append, hr]
        rw [hc] at hcond
        simp only [List.takeWhile_cons, hcond, if_true, List.singleton_append]
      · simp only [hcond, Bool.and_false, Bool.false_eq_true, if_false]
        rw [hr]
        rw [hc] at hcond
        simp only [List.takeWhile_cons, hcond, consume_nil, Bool.false_eq_true, if_false]
    · have : l.rest = [] := (rest_nil_iff l).2 (by omega)
      simp [hlt, this, consume_nil]

theorem advanceWhile_eq (cond : Byte → Bool) (l : Lexer) :
    l.advanceWhile cond = l.consume (l.rest.takeWhile cond) :=
  advanceLoop_eq cond _ l (Nat.le_refl _)

theorem rest_advanceWhile (cond : Byte → Bool) (l : Lexer) :
    (l.advanceWhile cond).rest = l.rest.dropWhile cond := by
  rw [advanceWhile_eq]
  exact rest_consume l _ _ (List.takeWhile_append_dropWhile cond l.rest).symm

theorem slice_consume (l : Lexer) (bs r : GoString) (hpos : l.pos ≤ l.input.length)
    (h : l.rest = bs ++ r) :
    slice l.input l.pos (l.consume bs).pos = some bs := by
  have hlen : l.pos + bs.length ≤ l.input.length := by
    have := congrArg List.length h
    simp [rest] at this
    omega
  unfold slice
  simp only [consume_pos]
  rw [if_pos ⟨by omega, hlen⟩]
  have : l.input.drop l.pos = bs ++ r := h
  simp [this]

end Lexer

namespace Lexer

theorem pos_le_of_rest_cons (l : Lexer) (b : Byte) (r : GoString) (h : l.rest = b :: r) :
    l.pos ≤ l.input.length :=
  Nat.le_of_lt (current_of_rest l b r h).1

theorem scanIdentifierOrKeyword_eq (l : Lexer) (col : Nat) (hpos : l.pos ≤ l.input.length) :
    l.scanIdentifierOrKeyword col =
      some (if keywords (ToUpper (l.rest.takeWhile isIdentPart)) then
              ({ Typ := .Keyword, Value := ToUpper (l.rest.takeWhile isIdentPart),
                 Line := (l.consume (l.rest.takeWhile isIdentPart)).line, Column := col },
               l.consume (l.rest.takeWhile isIdentPart))
            else
              ({ Typ := .Identifier, Value := l.rest.takeWhile isIdentPart,
                 Line := (l.consume (l.rest.takeWhile isIdentPart)).line, Column := col },
               l.consume (l.rest.takeWhile isIdentPart))) := by
  unfold scanIdentifierOrKeyword
  simp only [advanceWhile_eq, consume_input]
  rw [slice_consume l _ _ hpos (List.takeWhile_append_dropWhile isIdentPart l.rest).symm]
  simp only [Option.map_some']

theorem numberText_prefix (r : GoString) : ∃ r2, r = numberText r ++ r2 := by
  unfold numberText
  have h := (List.takeWhile_append_dropWhile isDigit r).symm
  split
  · rename_i d r2 hd
    by_cases h46 : (d == 46) = true
    · rw [if_pos h46]
      refine ⟨r2.dropWhile isDigit, ?_⟩
      rw [hd] at h
      conv_lhs => rw [h]
      simp [List.takeWhile_append_dropWhile]
    · rw [if_neg h46]
      exact ⟨_, h⟩
  · exact ⟨_, h⟩

theorem scanNumber_eq (l : Lexer) (col : Nat) (hpos : l.pos ≤ l.input.length) :
    l.scanNumber col =
      some ({ Typ := .Number, Value := numberText l.rest,
              Line := (l.consume (numberText l.rest)).line, Column := col },
            l.consume (numberText l.rest)) := by
  obtain ⟨r2, hr2⟩ := numberText_prefix l.rest
  have hslice := slice_consume l _ _ hpos hr2
  unfold scanNumber
  simp only [advanceWhile_eq]
  have hrest1 : (l.consume (l.rest.takeWhile isDigit)).rest = l.rest.dropWhile isDigit :=
    rest_consume l _ _ (List.takeWhile_append_dropWhile isDigit l.rest).symm
  have key : (if ((l.consume (l.rest.takeWhile isDigit)).pos <
                  (l.consume (l.rest.takeWhile isDigit)).input.length &&
                (l.consume (l.rest.takeWhile isDigit)).current == 46) = true
              then ((l.consume (l.rest.takeWhile isDigit)).advance).consume
                (((l.consume (l.rest.takeWhile isDigit)).advance).rest.takeWhile isDigit)
              else l.consume (l.rest.takeWhile isDigit)) = l.consume (numberText l.rest) := by
    unfold numberText
    cases hd : l.rest.dropWhile isDigit with
    | nil =>
      rw [hd] at hrest1
      have := (rest_nil_iff _).1 hrest1
      simp only [Nat.not_lt.2 this, decide_False, Bool.false_and, Bool.false_eq_true, if_false]
    | cons d r3 =>
      rw [hd] at hrest1
      obtain ⟨hlt, hcur⟩ := current_of_rest _ _ _ hrest1
      simp only [hlt, decide_True, Bool.true_and, hcur]
      by_cases h46 : (d == 46) = true
      · rw [if_pos h46, if_pos h46]
        have hadv := advance_of_rest _ _ _ hrest1
        have hrest2 : ((l.consume (l.rest.takeWhile isDigit)).advance).rest = r3 := by
          rw [hadv]; exact rest_consume _ [d] r3 hrest1
        rw [hrest2, hadv, consume_append, consume_append]
        simp
      · rw [if_neg h46, if_neg h46]
  rw [key, consume_input, hslice]
  rfl

end Lexer

namespace Lexer

theorem stringLexeme_prefix (c : Byte) (r : GoString) :
    ∃ r2, c :: r = (stringLexeme c r).2.2 ++ r2 := by
  unfold stringLexeme
  have h := (List.takeWhile_append_dropWhile (fun b => b != c) r).symm
  split
  · rename_i hd
    rw [hd] at h
    exact ⟨[], by simpa using h⟩
  · rename_i q r3 hd
    rw [hd] at h
    exact ⟨r3, by simpa using h⟩

theorem scanString_eq (l : Lexer) (c : Byte) (r : GoString) (col : Nat) (h : l.rest = c :: r) :
    l.scanString c col =
      some ({ Typ := (stringLexeme c r).1, Value := (stringLexeme c r).2.1,
              Line := (l.consume (stringLexeme c r).2.2).line, Column := col },
            l.consume (stringLexeme c r).2.2) := by
  have hadv := advance_of_rest l c r h
  have hrest1 : l.advance.rest = r := by rw [hadv]; exact rest_consume l [c] r h
  have hsplit := (List.takeWhile_append_dropWhile (fun b => b != c) r).symm
  have hrest2 : (l.advance.consume (r.takeWhile (fun b => b != c))).rest =
      r.dropWhile (fun b => b != c) :=
    rest_consume _ _ _ (hrest1.trans hsplit)
  have hpos1 : l.advance.pos ≤ l.advance.input.length := by
    rw [hadv]
    have := (current_of_rest l c r h).1
    simp only [consume_pos, consume_input, List.length_singleton]
    omega
  unfold scanString stringLexeme
  simp only [advanceWhile_eq, hrest1]
  cases hd : r.dropWhile (fun b => b != c) with
  | nil =>
    rw [hd] at hrest2
    have hge := (rest_nil_iff _).1 hrest2
    simp only [consume_input] at hge ⊢
    rw [if_pos (by simpa using hge)]
    simp only [hadv, consume_append, List.singleton_append]
  | cons q r3 =>
    rw [hd] at hrest2
    obtain ⟨hlt, _⟩ := current_of_rest _ _ _ hrest2
    simp only [consume_input] at hlt ⊢
    rw [if_neg (by simpa using hlt)]
    rw [slice_consume l.advance _ _ hpos1 (hrest1.trans hsplit)]
    rw [advance_of_rest _ _ _ hrest2]
    simp only [Option.map_some', hadv, consume_append, List.singleton_append, List.cons_append,
      List.nil_append]

theorem operatorLexeme_prefix (c : Byte) (r : GoString) :
    ∃ r2, c :: r = (operatorLexeme c r).2.2 ++ r2 := by
  unfold operatorLexeme
  split
  · rename_i d r3
    split
    · exact ⟨r3, rfl⟩
    · exact ⟨d :: r3, rfl⟩
  · exact ⟨[], rfl⟩

theorem scanOperator_eq (l : Lexer) (c : Byte) (r : GoString) (col : Nat) (h : l.rest = c :: r) :
    l.scanOperator col =
      some ({ Typ := (operatorLexeme c r).1, Value := (operatorLexeme c r).2.1,
              Line := (l.consume (operatorLexeme c r).2.2).line, Column := col },
            l.consume (operatorLexeme c r).2.2) := by
  have hpos := pos_le_of_rest_cons l c r h
  have hadv := advance_of_rest l c r h
  have hrest1 : l.advance.rest = r := by rw [hadv]; exact rest_consume l [c] r h
  have hone : slice l.input l.pos (l.consume [c]).pos = some [c] :=
    slice_consume l [c] r hpos h
  unfold scanOperator operatorLexeme
  cases r with
  | nil =>
    have hge := (rest_nil_iff _).1 hrest1
    rw [hadv] at hge ⊢
    simp only [consume_input] at hge ⊢
    simp only [Nat.not_lt.2 hge, if_false, hone, Option.map_some']
  | cons d r3 =>
    obtain ⟨hlt, _⟩ := current_of_rest _ _ _ hrest1
    have htwo : slice l.input l.pos ((l.consume [c]).pos + 1) = some [c, d] := by
      have := slice_consume l [c, d] r3 hpos h
      simpa [consume_pos, Nat.add_assoc] using this
    rw [hadv] at hlt hrest1 ⊢
    simp only [consume_input] at hlt ⊢
    simp only [hlt, if_true, htwo, Option.map_some']
    by_cases h2 : [c, d] = str "<=" ∨ [c, d] = str ">=" ∨ [c, d] = str "!=" ∨ [c, d] = str "=="
    · simp only [if_pos h2]
      rw [advance_of_rest _ _ _ hrest1, consume_append]
      rfl
    · simp only [if_neg h2, hone, Option.map_some']

end Lexer

namespace Lexer

theorem lexeme_prefix (r : GoString) : ∃ r2, r = (lexeme r).2.2 ++ r2 := by
  cases r with
  | nil => exact ⟨[], rfl⟩
  | cons c r =>
    simp only [lexeme]
    split_ifs
    · exact ⟨_, (List.takeWhile_append_dropWhile isIdentPart (c :: r)).symm⟩
    · exact ⟨_, (List.takeWhile_append_dropWhile isIdentPart (c :: r)).symm⟩
    · exact numberText_prefix (c :: r)
    · exact stringLexeme_prefix c r
    · exact ⟨r, rfl⟩
    · exact ⟨r, rfl⟩
    · exact ⟨r, rfl⟩
    · exact ⟨r, rfl⟩
    · exact ⟨r, rfl⟩
    · exact operatorLexeme_prefix c r
    · exact ⟨r, rfl⟩

theorem NextToken_eq_lexeme (l : Lexer) :
    l.NextToken =
      some ({ Typ := (lexeme (l.rest.dropWhile isSpace)).1,
              Value := (lexeme (l.rest.dropWhile isSpace)).2.1,
              Line := (l.consume (l.rest.takeWhile isSpace ++
                        (lexeme (l.rest.dropWhile isSpace)).2.2)).line,
              Column := (l.consume (l.rest.takeWhile isSpace)).column },
            l.consume (l.rest.takeWhile isSpace ++ (lexeme (l.rest.dropWhile isSpace)).2.2)) := by
  have hrest1 := rest_advanceWhile isSpace l
  rw [advanceWhile_eq] at hrest1
  unfold NextToken skipWhitespace
  simp only [advanceWhile_eq]
  rw [← consume_append]
  generalize l.consume (l.rest.takeWhile isSpace) = l1 at hrest1 ⊢
  generalize l.rest.dropWhile isSpace = r at hrest1 ⊢
  cases r with
  | nil =>
    have hge := (rest_nil_iff _).1 hrest1
    rw [if_pos hge]
    simp only [lexeme, consume_nil]
  | cons c r =>
    obtain ⟨hlt, hcur⟩ := current_of_rest _ _ _ hrest1
    have hpos := Nat.le_of_lt hlt
    rw [if_neg (Nat.not_le.2 hlt)]
    simp only [hcur]
    simp only [lexeme]
    cases h1 : (isLetter c || c == 95)
    swap
    · simp only [Bool.false_eq_true, ↓reduceIte]
      rw [scanIdentifierOrKeyword_eq l1 _ hpos, hrest1]
      split_ifs <;> rfl
    cases h2 : isDigit c
    swap
    · simp only [Bool.false_eq_true, ↓reduceIte]
      rw [scanNumber_eq l1 _ hpos, hrest1]
    cases h3 : (c == 34 || c == 39)
    swap
    · simp only [Bool.false_eq_true, ↓reduceIte]
      rw [scanString_eq l1 c r _ hrest1]
    have hadv := advance_of_rest _ _ _ hrest1
    cases h4 : (c == 40)
    swap
    · simp only [Bool.false_eq_true, ↓reduceIte, hadv]
    cases h5 : (c == 41)
    swap
    · simp only [Bool.false_eq_true, ↓reduceIte, hadv]
    cases h6 : (c == 44)
    swap
    · simp only [Bool.false_eq_true, ↓reduceIte, hadv]
    cases h7 : (c == 46)
    swap
    · simp only [Bool.false_eq_true, ↓reduceIte, hadv]
    cases h8 : (c == 42)
    swap
    · simp only [Bool.false_eq_true, ↓reduceIte, hadv]
    cases h9 : isOperatorChar c
    swap
    · simp only [Bool.false_eq_true, ↓reduceIte]
      rw [scanOperator_eq l1 c r _ hrest1]
    simp only [Bool.false_eq_true, ↓reduceIte, hadv]

end Lexer

namespace Lexer

theorem takeWhile_ne_nil_of_head {p : Byte → Bool} (c : Byte) (r : GoString) (h : p c = true) :
    (c :: r).takeWhile p ≠ [] := by
  simp [List.takeWhile_cons, h]

theorem numberText_ne_nil (c : Byte) (r : GoString) (h : isDigit c = true) :
    numberText (c :: r) ≠ [] := by
  unfold numberText
  have := takeWhile_ne_nil_of_head (p := isDigit) c r h
  split
  · split_ifs
    · simp [List.takeWhile_cons, h]
    · exact this
  · exact this

theorem lexeme_progress (r : GoString) : (lexeme r).1 = .EOF ∨ (lexeme r).2.2 ≠ [] := by
  cases r with
  | nil => exact Or.inl rfl
  | cons c r =>
    right
    simp only [lexeme]
    split_ifs with h1 hk h2 h3 h4 h5 h6 h7 h8 h9
    · exact takeWhile_ne_nil_of_head c r (by
        simp only [isIdentPart]
        simp only [Bool.or_eq_true] at h1 ⊢
        tauto)
    · exact takeWhile_ne_nil_of_head c r (by
        simp only [isIdentPart]
        simp only [Bool.or_eq_true] at h1 ⊢
        tauto)
    · exact numberText_ne_nil c r h2
    · unfold stringLexeme
      split <;> simp
    · simp
    · simp
    · simp
    · simp
    · simp
    · unfold operatorLexeme
      split
      · split_ifs <;> simp
      · simp
    · simp

theorem tokenizeLoop_returns :
    ∀ (n : Nat) (l : Lexer) (acc : List Token), l.rest.length < n →
      ∃ init last l', tokenizeLoop n l acc = some (acc ++ (init ++ [last]), l') ∧
        (last.Typ = .EOF ∨ last.Typ = .Error) ∧
        (∀ t ∈ init, t.Typ ≠ .EOF ∧ t.Typ ≠ .Error) ∧
        l'.input = l.input ∧ l.pos ≤ l'.pos ∧ l'.pos ≤ max l.pos l.input.length := by
  intro n
  induction n with
  | zero => intro l acc h; omega
  | succ n ih =>
    intro l acc h
    obtain ⟨tok, l1, hnext, hTyp, hl1⟩ : ∃ tok l1, l.NextToken = some (tok, l1) ∧
        tok.Typ = (lexeme (l.rest.dropWhile isSpace)).1 ∧
        l1 = l.consume (l.rest.takeWhile isSpace ++ (lexeme (l.rest.dropWhile isSpace)).2.2) :=
      ⟨_, _, NextToken_eq_lexeme l, rfl, rfl⟩
    obtain ⟨r2, hr2⟩ := lexeme_prefix (l.rest.dropWhile isSpace)
    have hsplit : l.rest =
        (l.rest.takeWhile isSpace ++ (lexeme (l.rest.dropWhile isSpace)).2.2) ++ r2 := by
      rw [List.append_assoc, ← hr2, List.takeWhile_append_dropWhile]
    have hrest1 : l1.rest = r2 := by rw [hl1]; exact rest_consume l _ _ hsplit
    have hlen := congrArg List.length hsplit
    simp only [List.length_append] at hlen
    have hrl : l.rest.length = l.input.length - l.pos := by simp [rest]
    have hin1 : l1.input = l.input := by rw [hl1]; rfl
    have hpos1 : l1.pos = l.pos + ((l.rest.takeWhile isSpace).length +
        (lexeme (l.rest.dropWhile isSpace)).2.2.length) := by
      rw [hl1, consume_pos, List.length_append]
    unfold tokenizeLoop
    rw [hnext]
    simp only
    split_ifs with hterm
    · exact ⟨[], tok, l1, rfl, hterm, by simp, hin1, by omega, by omega⟩
    · have hne : (lexeme (l.rest.dropWhile isSpace)).2.2 ≠ [] := by
        rcases lexeme_progress (l.rest.dropWhile isSpace) with h0 | h0
        · exact absurd (Or.inl (hTyp.trans h0)) hterm
        · exact h0
      have hpos : 0 < (lexeme (l.rest.dropWhile isSpace)).2.2.length :=
        List.length_pos.2 hne
      obtain ⟨init, last, l', hrun, hlast, hinit, hin, hp1, hp2⟩ :=
        ih l1 (acc ++ [tok]) (by rw [hrest1]; omega)
      refine ⟨tok :: init, last, l', ?_, hlast, ?_, hin.trans hin1, by omega, ?_⟩
      · rw [hrun]; simp
      · intro t ht
        rcases List.mem_cons.1 ht with rfl | ht
        · exact ⟨fun h0 => hterm (Or.inl h0), fun h0 => hterm (Or.inr h0)⟩
        · exact hinit t ht
      · rw [hin1] at hp2
        omega

end Lexer


theorem Tokenize_eq (l : Lexer) (hpos : l.pos = 0) :
    ∃ init last, l.Tokenize = some (.ok (init ++ [last])) ∧
      (last.Typ = .EOF ∨ last.Typ = .Error) ∧
      ∀ t ∈ init, t.Typ ≠ .EOF ∧ t.Typ ≠ .Error := by
  obtain ⟨init, last, l', hrun, hlast, hinit, _⟩ :=
    Lexer.tokenizeLoop_returns (l.input.length + 1) l []
      (by simp [Lexer.rest, hpos])
  exact ⟨init, last, by simp [Lexer.Tokenize, hrun], hlast, hinit⟩


theorem keywords_iff (s : GoString) :
    keywords s = true ↔
      s ∈ [str "SELECT", str "FROM", str "WHERE", str "AND", str "OR",
           str "ORDER", str "BY", str "LIMIT", str "GROUP", str "ASC", str "DESC",
           str "FIND", str "UPDATE", str "SET", str "ANALYZE", str "IN",
           str "LIKE", str "NULL", str "TRUE", str "FALSE", str "CONCURRENT"] := by
  unfold keywords
  exact decide_eq_true_iff

namespace Lexer

theorem tokenizeLoop_step (n : Nat) (l l1 : Lexer) (acc : List Token) (tok : Token)
    (h : l.NextToken = some (tok, l1)) :
    tokenizeLoop (n + 1) l acc =
      if tok.Typ = .EOF ∨ tok.Typ = .Error then some (acc ++ [tok], l1)
      else tokenizeLoop n l1 (acc ++ [tok]) := by
  rw [tokenizeLoop, h]

theorem run_split (p : Byte → Bool) (w r : GoString) (hw : ∀ b ∈ w, p b = true)
    (hr : ∀ b ∈ r.head?, p b = false) :
    (w ++ r).takeWhile p = w ∧ (w ++ r).dropWhile p = r := by
  rw [List.takeWhile_append_of_pos hw, List.dropWhile_append_of_pos hw]
  cases r with
  | nil => simp
  | cons b r =>
    have hb : p b = false := hr b (by simp)
    simp [List.takeWhile_cons, List.dropWhile_cons, hb]

theorem NextToken_of_rest (l : Lexer) (ws r : GoString) (h : l.rest = ws ++ r)
    (hws : ∀ b ∈ ws, isSpace b = true) (hr : ∀ b ∈ r.head?, isSpace b = false) :
    l.NextToken =
      some ({ Typ := (lexeme r).1, Value := (lexeme r).2.1,
              Line := (l.consume (ws ++ (lexeme r).2.2)).line,
              Column := (l.consume ws).column },
            l.consume (ws ++ (lexeme r).2.2)) := by
  obtain ⟨ht, hd⟩ := run_split isSpace ws r hws hr
  rw [NextToken_eq_lexeme, h, ht, hd]

theorem rest_NewLexer (input : GoString) : (NewLexer input).rest = input := rfl

theorem NextToken_of_rest' (l : Lexer) (ws r : GoString) (h : l.rest = ws ++ r)
    (hws : ∀ b ∈ ws, isSpace b = true) (hr : ∀ b ∈ r.head?, isSpace b = false) :
    ∃ tok, l.NextToken = some (tok, l.consume (ws ++ (lexeme r).2.2)) ∧
      tok.Typ = (lexeme r).1 ∧ tok.Value = (lexeme r).2.1 :=
  ⟨_, NextToken_of_rest l ws r h hws hr, rfl, rfl⟩

theorem Tokenize_one (input : GoString) (hsp : ∀ b ∈ input.head?, isSpace b = false)
    (hfull : (lexeme input).2.2 = input)
    (hk : (lexeme input).1 ≠ .EOF ∧ (lexeme input).1 ≠ .Error) :
    ∃ toks, (NewLexer input).Tokenize = some (.ok toks) ∧
      shape toks = [((lexeme input).1, (lexeme input).2.1), (.EOF, [])] := by
  have hne : input ≠ [] := by
    rintro rfl
    exact hk.1 rfl
  obtain ⟨n, hn⟩ : ∃ n, input.length + 1 = n + 1 + 1 :=
    ⟨input.length - 1, by have := List.length_pos.2 hne; omega⟩
  obtain ⟨tok1, h1, hT1, hV1⟩ :=
    NextToken_of_rest' (NewLexer input) [] input rfl (by simp) hsp
  have hrest1 : ((NewLexer input).consume ([] ++ (lexeme input).2.2)).rest = [] :=
    rest_consume _ _ _ (by rw [hfull]; simp [rest_NewLexer])
  obtain ⟨tok2, h2, hT2, hV2⟩ := NextToken_of_rest' _ [] [] hrest1 (by simp) (by simp)
  unfold Tokenize
  rw [show (NewLexer input).input.length + 1 = n + 1 + 1 from hn]
  rw [tokenizeLoop_step _ _ _ _ _ h1]
  rw [if_neg (by rw [hT1]; simp only [not_or]; exact hk)]
  rw [tokenizeLoop_step _ _ _ _ _ h2]
  rw [if_pos (by rw [hT2]; exact Or.inl rfl)]
  refine ⟨_, rfl, ?_⟩
  simp only [shape, List.nil_append, List.cons_append, List.map_cons, List.map_nil, hT1, hV1,
    hT2, hV2]
  rfl

theorem Tokenize_one_error (input : GoString) (hsp : ∀ b ∈ input.head?, isSpace b = false)
    (hk : (lexeme input).1 = .Error) :
    ∃ toks, (NewLexer input).Tokenize = some (.ok toks) ∧
      shape toks = [(.Error, (lexeme input).2.1)] := by
  obtain ⟨tok1, h1, hT1, hV1⟩ :=
    NextToken_of_rest' (NewLexer input) [] input rfl (by simp) hsp
  unfold Tokenize
  rw [tokenizeLoop_step _ _ _ _ _ h1]
  rw [if_pos (by rw [hT1]; exact Or.inr hk)]
  refine ⟨_, rfl, ?_⟩
  simp only [shape, List.nil_append, List.map_cons, List.map_nil, hT1, hV1, hk]

end Lexer

namespace Lexer

theorem isIdentPart_iff (b : Byte) :
    isIdentPart b = true ↔ (isLetter b = true ∨ isDigit b = true ∨ b = 95) := by
  simp [isIdentPart, or_assoc]

theorem identStart_not_space (c : Byte) (hc : isLetter c = true ∨ c = 95) :
    isSpace c = false := by
  rcases hc with hc | rfl
  · revert hc
    simp only [isLetter, isSpace, Bool.or_eq_true, Bool.and_eq_true, decide_eq_true_eq,
      beq_iff_eq, Bool.or_eq_false_iff, beq_eq_false_iff_ne, ne_eq]
    omega
  · decide

theorem lexeme_ident (c : Byte) (cs r : GoString) (hc : isLetter c = true ∨ c = 95)
    (hcs : ∀ b ∈ cs, isLetter b = true ∨ isDigit b = true ∨ b = 95)
    (hr : ∀ b ∈ r.head?, ¬ (isLetter b = true ∨ isDigit b = true ∨ b = 95)) :
    lexeme ((c :: cs) ++ r) =
      if keywords (ToUpper (c :: cs)) then (.Keyword, ToUpper (c :: cs), c :: cs)
      else (.Identifier, c :: cs, c :: cs) := by
  have hw : ∀ b ∈ c :: cs, isIdentPart b = true := by
    intro b hb
    rw [isIdentPart_iff]
    rcases List.mem_cons.1 hb with rfl | hb
    · rcases hc with hc | hc
      · exact Or.inl hc
      · exact Or.inr (Or.inr hc)
    · exact hcs b hb
  have hr' : ∀ b ∈ r.head?, isIdentPart b = false := by
    intro b hb
    have := hr b hb
    rw [← isIdentPart_iff] at this
    simpa using this
  have ht := (run_split isIdentPart (c :: cs) r hw hr').1
  have h1 : (isLetter c || c == 95) = true := by
    rcases hc with hc | hc
    · simp [hc]
    · simp [hc]
  rw [List.cons_append] at ht ⊢
  simp only [lexeme, h1, if_true, ht]

end Lexer

namespace Lexer

theorem digit_facts (d : Byte) (hd : isDigit d = true) :
    isSpace d = false ∧ (isLetter d || d == 95) = false ∧ d ≠ 46 := by
  revert hd
  simp only [isLetter, isSpace, isDigit, Bool.or_eq_true, Bool.and_eq_true, decide_eq_true_eq,
    beq_iff_eq, Bool.or_eq_false_iff, beq_eq_false_iff_ne, ne_eq, Bool.and_eq_false_imp,
    decide_eq_false_iff_not, Fin.ext_iff]
  intro h
  refine ⟨?_, ?_, ?_⟩ <;> omega

theorem numberText_digits (d : GoString) (hd : ∀ b ∈ d, isDigit b = true) :
    numberText d = d := by
  have ht := (run_split isDigit d [] hd (by simp))
  simp only [List.append_nil] at ht
  simp only [numberText, ht.1, ht.2]

theorem numberText_decimal (d f r : GoString) (hd : ∀ b ∈ d, isDigit b = true)
    (hf : ∀ b ∈ f, isDigit b = true) (hr : ∀ b ∈ r.head?, isDigit b = false) :
    numberText (d ++ 46 :: (f ++ r)) = d ++ 46 :: f := by
  have ht := run_split isDigit d (46 :: (f ++ r)) hd (by simp; decide)
  have hf' := run_split isDigit f r hf hr
  simp only [numberText, ht.1, ht.2, beq_self_eq_true, if_true, hf'.1]

theorem lexeme_number (c : Byte) (r : GoString) (hc : isDigit c = true) :
    lexeme (c :: r) = (.Number, numberText (c :: r), numberText (c :: r)) := by
  have h := (digit_facts c hc).2.1
  simp only [lexeme, h, hc, Bool.false_eq_true, if_false, if_true]

end Lexer

namespace Lexer

theorem quote_facts (q : Byte) (hq : q = 34 ∨ q = 39) :
    isSpace q = false ∧ (isLetter q || q == 95) = false ∧ isDigit q = false ∧
      (q == 34 || q == 39) = true := by
  rcases hq with rfl | rfl <;> decide

theorem lexeme_quote (q : Byte) (r : GoString) (hq : q = 34 ∨ q = 39) :
    lexeme (q :: r) = stringLexeme q r := by
  obtain ⟨_, h1, h2, h3⟩ := quote_facts q hq
  simp only [lexeme, h1, h2, h3, Bool.false_eq_true, if_false, if_true]

theorem stringLexeme_closed (q : Byte) (s r : GoString) (hs : q ∉ s) :
    stringLexeme q (s ++ q :: r) = (.String, s, q :: (s ++ [q])) := by
  have hw : ∀ b ∈ s, (fun b => b != q) b = true := by
    intro b hb
    simp only [bne_iff_ne, ne_eq]
    rintro rfl
    exact hs hb
  have ht := run_split (fun b => b != q) s (q :: r) hw (by simp)
  simp only [stringLexeme, ht.1, ht.2]

theorem stringLexeme_open (q : Byte) (s : GoString) (hs : q ∉ s) :
    stringLexeme q s = (.Error, str "unterminated string", q :: s) := by
  have hw : ∀ b ∈ s, (fun b => b != q) b = true := by
    intro b hb
    simp only [bne_iff_ne, ne_eq]
    rintro rfl
    exact hs hb
  have ht := run_split (fun b => b != q) s [] hw (by simp)
  simp only [List.append_nil] at ht
  simp only [stringLexeme, ht.1, ht.2]

end Lexer

namespace Lexer

theorem tokenizeLoop_shape :
    ∀ (n : Nat) (l : Lexer) (acc : List Token),
      (tokenizeLoop n l acc).map (fun r => shape r.1) =
        (lexAll n l.rest).map (fun rest => shape acc ++ rest) := by
  intro n
  induction n with
  | zero => intro l acc; rfl
  | succ n ih =>
    intro l acc
    obtain ⟨tok, hnext, hT, hV⟩ := NextToken_of_rest' l (l.rest.takeWhile isSpace)
      (l.rest.dropWhile isSpace) (List.takeWhile_append_dropWhile isSpace l.rest).symm
      (fun b hb => (List.mem_takeWhile_imp hb))
      (by
        intro b hb
        cases hd : l.rest.dropWhile isSpace with
        | nil => rw [hd] at hb; simp at hb
        | cons x xs =>
          rw [hd] at hb
          simp only [List.head?_cons, Option.mem_def, Option.some.injEq] at hb
          subst hb
          have := List.head_dropWhile_not isSpace l.rest (by rw [hd]; simp)
          simpa [hd] using this)
    obtain ⟨r2, hr2⟩ := lexeme_prefix (l.rest.dropWhile isSpace)
    have hsplit : l.rest =
        (l.rest.takeWhile isSpace ++ (lexeme (l.rest.dropWhile isSpace)).2.2) ++ r2 := by
      rw [List.append_assoc, ← hr2, List.takeWhile_append_dropWhile]
    have hrest1 := rest_consume l _ _ hsplit
    have hdrop : (l.rest.dropWhile isSpace).drop (lexeme (l.rest.dropWhile isSpace)).2.2.length
        = r2 := by
      have h0 := congrArg (List.drop (lexeme (l.rest.dropWhile isSpace)).2.2.length) hr2
      exact h0.trans (by simp)
    rw [tokenizeLoop_step _ _ _ _ _ hnext, lexAll]
    simp only [hT]
    split_ifs with hterm
    · simp [shape, hT, hV]
    · rw [ih, hrest1, hdrop]
      simp [shape, hT, hV, Option.map_map, Function.comp_def]

theorem Tokenize_shape (input : GoString) :
    ∃ toks, (NewLexer input).Tokenize = some (.ok toks) ∧
      lexAll (input.length + 1) input = some (shape toks) := by
  obtain ⟨init, last, hrun, _⟩ := Tokenize_eq (NewLexer input) rfl
  refine ⟨_, hrun, ?_⟩
  have h := tokenizeLoop_shape (input.length + 1) (NewLexer input) []
  unfold Tokenize at hrun
  cases hloop : tokenizeLoop ((NewLexer input).input.length + 1) (NewLexer input) [] with
  | none => rw [hloop] at hrun; simp at hrun
  | some res =>
    rw [hloop] at hrun
    simp only [Option.map_some', Option.some.injEq, Except.ok.injEq] at hrun
    have hloop' : tokenizeLoop (input.length + 1) (NewLexer input) [] = some res := hloop
    rw [hloop', rest_NewLexer] at h
    simp only [Option.map_some', shape, List.map_nil, List.nil_append] at h
    cases hl : lexAll (input.length + 1) input with
    | none => rw [hl] at h; simp at h
    | some ks =>
      rw [hl] at h
      simp only [Option.map_some', Option.some.injEq] at h
      rw [← hrun, ← h]
      rfl

theorem lexAll_step (n : Nat) (ws body r : GoString) (k : TokenType) (v : GoString)
    (hws : ∀ b ∈ ws, isSpace b = true)
    (hnsp : ∀ b ∈ (body ++ r).head?, isSpace b = false)
    (hlex : lexeme (body ++ r) = (k, v, body))
    (hk : k ≠ .EOF ∧ k ≠ .Error) :
    lexAll (n + 1) (ws ++ (body ++ r)) = (lexAll n r).map fun rest => (k, v) :: rest := by
  obtain ⟨_, hd⟩ := run_split isSpace ws (body ++ r) hws hnsp
  rw [lexAll, hd, hlex]
  simp only
  rw [if_neg (by simp only [not_or]; exact hk)]
  simp

theorem lexAll_eof (n : Nat) (ws : GoString) (hws : ∀ b ∈ ws, isSpace b = true) :
    lexAll (n + 1) ws = some [(.EOF, [])] := by
  have hd := (run_split isSpace ws [] hws (by simp)).2
  rw [List.append_nil] at hd
  rw [lexAll, hd]
  rfl

end Lexer

namespace Lexer

theorem head_cons_forall (P : Byte → Prop) (x : Byte) (r : GoString) (h : P x) :
    ∀ b ∈ (x :: r).head?, P b := by
  intro b hb
  simp only [List.head?_cons, Option.mem_def, Option.some.injEq] at hb
  exact hb ▸ h

set_option maxRecDepth 100000 in
theorem lexAll_find (n : Nat) (c : Byte) (cs : GoString) (hc : isLetter c = true ∨ c = 95)
    (hcs : ∀ b ∈ cs, isLetter b = true ∨ isDigit b = true ∨ b = 95)
    (hnk : keywords (ToUpper (c :: cs)) = false) :
    lexAll (n + 3) (str "FIND " ++ (c :: cs)) =
      some [(.Keyword, str "FIND"), (.Identifier, c :: cs), (.EOF, [])] := by
  have hsp := identStart_not_space c hc
  have e3 : lexAll (n + 1) [] = some [(.EOF, [])] := lexAll_eof n [] (by simp)
  have hlex2 : lexeme ((c :: cs) ++ []) = (.Identifier, c :: cs, c :: cs) := by
    rw [lexeme_ident c cs [] hc hcs (by simp), hnk]
    rfl
  have e2 := lexAll_step (n + 1) [32] (c :: cs) [] .Identifier (c :: cs) (by decide)
    (head_cons_forall _ c _ hsp) hlex2 (by decide)
  rw [e3] at e2
  have hlex1 : lexeme (str "FIND" ++ ([32] ++ ((c :: cs) ++ []))) =
      (.Keyword, str "FIND", str "FIND") :=
    lexeme_ident 70 (str "IND") ([32] ++ ((c :: cs) ++ [])) (by decide) (by decide)
      (head_cons_forall _ 32 _ (by decide))
  have e1 := lexAll_step (n + 2) [] (str "FIND") ([32] ++ ((c :: cs) ++ [])) .Keyword
    (str "FIND") (by simp) (head_cons_forall _ 70 _ (by decide)) hlex1 (by decide)
  rw [e2] at e1
  rw [List.append_nil] at e1
  exact e1

set_option maxRecDepth 100000 in
theorem lexAll_select_star (n : Nat) (c : Byte) (cs : GoString)
    (hc : isLetter c = true ∨ c = 95)
    (hcs : ∀ b ∈ cs, isLetter b = true ∨ isDigit b = true ∨ b = 95)
    (hnk : keywords (ToUpper (c :: cs)) = false) :
    lexAll (n + 5) (str "SELECT * FROM " ++ (c :: cs)) =
      some [(.Keyword, str "SELECT"), (.Asterisk, str "*"), (.Keyword, str "FROM"),
        (.Identifier, c :: cs), (.EOF, [])] := by
  have hsp := identStart_not_space c hc
  have e5 : lexAll (n + 1) [] = some [(.EOF, [])] := lexAll_eof n [] (by simp)
  have hlex4 : lexeme ((c :: cs) ++ []) = (.Identifier, c :: cs, c :: cs) := by
    rw [lexeme_ident c cs [] hc hcs (by simp), hnk]
    rfl
  have e4 := lexAll_step (n + 1) [32] (c :: cs) [] .Identifier (c :: cs) (by decide)
    (head_cons_forall _ c _ hsp) hlex4 (by decide)
  rw [e5] at e4
  have hlex3 : lexeme (str "FROM" ++ ([32] ++ ((c :: cs) ++ []))) =
      (.Keyword, str "FROM", str "FROM") :=
    lexeme_ident 70 (str "ROM") ([32] ++ ((c :: cs) ++ [])) (by decide) (by decide)
      (head_cons_forall _ 32 _ (by decide))
  have e3 := lexAll_step (n + 2) [32] (str "FROM") ([32] ++ ((c :: cs) ++ [])) .Keyword
    (str "FROM") (by decide) (head_cons_forall _ 70 _ (by decide)) hlex3 (by decide)
  rw [e4] at e3
  have e2 := lexAll_step (n + 3) [32] [42] ([32] ++ (str "FROM" ++ ([32] ++ ((c :: cs) ++ []))))
    .Asterisk (str "*") (by decide) (head_cons_forall _ 42 _ (by decide)) rfl (by decide)
  rw [e3] at e2
  have hlex1 : lexeme (str "SELECT" ++
      ([32] ++ ([42] ++ ([32] ++ (str "FROM" ++ ([32] ++ ((c :: cs) ++ []))))))) =
      (.Keyword, str "SELECT", str "SELECT") :=
    lexeme_ident 83 (str "ELECT") _ (by decide) (by decide)
      (head_cons_forall _ 32 _ (by decide))
  have e1 := lexAll_step (n + 4) [] (str "SELECT")
    ([32] ++ ([42] ++ ([32] ++ (str "FROM" ++ ([32] ++ ((c :: cs) ++ []))))))
    .Keyword (str "SELECT") (by simp) (head_cons_forall _ 83 _ (by decide)) hlex1 (by decide)
  rw [e2] at e1
  rw [List.append_nil] at e1
  exact e1

end Lexer

namespace Lexer

theorem isOperatorChar_iff (c : Byte) :
    isOperatorChar c = true ↔ [c] ∈ [str "=", str "!", str "<", str ">", str "+", str "-"] := by
  have h : ∀ x : Byte, ([c] = [x]) ↔ c = x := by
    intro x; simp
  have e1 : str "=" = [61] := rfl
  have e2 : str "!" = [33] := rfl
  have e3 : str "<" = [60] := rfl
  have e4 : str ">" = [62] := rfl
  have e5 : str "+" = [43] := rfl
  have e6 : str "-" = [45] := rfl
  simp only [isOperatorChar, Bool.or_eq_true, beq_iff_eq, List.mem_cons, e1, e2, e3, e4, e5, e6,
    h, List.mem_singleton, List.not_mem_nil, or_false, or_assoc]

theorem operatorLexeme_text (c : Byte) (r : GoString) (hc : isOperatorChar c = true) :
    (operatorLexeme c r).1 = .Operator ∧
    (operatorLexeme c r).2.1 ∈ [str "=", str "!", str "<", str ">", str "+", str "-",
      str "<=", str ">=", str "!=", str "=="] := by
  have h1 := (isOperatorChar_iff c).1 hc
  have hsingle : [c] ∈ [str "=", str "!", str "<", str ">", str "+", str "-",
      str "<=", str ">=", str "!=", str "=="] := by
    simp only [List.mem_cons, List.mem_singleton, List.not_mem_nil, or_false] at h1 ⊢
    tauto
  unfold operatorLexeme
  split
  · split_ifs with h2
    · refine ⟨rfl, ?_⟩
      simp only [List.mem_cons, List.mem_singleton, List.not_mem_nil, or_false]
      tauto
    · exact ⟨rfl, hsingle⟩
  · exact ⟨rfl, hsingle⟩

theorem stringLexeme_kind (c : Byte) (r : GoString) :
    (stringLexeme c r).1 = .Error ∨ (stringLexeme c r).1 = .String := by
  unfold stringLexeme
  split
  · exact Or.inl rfl
  · exact Or.inr rfl

theorem lexeme_operator (r : GoString) (h : (lexeme r).1 = .Operator) :
    ∃ c r', r = c :: r' ∧ isOperatorChar c = true ∧ lexeme r = operatorLexeme c r' := by
  cases r with
  | nil => cases h
  | cons c r =>
    refine ⟨c, r, rfl, ?_⟩
    simp only [lexeme] at h ⊢
    cases h1 : (isLetter c || c == 95)
    swap
    · rw [h1] at h
      simp only [if_true] at h
      split_ifs at h
    cases h2 : isDigit c
    swap
    · rw [h1, h2] at h
      simp only [Bool.false_eq_true, if_false, if_true] at h
      cases h
    cases h3 : (c == 34 || c == 39)
    swap
    · rw [h1, h2, h3] at h
      simp only [Bool.false_eq_true, if_false, if_true] at h
      rcases stringLexeme_kind c r with hk | hk <;> rw [hk] at h <;> cases h
    cases h4 : (c == 40)
    swap
    · rw [h1, h2, h3, h4] at h
      simp only [Bool.false_eq_true, if_false, if_true] at h
      cases h
    cases h5 : (c == 41)
    swap
    · rw [h1, h2, h3, h4, h5] at h
      simp only [Bool.false_eq_true, if_false, if_true] at h
      cases h
    cases h6 : (c == 44)
    swap
    · rw [h1, h2, h3, h4, h5, h6] at h
      simp only [Bool.false_eq_true, if_false, if_true] at h
      cases h
    cases h7 : (c == 46)
    swap
    · rw [h1, h2, h3, h4, h5, h6, h7] at h
      simp only [Bool.false_eq_true, if_false, if_true] at h
      cases h
    cases h8 : (c == 42)
    swap
    · rw [h1, h2, h3, h4, h5, h6, h7, h8] at h
      simp only [Bool.false_eq_true, if_false, if_true] at h
      cases h
    cases h9 : isOperatorChar c
    · rw [h1, h2, h3, h4, h5, h6, h7, h8, h9] at h
      simp only [Bool.false_eq_true, if_false] at h
      cases h
    · simp only [Bool.false_eq_true, if_false, if_true, and_self]

theorem lexeme_operator_text (r : GoString) (h : (lexeme r).1 = .Operator) :
    (lexeme r).2.1 ∈ [str "=", str "!", str "<", str ">", str "+", str "-",
      str "<=", str ">=", str "!=", str "=="] := by
  obtain ⟨c, r', _, hc, heq⟩ := lexeme_operator r h
  rw [heq]
  exact (operatorLexeme_text c r' hc).2

theorem lexAll_operator_text :
    ∀ (n : Nat) (r : GoString) (ks : List (TokenType × GoString)), lexAll n r = some ks →
      ∀ k ∈ ks, k.1 = .Operator →
        k.2 ∈ [str "=", str "!", str "<", str ">", str "+", str "-",
          str "<=", str ">=", str "!=", str "=="] := by
  intro n
  induction n with
  | zero => intro r ks h; simp [lexAll] at h
  | succ n ih =>
    intro r ks h k hk hop
    rw [lexAll] at h
    split_ifs at h with hterm
    · simp only [Option.some.injEq] at h
      subst h
      simp only [List.mem_singleton] at hk
      subst hk
      rcases hterm with ht | ht <;> rw [ht] at hop <;> cases hop
    · cases hrec : lexAll n ((r.dropWhile isSpace).drop (lexeme (r.dropWhile isSpace)).2.2.length) with
      | none => rw [hrec] at h; simp at h
      | some ks' =>
        rw [hrec] at h
        simp only [Option.map_some', Option.some.injEq] at h
        subst h
        rcases List.mem_cons.1 hk with rfl | hk
        · exact lexeme_operator_text _ hop
        · exact ih _ ks' hrec k hk hop

end Lexer

namespace Lexer

theorem operatorChar_cases (c : Byte) (hc : isOperatorChar c = true) :
    c = 61 ∨ c = 33 ∨ c = 60 ∨ c = 62 ∨ c = 43 ∨ c = 45 := by
  simpa only [isOperatorChar, Bool.or_eq_true, beq_iff_eq, or_assoc] using hc

theorem lexeme_of_operatorChar (c : Byte) (r : GoString) (hc : isOperatorChar c = true) :
    isSpace c = false ∧ lexeme (c :: r) = operatorLexeme c r := by
  rcases operatorChar_cases c hc with rfl | rfl | rfl | rfl | rfl | rfl <;> exact ⟨by decide, rfl⟩

theorem NextToken_operator (l : Lexer) (c : Byte) (r : GoString)
    (hrest : l.input.drop l.pos = c :: r) (hc : isOperatorChar c = true) :
    ∃ tok, l.NextToken = some (tok, l.consume (operatorLexeme c r).2.2) ∧
      tok.Typ = (operatorLexeme c r).1 ∧ tok.Value = (operatorLexeme c r).2.1 := by
  obtain ⟨hsp, hlex⟩ := lexeme_of_operatorChar c r hc
  obtain ⟨tok, hnext, hT, hV⟩ := NextToken_of_rest' l [] (c :: r) hrest (by simp)
    (head_cons_forall _ c r hsp)
  rw [hlex] at hnext hT hV
  exact ⟨tok, hnext, hT, hV⟩

end Lexer

namespace Lexer

/-- One NextToken call: the token, the state after it, and how far the position moved. -/
theorem NextToken_progress (l : Lexer) :
    ∃ tok l', l.NextToken = some (tok, l') ∧ l'.input = l.input ∧ l.pos ≤ l'.pos ∧
      l'.rest.length ≤ l.rest.length ∧
      (l.pos ≤ l.input.length → l'.pos ≤ l.input.length) ∧
      (tok.Typ ≠ .EOF → l.pos < l'.pos ∧ l'.rest.length < l.rest.length) := by
  obtain ⟨r2, hr2⟩ := lexeme_prefix (l.rest.dropWhile isSpace)
  have hsplit : l.rest =
      (l.rest.takeWhile isSpace ++ (lexeme (l.rest.dropWhile isSpace)).2.2) ++ r2 := by
    rw [List.append_assoc, ← hr2, List.takeWhile_append_dropWhile]
  have hrest1 := rest_consume l _ _ hsplit
  have hlen := congrArg List.length hsplit
  simp only [List.length_append] at hlen
  have hrl : l.rest.length = l.input.length - l.pos := by simp [rest]
  refine ⟨_, _, NextToken_eq_lexeme l, rfl, ?_, ?_, ?_, ?_⟩
  · rw [consume_pos]; omega
  · rw [hrest1]; omega
  · intro hle
    rw [consume_pos, List.length_append]
    omega
  · intro hne
    have hne2 : (lexeme (l.rest.dropWhile isSpace)).2.2 ≠ [] := by
      rcases lexeme_progress (l.rest.dropWhile isSpace) with h0 | h0
      · exact absurd h0 hne
      · exact h0
    have hpos : 0 < (lexeme (l.rest.dropWhile isSpace)).2.2.length := List.length_pos.2 hne2
    rw [consume_pos, List.length_append, hrest1]
    constructor <;> omega

theorem tokenizeLoop_length :
    ∀ (n : Nat) (l : Lexer) (acc : List Token), l.rest.length < n →
      ∃ toks l', tokenizeLoop n l acc = some (acc ++ toks, l') ∧
        toks.length ≤ l.rest.length + 1 := by
  intro n
  induction n with
  | zero => intro l acc h; omega
  | succ n ih =>
    intro l acc h
    obtain ⟨tok, l1, hnext, _, _, hle, _, hprog⟩ := NextToken_progress l
    unfold tokenizeLoop
    rw [hnext]
    simp only
    split_ifs with hterm
    · exact ⟨[tok], l1, rfl, by simp⟩
    · have hne : tok.Typ ≠ .EOF := fun h0 => hterm (Or.inl h0)
      obtain ⟨toks, l', hrun, hlen⟩ := ih l1 (acc ++ [tok]) (by have := (hprog hne).2; omega)
      refine ⟨tok :: toks, l', ?_, ?_⟩
      · rw [hrun]; simp
      · have := (hprog hne).2
        simp only [List.length_cons]
        omega

end Lexer

/-! ## The parser on token shapes -/


theorem shape_eq_five (toks : List Token) (a b c d e : TokenType × GoString)
    (h : shape toks = [a, b, c, d, e]) :
    ∃ l1 c1 l2 c2 l3 c3 l4 c4 l5 c5, toks =
      [⟨a.1, a.2, l1, c1⟩, ⟨b.1, b.2, l2, c2⟩, ⟨c.1, c.2, l3, c3⟩, ⟨d.1, d.2, l4, c4⟩,
       ⟨e.1, e.2, l5, c5⟩] := by
  match toks, h with
  | [t1, t2, t3, t4, t5], h =>
    simp only [shape, List.map_cons, List.map_nil, List.cons.injEq, and_true] at h
    obtain ⟨rfl, rfl, rfl, rfl, rfl⟩ := h
    exact ⟨t1.Line, t1.Column, t2.Line, t2.Column, t3.Line, t3.Column, t4.Line, t4.Column,
      t5.Line, t5.Column, rfl⟩

theorem shape_eq_three (toks : List Token) (a b c : TokenType × GoString)
    (h : shape toks = [a, b, c]) :
    ∃ l1 c1 l2 c2 l3 c3, toks =
      [⟨a.1, a.2, l1, c1⟩, ⟨b.1, b.2, l2, c2⟩, ⟨c.1, c.2, l3, c3⟩] := by
  match toks, h with
  | [t1, t2, t3], h =>
    simp only [shape, List.map_cons, List.map_nil, List.cons.injEq, and_true] at h
    obtain ⟨rfl, rfl, rfl⟩ := h
    exact ⟨t1.Line, t1.Column, t2.Line, t2.Column, t3.Line, t3.Column, rfl⟩

theorem Parse_select_star (toks : List Token) (e : GoString)
    (h : shape toks = [(.Keyword, str "SELECT"), (.Asterisk, str "*"), (.Keyword, str "FROM"),
      (.Identifier, e), (.EOF, [])]) :
    (NewParser toks).Parse = .ok (.mk ⟨.Query, str "ROOT"⟩
      [.mk ⟨.Select, str "SELECT"⟩ [leaf .Field (str "*"), leaf .Field e]]) := by
  obtain ⟨l1, c1, l2, c2, l3, c3, l4, c4, l5, c5, rfl⟩ := shape_eq_five toks _ _ _ _ _ h
  rfl

theorem Parse_find_entity (toks : List Token) (e : GoString)
    (h : shape toks = [(.Keyword, str "FIND"), (.Identifier, e), (.EOF, [])]) :
    (NewParser toks).Parse = .ok (.mk ⟨.Query, str "ROOT"⟩
      [.mk ⟨.Find, str "FIND"⟩ [leaf .Field e]]) := by
  obtain ⟨l1, c1, l2, c2, l3, c3, rfl⟩ := shape_eq_three toks _ _ _ h
  rfl


theorem Validate_of_parse (query : GoString) (toks : List Token) (ast : AST)
    (ht : (NewLexer query).Tokenize = some (.ok toks))
    (hp : (NewParser toks).Parse = .ok ast) :
    Validate query = some (.ok ()) := by
  simp only [Validate, ht, Option.map_some', hp]

theorem Tokenize_parse_select_star (c : Byte) (cs : GoString)
    (hc : isLetter c = true ∨ c = 95)
    (hcs : ∀ b ∈ cs, isLetter b = true ∨ isDigit b = true ∨ b = 95)
    (hnk : keywords (ToUpper (c :: cs)) = false) :
    ∃ toks, (NewLexer (str "SELECT * FROM " ++ (c :: cs))).Tokenize = some (.ok toks) ∧
      (NewParser toks).Parse = .ok (.mk ⟨.Query, str "ROOT"⟩
        [.mk ⟨.Select, str "SELECT"⟩ [leaf .Field (str "*"), leaf .Field (c :: cs)]]) := by
  obtain ⟨toks, hrun, hshape⟩ := Lexer.Tokenize_shape (str "SELECT * FROM " ++ (c :: cs))
  have hlen : (str "SELECT * FROM " ++ (c :: cs)).length + 1 = (cs.length + 11) + 5 := by
    rw [List.length_append, List.length_cons]
    have : (str "SELECT * FROM ").length = 14 := rfl
    omega
  rw [hlen, Lexer.lexAll_select_star _ c cs hc hcs hnk] at hshape
  exact ⟨toks, hrun, Parse_select_star toks _ (Option.some.inj hshape).symm⟩

theorem Tokenize_parse_find (c : Byte) (cs : GoString)
    (hc : isLetter c = true ∨ c = 95)
    (hcs : ∀ b ∈ cs, isLetter b = true ∨ isDigit b = true ∨ b = 95)
    (hnk : keywords (ToUpper (c :: cs)) = false) :
    ∃ toks, (NewLexer (str "FIND " ++ (c :: cs))).Tokenize = some (.ok toks) ∧
      (NewParser toks).Parse = .ok (.mk ⟨.Query, str "ROOT"⟩
        [.mk ⟨.Find, str "FIND"⟩ [leaf .Field (c :: cs)]]) := by
  obtain ⟨toks, hrun, hshape⟩ := Lexer.Tokenize_shape (str "FIND " ++ (c :: cs))
  have hlen : (str "FIND " ++ (c :: cs)).length + 1 = (cs.length + 4) + 3 := by
    rw [List.length_append, List.length_cons]
    have : (str "FIND ").length = 5 := rfl
    omega
  rw [hlen, Lexer.lexAll_find _ c cs hc hcs hnk] at hshape
  exact ⟨toks, hrun, Parse_find_entity toks _ (Option.some.inj hshape).symm⟩

namespace Parser

theorem rest_NewParser (ts : List Token) : (NewParser ts).rest = ts := rfl

theorem currentToken_eq (p : Parser) : p.currentToken = seen p.rest := by
  unfold currentToken rest seen
  by_cases h : p.pos < p.tokens.length
  · rw [dif_pos h, List.drop_eq_getElem_cons h]
    rfl
  · rw [dif_neg h, List.drop_eq_nil_of_le (Nat.le_of_not_lt h)]
    rfl

theorem hasMore_eq (p : Parser) : p.hasMore = ((seen p.rest).Typ != .EOF) := by
  unfold hasMore rest seen
  by_cases h : p.pos < p.tokens.length
  · rw [dif_pos h, List.drop_eq_getElem_cons h]
    rfl
  · rw [dif_neg h, List.drop_eq_nil_of_le (Nat.le_of_not_lt h)]
    rfl

theorem advance_rest (p : Parser) : p.advance.rest = p.rest.tail := by
  unfold advance rest
  by_cases h : p.pos < p.tokens.length
  · rw [if_pos h]
    simp only [List.tail_drop]
  · rw [if_neg h, List.drop_eq_nil_of_le (Nat.le_of_not_lt h)]
    rfl

theorem peek_eq_true (p : Parser) (v : GoString) :
    p.peek v = true ↔ (seen p.rest).reads v := by
  simp [peek, hasMore_eq, currentToken_eq, Token.reads]

theorem expect_eq_true (p : Parser) (v : GoString) :
    p.expect v = true ↔ (seen p.rest).reads v := by
  simp [expect, hasMore_eq, currentToken_eq, Token.reads]

theorem seen_cons (t : Token) (ts : List Token) : seen (t :: ts) = t := rfl

theorem seen_nil : seen [] = eofToken := rfl

theorem not_reads_eof (t : Token) (v : GoString) (h : t.Typ = .EOF) : ¬ t.reads v :=
  fun hr => hr.1 h

theorem reads_ne (t : Token) (v w : GoString) (h : t.reads v) (hne : v ≠ w) : ¬ t.reads w :=
  fun hr => hne (h.2.symm.trans hr.2)

/-- The dispatch of parseQuery on the text of the token it sees. -/
theorem parseQuery_eq (p : Parser) :
    p.parseQuery =
      if (seen p.rest).Typ = .EOF then .error (errorsNew "unexpected end of input")
      else if (seen p.rest).Value = str "SELECT" then p.parseSelectStatement
      else if (seen p.rest).Value = str "FIND" then p.parseFindStatement
      else if (seen p.rest).Value = str "UPDATE" then p.parseUpdateStatement
      else if (seen p.rest).Value = str "ANALYZE" then p.parseAnalyzeStatement
      else .error ⟨str "unexpected keyword: " ++ (seen p.rest).Value⟩ := by
  unfold parseQuery
  rw [hasMore_eq, currentToken_eq]
  by_cases h : (seen p.rest).Typ = .EOF
  · simp [h]
  · simp [h]

theorem Parse_failed_of_parseQuery (ts : List Token) (h : failed (NewParser ts).parseQuery) :
    failed (NewParser ts).Parse := by
  obtain ⟨err, herr⟩ := h
  unfold Parse
  split_ifs
  · exact ⟨_, rfl⟩
  · rw [herr]
    exact ⟨_, rfl⟩

end Parser

namespace Parser

theorem parseFieldList_spec (p : Parser) (parent : AST) (fl r : List Token)
    (h : p.rest = fl ++ r) (hfl : fieldListOf fl r) :
    ∃ p' n', p.parseFieldList parent = .ok (p', n') ∧ p'.rest = r := by
  unfold parseFieldList
  rw [currentToken_eq, h]
  rcases hfl with ⟨f, rfl, hf⟩ | ⟨rfl, h1, h2⟩
  · simp only [List.singleton_append, seen_cons]
    rcases hf with hf | hf
    · rw [if_pos hf]
      exact ⟨_, _, rfl, by rw [advance_rest, h]; rfl⟩
    · rw [if_neg (by rw [hf]; decide), if_pos hf]
      exact ⟨_, _, rfl, by rw [advance_rest, h]; rfl⟩
  · simp only [List.nil_append]
    rw [if_neg h1, if_neg h2]
    exact ⟨_, _, rfl, by rw [h]; rfl⟩

theorem parseSource_ok (p : Parser) (parent : AST) (src : Token) (r : List Token)
    (h : p.rest = src :: r) (hs : src.Typ = .Identifier ∨ src.Typ = .Keyword) :
    ∃ p' n', p.parseSource parent = .ok (p', n') ∧ p'.rest = r := by
  unfold parseSource
  rw [currentToken_eq, h, seen_cons]
  rw [if_neg (by
    rcases hs with hs | hs <;> simp [hs])]
  exact ⟨_, _, rfl, by rw [advance_rest, h]; rfl⟩

theorem parseSource_failed (p : Parser) (parent : AST)
    (h : (seen p.rest).Typ ≠ .Identifier ∧ (seen p.rest).Typ ≠ .Keyword) :
    failed (p.parseSource parent) := by
  unfold parseSource
  rw [currentToken_eq, if_pos h]
  exact ⟨_, rfl⟩

theorem where_opt (p : Parser) (parent : AST) (wh r : List Token)
    (h : p.rest = wh ++ r) (hw : whereOf wh) (hr : ¬ (seen r).reads (str "WHERE")) :
    ∃ p' n', optionalClause (str "WHERE") parseWhereClause p parent = .ok (p', n') ∧
      p'.rest = r := by
  unfold optionalClause
  rcases hw with rfl | ⟨w, rfl, hw⟩
  · rw [List.nil_append] at h
    rw [if_neg (by rw [peek_eq_true, h]; exact hr)]
    exact ⟨_, _, rfl, h⟩
  · rw [if_pos (by rw [peek_eq_true, h]; exact hw)]
    exact ⟨_, _, rfl, by rw [advance_rest, h]; rfl⟩

theorem order_opt (p : Parser) (parent : AST) (ob r : List Token)
    (h : p.rest = ob ++ r) (ho : orderOf ob) (hr : ¬ (seen r).reads (str "ORDER")) :
    ∃ p' n', optionalClause (str "ORDER") parseOrderByClause p parent = .ok (p', n') ∧
      p'.rest = r := by
  unfold optionalClause
  rcases ho with rfl | ⟨o, b, rfl, ho, hb⟩
  · rw [List.nil_append] at h
    rw [if_neg (by rw [peek_eq_true, h]; exact hr)]
    exact ⟨_, _, rfl, h⟩
  · rw [if_pos (by rw [peek_eq_true, h]; exact ho)]
    unfold parseOrderByClause
    have hexp : p.advance.expect (str "BY") = true := by
      rw [expect_eq_true, advance_rest, h]; exact hb
    simp only [hexp, Bool.not_true, Bool.false_eq_true, if_false]
    exact ⟨_, _, rfl, by rw [advance_rest, advance_rest, h]; rfl⟩

theorem order_failed (p : Parser) (parent : AST) (o : Token) (r : List Token)
    (h : p.rest = o :: r) (ho : o.reads (str "ORDER")) (hb : ¬ (seen r).reads (str "BY")) :
    failed (optionalClause (str "ORDER") parseOrderByClause p parent) := by
  unfold optionalClause
  rw [if_pos (by rw [peek_eq_true, h]; exact ho)]
  unfold parseOrderByClause
  have hexp : p.advance.expect (str "BY") = false := by
    rw [← Bool.not_eq_true, expect_eq_true, advance_rest, h]; exact hb
  simp only [hexp, Bool.not_false, if_true]
  exact ⟨_, rfl⟩

theorem limit_failed (p : Parser) (parent : AST) (l : Token) (r : List Token)
    (h : p.rest = l :: r) (hl : l.reads (str "LIMIT")) (hn : (seen r).Typ ≠ .Number) :
    failed (optionalClause (str "LIMIT") parseLimitClause p parent) := by
  unfold optionalClause
  rw [if_pos (by rw [peek_eq_true, h]; exact hl)]
  unfold parseLimitClause
  have hcur : p.advance.currentToken = seen r := by
    rw [currentToken_eq, advance_rest, h]; rfl
  simp only [hcur]
  rw [if_pos hn]
  exact ⟨_, rfl⟩

end Parser

namespace Parser

theorem select_failed_no_from (p : Parser) (sel : Token) (fl r : List Token)
    (h : p.rest = sel :: (fl ++ r)) (hfl : fieldListOf fl r)
    (hr : ¬ (seen r).reads (str "FROM")) :
    failed p.parseSelectStatement := by
  obtain ⟨p1, n1, h1, hr1⟩ := parseFieldList_spec p.advance (p.addNode .Select (str "SELECT"))
    fl r (by rw [advance_rest, h]; rfl) hfl
  have hexp : p1.expect (str "FROM") = false := by
    rw [← Bool.not_eq_true, expect_eq_true, hr1]; exact hr
  unfold parseSelectStatement
  simp only [bind, Except.bind, h1, hexp]
  exact ⟨_, rfl⟩

/-- A SELECT statement read up to its source: the state after parseSource. -/
theorem select_head (p : Parser) (sel frm src : Token) (fl r : List Token)
    (h : p.rest = sel :: (fl ++ frm :: src :: r)) (hfl : fieldListOf fl (frm :: src :: r))
    (hfrm : frm.reads (str "FROM")) (hsrc : src.Typ = .Identifier ∨ src.Typ = .Keyword) :
    ∃ p2 n2, p2.rest = r ∧ p.parseSelectStatement =
      (do
        let (p, selectNode) ← optionalClause (str "WHERE") parseWhereClause p2 n2
        let (p, selectNode) ← optionalClause (str "ORDER") parseOrderByClause p selectNode
        let (p, selectNode) ← optionalClause (str "LIMIT") parseLimitClause p selectNode
        return (p, selectNode)) := by
  obtain ⟨p1, n1, h1, hr1⟩ := parseFieldList_spec p.advance (p.addNode .Select (str "SELECT"))
    fl (frm :: src :: r) (by rw [advance_rest, h]; rfl) hfl
  have hexp : p1.expect (str "FROM") = true := by
    rw [expect_eq_true, hr1]; exact hfrm
  obtain ⟨p2, n2, h2, hr2⟩ := parseSource_ok p1.advance n1 src r
    (by rw [advance_rest, hr1]; rfl) hsrc
  refine ⟨p2, n2, hr2, ?_⟩
  unfold parseSelectStatement
  simp only [bind, Except.bind, h1, hexp, h2]
  rfl

theorem select_failed_no_source (p : Parser) (sel frm : Token) (fl r : List Token)
    (h : p.rest = sel :: (fl ++ frm :: r)) (hfl : fieldListOf fl (frm :: r))
    (hfrm : frm.reads (str "FROM"))
    (hr : (seen r).Typ ≠ .Identifier ∧ (seen r).Typ ≠ .Keyword) :
    failed p.parseSelectStatement := by
  obtain ⟨p1, n1, h1, hr1⟩ := parseFieldList_spec p.advance (p.addNode .Select (str "SELECT"))
    fl (frm :: r) (by rw [advance_rest, h]; rfl) hfl
  have hexp : p1.expect (str "FROM") = true := by
    rw [expect_eq_true, hr1]; exact hfrm
  obtain ⟨err, herr⟩ := parseSource_failed p1.advance n1
    (by rw [advance_rest, hr1]; exact hr)
  unfold parseSelectStatement
  simp only [bind, Except.bind, h1, hexp, herr]
  exact ⟨_, rfl⟩

theorem select_failed_no_by (p : Parser) (sel frm src ord : Token) (fl wh r : List Token)
    (h : p.rest = sel :: (fl ++ frm :: src :: (wh ++ ord :: r)))
    (hfl : fieldListOf fl (frm :: src :: (wh ++ ord :: r)))
    (hfrm : frm.reads (str "FROM")) (hsrc : src.Typ = .Identifier ∨ src.Typ = .Keyword)
    (hwh : whereOf wh) (hord : ord.reads (str "ORDER"))
    (hr : ¬ (seen r).reads (str "BY")) :
    failed p.parseSelectStatement := by
  obtain ⟨p2, n2, hr2, heq⟩ := select_head p sel frm src fl _ h hfl hfrm hsrc
  obtain ⟨p3, n3, h3, hr3⟩ := where_opt p2 n2 wh (ord :: r) hr2 hwh
    (reads_ne _ _ _ hord (by decide))
  obtain ⟨err, herr⟩ := order_failed p3 n3 ord r hr3 hord hr
  rw [heq]
  simp only [bind, Except.bind, h3, herr]
  exact ⟨_, rfl⟩

theorem select_failed_no_number (p : Parser) (sel frm src lim : Token)
    (fl wh ob r : List Token)
    (h : p.rest = sel :: (fl ++ frm :: src :: (wh ++ (ob ++ lim :: r))))
    (hfl : fieldListOf fl (frm :: src :: (wh ++ (ob ++ lim :: r))))
    (hfrm : frm.reads (str "FROM")) (hsrc : src.Typ = .Identifier ∨ src.Typ = .Keyword)
    (hwh : whereOf wh) (hob : orderOf ob) (hlim : lim.reads (str "LIMIT"))
    (hr : (seen r).Typ ≠ .Number) :
    failed p.parseSelectStatement := by
  obtain ⟨p2, n2, hr2, heq⟩ := select_head p sel frm src fl _ h hfl hfrm hsrc
  have hnw : ¬ (seen (ob ++ lim :: r)).reads (str "WHERE") := by
    rcases hob with rfl | ⟨o, b, rfl, ho, _⟩
    · exact reads_ne _ _ _ hlim (by decide)
    · exact reads_ne _ _ _ ho (by decide)
  obtain ⟨p3, n3, h3, hr3⟩ := where_opt p2 n2 wh (ob ++ lim :: r) hr2 hwh hnw
  obtain ⟨p4, n4, h4, hr4⟩ := order_opt p3 n3 ob (lim :: r) hr3 hob
    (reads_ne _ _ _ hlim (by decide))
  obtain ⟨err, herr⟩ := limit_failed p4 n4 lim r hr4 hlim hr
  rw [heq]
  simp only [bind, Except.bind, h3, h4, herr]
  exact ⟨_, rfl⟩

theorem find_failed_no_entity (p : Parser) (kw : Token) (r : List Token)
    (h : p.rest = kw :: r)
    (hr : (seen r).Typ ≠ .Identifier ∧ (seen r).Typ ≠ .Keyword) :
    failed p.parseFindStatement := by
  have hcur : p.advance.currentToken = seen r := by
    rw [currentToken_eq, advance_rest, h]; rfl
  unfold parseFindStatement
  simp only [bind, Except.bind, hcur, if_pos hr]
  exact ⟨_, rfl⟩

theorem find_failed_no_by (p : Parser) (kw ent ord : Token) (wh r : List Token)
    (h : p.rest = kw :: ent :: (wh ++ ord :: r))
    (hent : ent.Typ = .Identifier ∨ ent.Typ = .Keyword)
    (hwh : whereOf wh) (hord : ord.reads (str "ORDER"))
    (hr : ¬ (seen r).reads (str "BY")) :
    failed p.parseFindStatement := by
  have hcur : p.advance.currentToken = ent := by
    rw [currentToken_eq, advance_rest, h]; rfl
  have hent' : ¬ (ent.Typ ≠ .Identifier ∧ ent.Typ ≠ .Keyword) := by
    rcases hent with he | he <;> simp [he]
  obtain ⟨p3, n3, h3, hr3⟩ := where_opt p.advance.advance
    ((p.addNode .Find (str "FIND")).appendChild (leaf .Field ent.Value)) wh (ord :: r)
    (by rw [advance_rest, advance_rest, h]; rfl) hwh (reads_ne _ _ _ hord (by decide))
  obtain ⟨err, herr⟩ := order_failed p3 n3 ord r hr3 hord hr
  unfold parseFindStatement
  simp only [bind, Except.bind, hcur, if_neg hent', h3, herr]
  exact ⟨_, rfl⟩

theorem update_failed_no_entity (p : Parser) (kw : Token) (r : List Token)
    (h : p.rest = kw :: r) (hr : (seen r).Typ ≠ .Identifier) :
    failed p.parseUpdateStatement := by
  have hcur : p.advance.currentToken = seen r := by
    rw [currentToken_eq, advance_rest, h]; rfl
  unfold parseUpdateStatement
  simp only [bind, Except.bind, hcur, if_pos hr]
  exact ⟨_, rfl⟩

theorem update_failed_no_set (p : Parser) (kw ent : Token) (r : List Token)
    (h : p.rest = kw :: ent :: r) (hent : ent.Typ = .Identifier)
    (hr : ¬ (seen r).reads (str "SET")) :
    failed p.parseUpdateStatement := by
  have hcur : p.advance.currentToken = ent := by
    rw [currentToken_eq, advance_rest, h]; rfl
  have hexp : p.advance.advance.expect (str "SET") = false := by
    rw [← Bool.not_eq_true, expect_eq_true, advance_rest, advance_rest, h]; exact hr
  unfold parseUpdateStatement
  simp only [bind, Except.bind, hcur, hent, ne_eq, not_true_eq_false, if_false, hexp]
  exact ⟨_, rfl⟩

theorem analyze_failed_no_entity (p : Parser) (kw : Token) (r : List Token)
    (h : p.rest = kw :: r) (hr : (seen r).Typ ≠ .Identifier) :
    failed p.parseAnalyzeStatement := by
  have hcur : p.advance.currentToken = seen r := by
    rw [currentToken_eq, advance_rest, h]; rfl
  unfold parseAnalyzeStatement
  simp only [bind, Except.bind, hcur, if_pos hr]
  exact ⟨_, rfl⟩

end Parser

namespace Parser

theorem parseQuery_select (ts : List Token) (kw : Token) (r : List Token)
    (h : ts = kw :: r) (hkw : kw.reads (str "SELECT")) :
    (NewParser ts).parseQuery = (NewParser ts).parseSelectStatement := by
  rw [parseQuery_eq, rest_NewParser, h, seen_cons, if_neg hkw.1, if_pos hkw.2]

theorem parseQuery_find (ts : List Token) (kw : Token) (r : List Token)
    (h : ts = kw :: r) (hkw : kw.reads (str "FIND")) :
    (NewParser ts).parseQuery = (NewParser ts).parseFindStatement := by
  rw [parseQuery_eq, rest_NewParser, h, seen_cons, if_neg hkw.1,
    if_neg (by rw [hkw.2]; decide), if_pos hkw.2]

theorem parseQuery_update (ts : List Token) (kw : Token) (r : List Token)
    (h : ts = kw :: r) (hkw : kw.reads (str "UPDATE")) :
    (NewParser ts).parseQuery = (NewParser ts).parseUpdateStatement := by
  rw [parseQuery_eq, rest_NewParser, h, seen_cons, if_neg hkw.1,
    if_neg (by rw [hkw.2]; decide), if_neg (by rw [hkw.2]; decide), if_pos hkw.2]

theorem parseQuery_analyze (ts : List Token) (kw : Token) (r : List Token)
    (h : ts = kw :: r) (hkw : kw.reads (str "ANALYZE")) :
    (NewParser ts).parseQuery = (NewParser ts).parseAnalyzeStatement := by
  rw [parseQuery_eq, rest_NewParser, h, seen_cons, if_neg hkw.1,
    if_neg (by rw [hkw.2]; decide), if_neg (by rw [hkw.2]; decide),
    if_neg (by rw [hkw.2]; decide), if_pos hkw.2]

end Parser

/-- The first token decides by its text: Parse returns an error when the first token has
kind EOF or a text other than SELECT, FIND, UPDATE or ANALYZE, and a first token of any
kind but EOF whose text is one of the four selects that statement production. -/
theorem Parse_fails_on_first_token_text (t : Token) (rest : List Token)
    (h : t.Typ = .EOF ∨ (t.Value ≠ str "SELECT" ∧ t.Value ≠ str "FIND" ∧
      t.Value ≠ str "UPDATE" ∧ t.Value ≠ str "ANALYZE")) :
    failed (NewParser (t :: rest)).Parse ∧
    (∀ (k : Token) (r : List Token), k.Typ ≠ .EOF →
      (k.Value = str "SELECT" →
        (NewParser (k :: r)).parseQuery = (NewParser (k :: r)).parseSelectStatement) ∧
      (k.Value = str "FIND" →
        (NewParser (k :: r)).parseQuery = (NewParser (k :: r)).parseFindStatement) ∧
      (k.Value = str "UPDATE" →
        (NewParser (k :: r)).parseQuery = (NewParser (k :: r)).parseUpdateStatement) ∧
      (k.Value = str "ANALYZE" →
        (NewParser (k :: r)).parseQuery = (NewParser (k :: r)).parseAnalyzeStatement)) := by
  constructor
  · apply Parser.Parse_failed_of_parseQuery
    rw [Parser.parseQuery_eq, Parser.rest_NewParser, Parser.seen_cons]
    rcases h with h | ⟨h1, h2, h3, h4⟩
    · rw [if_pos h]
      exact ⟨_, rfl⟩
    · rw [if_neg h1, if_neg h2, if_neg h3, if_neg h4]
      split_ifs <;> exact ⟨_, rfl⟩
  · intro k r hk
    exact ⟨fun hv => Parser.parseQuery_select _ k r rfl ⟨hk, hv⟩,
      fun hv => Parser.parseQuery_find _ k r rfl ⟨hk, hv⟩,
      fun hv => Parser.parseQuery_update _ k r rfl ⟨hk, hv⟩,
      fun hv => Parser.parseQuery_analyze _ k r rfl ⟨hk, hv⟩⟩

namespace Parser

theorem follows_refl (p : Parser) : p.follows p := ⟨rfl, le_refl _, id⟩

theorem follows_trans (r q p : Parser) (h1 : r.follows q) (h2 : q.follows p) : r.follows p := by
  obtain ⟨a1, b1, c1⟩ := h1
  obtain ⟨a2, b2, c2⟩ := h2
  exact ⟨a1.trans a2, le_trans b2 b1, fun h => c1 (by rw [a2]; exact le_trans (c2 h) (le_refl _) |> fun x => by simpa [a2] using x)⟩

theorem follows_advance (p : Parser) : p.advance.follows p := by
  unfold advance follows
  split
  · exact ⟨rfl, Nat.le_succ _, fun _ => by simpa using Nat.succ_le_of_lt ‹_›⟩
  · exact ⟨rfl, le_refl _, id⟩

theorem bind_ok_inv {α β : Type} (x : Except GoError α) (f : α → Except GoError β) (b : β)
    (h : (x >>= f) = .ok b) : ∃ a, x = .ok a ∧ f a = .ok b := by
  cases x with
  | error e => cases h
  | ok a => exact ⟨a, rfl, h⟩

theorem node_eta (n : AST) : n = .mk n.Value (n.Children ++ []) := by
  cases n; simp [TreeNode.Value, TreeNode.Children]

theorem parseFieldList_inv (p q : Parser) (n n' : AST)
    (h : p.parseFieldList n = .ok (q, n')) :
    q.follows p ∧ ∃ ex, n' = .mk n.Value (n.Children ++ ex) ∧
      (ex = [] ∨ ∃ t, ex = [leaf .Field t]) := by
  unfold parseFieldList at h
  simp only at h
  split_ifs at h
  · cases h
    exact ⟨follows_advance p, _, rfl, Or.inr ⟨_, rfl⟩⟩
  · cases h
    exact ⟨follows_advance p, _, rfl, Or.inr ⟨_, rfl⟩⟩
  · cases h
    exact ⟨follows_refl _, [], node_eta _, Or.inl rfl⟩

theorem parseSource_inv (p q : Parser) (n n' : AST)
    (h : p.parseSource n = .ok (q, n')) :
    q.follows p ∧ ∃ t, n' = .mk n.Value (n.Children ++ [leaf .Field t]) := by
  unfold parseSource at h
  split_ifs at h
  cases h
  exact ⟨follows_advance p, _, rfl⟩

theorem where_inv (p q : Parser) (n n' : AST)
    (h : optionalClause (str "WHERE") parseWhereClause p n = .ok (q, n')) :
    q.follows p ∧ ∃ ex, n' = .mk n.Value (n.Children ++ ex) ∧
      (ex = [] ∨ ex = [leaf .Where (str "WHERE")]) := by
  unfold optionalClause at h
  split_ifs at h
  · unfold parseWhereClause at h
    cases h
    exact ⟨follows_advance p, _, rfl, Or.inr rfl⟩
  · cases h
    exact ⟨follows_refl _, [], node_eta _, Or.inl rfl⟩

theorem order_inv (p q : Parser) (n n' : AST)
    (h : optionalClause (str "ORDER") parseOrderByClause p n = .ok (q, n')) :
    q.follows p ∧ ∃ ex, n' = .mk n.Value (n.Children ++ ex) ∧
      (ex = [] ∨ ex = [leaf .OrderBy (str "ORDER_BY")]) := by
  unfold optionalClause at h
  split_ifs at h
  · unfold parseOrderByClause at h
    simp only at h
    split_ifs at h
    cases h
    exact ⟨follows_trans _ _ _ (follows_advance _) (follows_advance p), _, rfl, Or.inr rfl⟩
  · cases h
    exact ⟨follows_refl _, [], node_eta _, Or.inl rfl⟩

theorem limit_inv (p q : Parser) (n n' : AST)
    (h : optionalClause (str "LIMIT") parseLimitClause p n = .ok (q, n')) :
    q.follows p ∧ ∃ ex, n' = .mk n.Value (n.Children ++ ex) ∧
      (ex = [] ∨ ∃ t, ex = [leaf .Limit t]) := by
  unfold optionalClause at h
  split_ifs at h
  · unfold parseLimitClause at h
    simp only at h
    split_ifs at h
    cases h
    exact ⟨follows_trans _ _ _ (follows_advance _) (follows_advance p), _, rfl, Or.inr ⟨_, rfl⟩⟩
  · cases h
    exact ⟨follows_refl _, [], node_eta _, Or.inl rfl⟩

end Parser

namespace Parser

theorem parseSelectStatement_inv (p q : Parser) (n : AST)
    (h : p.parseSelectStatement = .ok (q, n)) :
    q.follows p ∧ ∃ fs w o l, n = .mk ⟨.Select, str "SELECT"⟩ (fs ++ (w ++ (o ++ l))) ∧
      (fs.length = 1 ∨ fs.length = 2) ∧ (∀ f ∈ fs, ∃ t, f = leaf .Field t) ∧
      (w = [] ∨ w = [leaf .Where (str "WHERE")]) ∧
      (o = [] ∨ o = [leaf .OrderBy (str "ORDER_BY")]) ∧
      (l = [] ∨ ∃ t, l = [leaf .Limit t]) := by
  unfold parseSelectStatement at h
  obtain ⟨⟨p1, n1⟩, h1, h⟩ := bind_ok_inv _ _ _ h
  simp only at h
  split_ifs at h with hfrom
  · cases h
  obtain ⟨_, _, h⟩ := bind_ok_inv _ _ _ h
  obtain ⟨⟨p2, n2⟩, h2, h⟩ := bind_ok_inv _ _ _ h
  obtain ⟨⟨p3, n3⟩, h3, h⟩ := bind_ok_inv _ _ _ h
  obtain ⟨⟨p4, n4⟩, h4, h⟩ := bind_ok_inv _ _ _ h
  obtain ⟨⟨p5, n5⟩, h5, h⟩ := bind_ok_inv _ _ _ h
  cases h
  obtain ⟨f1, ex1, rfl, hex1⟩ := parseFieldList_inv _ _ _ _ h1
  obtain ⟨f2, t2, rfl⟩ := parseSource_inv _ _ _ _ h2
  obtain ⟨f3, w, rfl, hw⟩ := where_inv _ _ _ _ h3
  obtain ⟨f4, o, rfl, ho⟩ := order_inv _ _ _ _ h4
  obtain ⟨f5, l, rfl, hl⟩ := limit_inv _ _ _ _ h5
  refine ⟨follows_trans _ _ _ f5 (follows_trans _ _ _ f4 (follows_trans _ _ _ f3
    (follows_trans _ _ _ f2 (follows_trans _ _ _ (follows_advance _)
      (follows_trans _ _ _ f1 (follows_advance _)))))), ex1 ++ [leaf .Field t2], w, o, l, ?_, ?_, ?_, hw, ho, hl⟩
  · simp [TreeNode.Value, TreeNode.Children, addNode, leaf]
  · rcases hex1 with rfl | ⟨t, rfl⟩
    · exact Or.inl rfl
    · exact Or.inr rfl
  · intro f hf
    rcases hex1 with rfl | ⟨t, rfl⟩
    · simp only [List.nil_append, List.mem_singleton] at hf
      exact ⟨_, hf⟩
    · simp only [List.singleton_append, List.mem_cons, List.mem_singleton, List.not_mem_nil,
        or_false] at hf
      rcases hf with rfl | rfl
      · exact ⟨_, rfl⟩
      · exact ⟨_, rfl⟩

theorem parseFindStatement_inv (p q : Parser) (n : AST)
    (h : p.parseFindStatement = .ok (q, n)) :
    q.follows p ∧ ∃ t w o, n = .mk ⟨.Find, str "FIND"⟩ ([leaf .Field t] ++ (w ++ o)) ∧
      (w = [] ∨ w = [leaf .Where (str "WHERE")]) ∧
      (o = [] ∨ o = [leaf .OrderBy (str "ORDER_BY")]) := by
  unfold parseFindStatement at h
  simp only at h
  split_ifs at h with hent
  · cases h
  obtain ⟨_, _, h⟩ := bind_ok_inv _ _ _ h
  obtain ⟨⟨p3, n3⟩, h3, h⟩ := bind_ok_inv _ _ _ h
  obtain ⟨⟨p4, n4⟩, h4, h⟩ := bind_ok_inv _ _ _ h
  cases h
  obtain ⟨f3, w, rfl, hw⟩ := where_inv _ _ _ _ h3
  obtain ⟨f4, o, rfl, ho⟩ := order_inv _ _ _ _ h4
  refine ⟨follows_trans _ _ _ f4 (follows_trans _ _ _ f3 (follows_trans _ _ _
    (follows_advance _) (follows_advance _))), p.advance.currentToken.Value, w, o, ?_, hw, ho⟩
  simp [TreeNode.Value, TreeNode.Children, TreeNode.appendChild, addNode, leaf]

theorem parseUpdateStatement_inv (p q : Parser) (n : AST)
    (h : p.parseUpdateStatement = .ok (q, n)) :
    q.follows p ∧ ∃ t, n = .mk ⟨.Update, str "UPDATE"⟩ [leaf .Field t] := by
  unfold parseUpdateStatement at h
  simp only at h
  split_ifs at h with hent hset
  all_goals first | (cases h; done) | skip
  · cases h
    exact ⟨follows_trans _ _ _ (follows_advance _) (follows_trans _ _ _
      (follows_advance _) (follows_advance _)), p.advance.currentToken.Value, rfl⟩

theorem parseAnalyzeStatement_inv (p q : Parser) (n : AST)
    (h : p.parseAnalyzeStatement = .ok (q, n)) :
    q.follows p ∧ ∃ t, n = .mk ⟨.Analyze, str "ANALYZE"⟩ [leaf .Field t] := by
  unfold parseAnalyzeStatement at h
  simp only at h
  split_ifs at h with hent
  all_goals first | (cases h; done) | skip
  · cases h
    exact ⟨follows_trans _ _ _ (follows_advance _) (follows_advance _),
      p.advance.currentToken.Value, rfl⟩

/-- The statement node of every successful parseQuery: its kind, and its children as
Field leaves followed by the optional clause leaves in the order WHERE, ORDER BY, LIMIT. -/
theorem parseQuery_inv (p q : Parser) (n : AST) (h : p.parseQuery = .ok (q, n)) :
    q.follows p ∧ ∃ k fs w o l, n = .mk k (fs ++ (w ++ (o ++ l))) ∧
      k.Typ ∈ [NodeType.Select, .Find, .Update, .Analyze] ∧
      (fs.length = 1 ∨ fs.length = 2) ∧ (∀ f ∈ fs, ∃ t, f = leaf .Field t) ∧
      (w = [] ∨ w = [leaf .Where (str "WHERE")]) ∧
      (o = [] ∨ o = [leaf .OrderBy (str "ORDER_BY")]) ∧
      (l = [] ∨ ∃ t, l = [leaf .Limit t]) := by
  unfold parseQuery at h
  simp only at h
  split_ifs at h with h0 h1 h2 h3 h4
  · obtain ⟨hf, fs, w, o, l, rfl, hfs, hfl, hw, ho, hl⟩ := parseSelectStatement_inv _ _ _ h
    exact ⟨hf, ⟨.Select, str "SELECT"⟩, fs, w, o, l, rfl, by simp, hfs, hfl, hw, ho, hl⟩
  · obtain ⟨hf, t, w, o, rfl, hw, ho⟩ := parseFindStatement_inv _ _ _ h
    refine ⟨hf, ⟨.Find, str "FIND"⟩, [leaf .Field t], w, o, [], ?_, by simp, Or.inl rfl, ?_, hw, ho, Or.inl rfl⟩
    · simp
    · intro f hf; exact ⟨t, by simpa using hf⟩
  · obtain ⟨hf, t, rfl⟩ := parseUpdateStatement_inv _ _ _ h
    refine ⟨hf, ⟨.Update, str "UPDATE"⟩, [leaf .Field t], [], [], [], rfl, by simp, Or.inl rfl, ?_, Or.inl rfl,
      Or.inl rfl, Or.inl rfl⟩
    intro f hf; exact ⟨t, by simpa using hf⟩
  · obtain ⟨hf, t, rfl⟩ := parseAnalyzeStatement_inv _ _ _ h
    refine ⟨hf, ⟨.Analyze, str "ANALYZE"⟩, [leaf .Field t], [], [], [], rfl, by simp, Or.inl rfl, ?_, Or.inl rfl,
      Or.inl rfl, Or.inl rfl⟩
    intro f hf; exact ⟨t, by simpa using hf⟩

/-- The tree of every successful Parse: the root ROOT with the statement node of
parseQuery as its only child. -/
theorem Parse_inv (p : Parser) (tree : AST) (h : p.Parse = .ok tree) :
    ∃ q n, p.parseQuery = .ok (q, n) ∧ tree = .mk ⟨.Query, str "ROOT"⟩ [n] := by
  unfold Parse at h
  split_ifs at h
  simp only at h
  cases hq : p.parseQuery with
  | error e => rw [hq] at h; cases h
  | ok r =>
    obtain ⟨q, n⟩ := r
    rw [hq] at h
    cases h
    exact ⟨q, n, rfl, rfl⟩

end Parser

theorem childKinds_fields (fs : List AST) (h : ∀ f ∈ fs, ∃ t, f = leaf .Field t) :
    fs.map (fun c => c.Value.Typ) = List.replicate fs.length NodeType.Field := by
  induction fs with
  | nil => rfl
  | cons f fs ih =>
    obtain ⟨t, rfl⟩ := h f (List.mem_cons_self _ _)
    rw [List.map_cons, ih (fun g hg => h g (List.mem_cons_of_mem _ hg))]
    rfl

theorem subtreesOf_leaves (cs : List AST) (h : ∀ c ∈ cs, c.Children = []) :
    TreeNode.subtreesOf cs = cs := by
  induction cs with
  | nil => rfl
  | cons c cs ih =>
    have hc := h c (List.mem_cons_self _ _)
    cases c with
    | mk v ds =>
      have hds : ds = [] := hc
      subst hds
      rw [TreeNode.subtreesOf, TreeNode.subtrees, TreeNode.subtreesOf,
        ih (fun g hg => h g (List.mem_cons_of_mem _ hg))]
      rfl

/-- The tokens of the sample query are the ones Tokenize returns for its text. -/
theorem clauseQueryTokens_eq :
    Tokenize (str "SELECT * FROM products WHERE ORDER BY LIMIT 5") =
      some (.ok clauseQueryTokens) := by
  rfl

namespace Parser

theorem seen_not_eof (r : List Token) (h : (seen r).Typ ≠ .EOF) :
    ∃ t r', r = t :: r' ∧ seen r = t := by
  cases r with
  | nil => exact absurd rfl h
  | cons t r' => exact ⟨t, r', rfl, rfl⟩

theorem advance_rest_cons (p : Parser) (t : Token) (r : List Token) (h : p.rest = t :: r) :
    p.advance.rest = r := by
  rw [advance_rest, h]
  rfl

theorem parseFieldList_exact (p q : Parser) (n n' : AST)
    (h : p.parseFieldList n = .ok (q, n')) :
    ∃ fl, p.rest = fl ++ q.rest ∧ fieldListOf fl q.rest ∧
      n' = .mk n.Value (n.Children ++ fieldNodes fl) := by
  unfold parseFieldList at h
  simp only at h
  rw [currentToken_eq] at h
  split_ifs at h with h1 h2
  · obtain ⟨t, r, hr, hs⟩ := seen_not_eof p.rest (by rw [h1]; decide)
    cases h
    rw [hs] at h1
    refine ⟨[t], ?_, Or.inl ⟨t, rfl, Or.inl h1⟩, ?_⟩
    · rw [advance_rest_cons p t r hr, hr]; rfl
    · simp [fieldNodes, h1, TreeNode.appendChild]
  · obtain ⟨t, r, hr, hs⟩ := seen_not_eof p.rest (by rw [h2]; decide)
    cases h
    rw [hs] at h1 h2 ⊢
    refine ⟨[t], ?_, Or.inl ⟨t, rfl, Or.inr h2⟩, ?_⟩
    · rw [advance_rest_cons p t r hr, hr]; rfl
    · simp [fieldNodes, h1, TreeNode.appendChild]
  · cases h
    exact ⟨[], rfl, Or.inr ⟨rfl, h1, h2⟩, by simpa [fieldNodes] using node_eta _⟩

theorem parseSource_exact (p q : Parser) (n n' : AST)
    (h : p.parseSource n = .ok (q, n')) :
    ∃ src, p.rest = src :: q.rest ∧ (src.Typ = .Identifier ∨ src.Typ = .Keyword) ∧
      n' = .mk n.Value (n.Children ++ [leaf .Field src.Value]) := by
  unfold parseSource at h
  rw [currentToken_eq] at h
  split_ifs at h with h1
  cases h
  have hk : (seen p.rest).Typ = .Identifier ∨ (seen p.rest).Typ = .Keyword := by
    by_contra hc
    exact h1 ⟨fun h0 => hc (Or.inl h0), fun h0 => hc (Or.inr h0)⟩
  obtain ⟨t, r, hr, hs⟩ := seen_not_eof p.rest (by rcases hk with h0 | h0 <;> rw [h0] <;> decide)
  rw [hs] at hk ⊢
  exact ⟨t, by rw [advance_rest_cons p t r hr, hr], hk, rfl⟩

theorem expect_exact (p : Parser) (v : GoString) (h : p.expect v = true) :
    ∃ t, p.rest = t :: p.advance.rest ∧ t.reads v := by
  rw [expect_eq_true] at h
  obtain ⟨t, r, hr, hs⟩ := seen_not_eof p.rest h.1
  rw [hs] at h
  exact ⟨t, by rw [advance_rest_cons p t r hr, hr], h⟩

theorem where_exact (p q : Parser) (n n' : AST)
    (h : optionalClause (str "WHERE") parseWhereClause p n = .ok (q, n')) :
    ∃ wh, p.rest = wh ++ q.rest ∧ whereOf wh ∧
      (wh = [] → ¬ (seen q.rest).reads (str "WHERE")) ∧
      n' = .mk n.Value (n.Children ++ if wh = [] then [] else [leaf .Where (str "WHERE")]) := by
  unfold optionalClause at h
  split_ifs at h with hp
  · unfold parseWhereClause at h
    cases h
    obtain ⟨t, ht, hr⟩ : ∃ t, p.rest = t :: p.advance.rest ∧ t.reads (str "WHERE") :=
      expect_exact p _ hp
    exact ⟨[t], ht, Or.inr ⟨t, rfl, hr⟩, (fun h0 => by cases h0), by simp [TreeNode.appendChild]⟩
  · cases h
    refine ⟨[], rfl, Or.inl rfl, fun _ => ?_, by simpa using node_eta _⟩
    rw [← peek_eq_true]
    exact hp

theorem order_exact (p q : Parser) (n n' : AST)
    (h : optionalClause (str "ORDER") parseOrderByClause p n = .ok (q, n')) :
    ∃ ob, p.rest = ob ++ q.rest ∧ orderOf ob ∧
      (ob = [] → ¬ (seen q.rest).reads (str "ORDER")) ∧
      n' = .mk n.Value
        (n.Children ++ if ob = [] then [] else [leaf .OrderBy (str "ORDER_BY")]) := by
  unfold optionalClause at h
  split_ifs at h with hp
  · unfold parseOrderByClause at h
    simp only at h
    split_ifs at h with hb
    cases h
    obtain ⟨o, ho, hor⟩ : ∃ t, p.rest = t :: p.advance.rest ∧ t.reads (str "ORDER") :=
      expect_exact p _ hp
    have hb2 : p.advance.expect (str "BY") = true := by simpa using hb
    obtain ⟨b, hbr, hbb⟩ := expect_exact p.advance _ hb2
    refine ⟨[o, b], ?_, Or.inr ⟨o, b, rfl, hor, hbb⟩, (fun h0 => by cases h0),
      by simp [TreeNode.appendChild]⟩
    rw [ho, hbr]
    rfl
  · cases h
    refine ⟨[], rfl, Or.inl rfl, fun _ => ?_, by simpa using node_eta _⟩
    rw [← peek_eq_true]
    exact hp

theorem limit_exact (p q : Parser) (n n' : AST)
    (h : optionalClause (str "LIMIT") parseLimitClause p n = .ok (q, n')) :
    ∃ lm, p.rest = lm ++ q.rest ∧ limitOf lm ∧
      (lm = [] → ¬ (seen q.rest).reads (str "LIMIT")) ∧
      n' = .mk n.Value (n.Children ++
        match lm with
        | [_, num] => [leaf .Limit num.Value]
        | _ => []) := by
  unfold optionalClause at h
  split_ifs at h with hp
  · unfold parseLimitClause at h
    simp only at h
    rw [currentToken_eq] at h
    split_ifs at h with hn
    cases h
    obtain ⟨l, hl, hlr⟩ : ∃ t, p.rest = t :: p.advance.rest ∧ t.reads (str "LIMIT") :=
      expect_exact p _ hp
    have hn2 : (seen p.advance.rest).Typ = .Number := by simpa using hn
    obtain ⟨num, r, hr, hs⟩ := seen_not_eof p.advance.rest (by rw [hn2]; decide)
    rw [hs] at hn2 ⊢
    refine ⟨[l, num], ?_, Or.inr ⟨l, num, rfl, hlr, hn2⟩, (fun h0 => by cases h0),
      by simp [TreeNode.appendChild]⟩
    rw [hl, advance_rest_cons p.advance num r hr, hr]
    rfl
  · cases h
    refine ⟨[], rfl, Or.inl rfl, fun _ => ?_, by simpa using node_eta _⟩
    rw [← peek_eq_true]
    exact hp


theorem parseSelectStatement_exact (p q : Parser) (n : AST)
    (h : p.parseSelectStatement = .ok (q, n)) :
    ∃ fl frm src wh ob lm,
      p.advance.rest = fl ++ frm :: src :: (wh ++ (ob ++ (lm ++ q.rest))) ∧
      fieldListOf fl (frm :: src :: (wh ++ (ob ++ (lm ++ q.rest)))) ∧
      frm.reads (str "FROM") ∧ (src.Typ = .Identifier ∨ src.Typ = .Keyword) ∧
      whereOf wh ∧ orderOf ob ∧ limitOf lm ∧
      (wh = [] → ¬ (seen (ob ++ (lm ++ q.rest))).reads (str "WHERE")) ∧
      (ob = [] → ¬ (seen (lm ++ q.rest)).reads (str "ORDER")) ∧
      (lm = [] → ¬ (seen q.rest).reads (str "LIMIT")) ∧
      n = .mk ⟨.Select, str "SELECT"⟩
        (fieldNodes fl ++ leaf .Field src.Value :: clauseNodes wh ob lm) := by
  unfold parseSelectStatement at h
  obtain ⟨⟨p1, n1⟩, h1, h⟩ := bind_ok_inv _ _ _ h
  simp only at h
  split_ifs at h with hfrom
  · cases h
  obtain ⟨_, _, h⟩ := bind_ok_inv _ _ _ h
  obtain ⟨⟨p2, n2⟩, h2, h⟩ := bind_ok_inv _ _ _ h
  obtain ⟨⟨p3, n3⟩, h3, h⟩ := bind_ok_inv _ _ _ h
  obtain ⟨⟨p4, n4⟩, h4, h⟩ := bind_ok_inv _ _ _ h
  obtain ⟨⟨p5, n5⟩, h5, h⟩ := bind_ok_inv _ _ _ h
  cases h
  obtain ⟨fl, e1, hfl, rfl⟩ := parseFieldList_exact _ _ _ _ h1
  obtain ⟨frm, e0, hfrm⟩ := expect_exact p1 (str "FROM") (by simpa using hfrom)
  obtain ⟨src, e2, hsrc, rfl⟩ := parseSource_exact _ _ _ _ h2
  obtain ⟨wh, e3, hwh, awh, rfl⟩ := where_exact _ _ _ _ h3
  obtain ⟨ob, e4, hob, aob, rfl⟩ := order_exact _ _ _ _ h4
  obtain ⟨lm, e5, hlm, alm, rfl⟩ := limit_exact _ _ _ _ h5
  rw [e0, e2, e3, e4, e5] at e1 hfl
  rw [e4, e5] at awh
  rw [e5] at aob
  refine ⟨fl, frm, src, wh, ob, lm, e1, hfl, hfrm, hsrc, hwh, hob, hlm, awh, aob, alm, ?_⟩
  simp only [TreeNode.Value, TreeNode.Children, addNode, leaf, clauseNodes, List.nil_append,
    List.append_assoc, List.singleton_append, List.cons_append]

theorem parseFindStatement_exact (p q : Parser) (n : AST)
    (h : p.parseFindStatement = .ok (q, n)) :
    ∃ ent wh ob,
      p.advance.rest = ent :: (wh ++ (ob ++ q.rest)) ∧
      (ent.Typ = .Identifier ∨ ent.Typ = .Keyword) ∧ whereOf wh ∧ orderOf ob ∧
      (wh = [] → ¬ (seen (ob ++ q.rest)).reads (str "WHERE")) ∧
      (ob = [] → ¬ (seen q.rest).reads (str "ORDER")) ∧
      n = .mk ⟨.Find, str "FIND"⟩ (leaf .Field ent.Value :: clauseNodes wh ob []) := by
  unfold parseFindStatement at h
  simp only at h
  rw [currentToken_eq] at h
  split_ifs at h with hent
  · cases h
  obtain ⟨_, _, h⟩ := bind_ok_inv _ _ _ h
  obtain ⟨⟨p3, n3⟩, h3, h⟩ := bind_ok_inv _ _ _ h
  obtain ⟨⟨p4, n4⟩, h4, h⟩ := bind_ok_inv _ _ _ h
  cases h
  have hk : (seen p.advance.rest).Typ = .Identifier ∨ (seen p.advance.rest).Typ = .Keyword := by
    by_contra hc
    exact hent ⟨fun h0 => hc (Or.inl h0), fun h0 => hc (Or.inr h0)⟩
  obtain ⟨ent, r, hr, hs⟩ :=
    seen_not_eof p.advance.rest (by rcases hk with h0 | h0 <;> rw [h0] <;> decide)
  have e2 := advance_rest_cons p.advance ent r hr
  rw [hs] at hk h3
  obtain ⟨wh, e3, hwh, awh, rfl⟩ := where_exact _ _ _ _ h3
  obtain ⟨ob, e4, hob, aob, rfl⟩ := order_exact _ _ _ _ h4
  rw [e4] at awh
  refine ⟨ent, wh, ob, ?_, hk, hwh, hob, awh, aob, ?_⟩
  · rw [hr, ← e2, e3, e4]
  · simp only [TreeNode.Value, TreeNode.Children, TreeNode.appendChild, addNode, leaf,
      clauseNodes, List.nil_append, List.append_assoc, List.singleton_append, List.append_nil,
      List.cons_append]

theorem parseUpdateStatement_exact (p q : Parser) (n : AST)
    (h : p.parseUpdateStatement = .ok (q, n)) :
    ∃ ent st, p.advance.rest = ent :: st :: q.rest ∧ ent.Typ = .Identifier ∧
      st.reads (str "SET") ∧ n = .mk ⟨.Update, str "UPDATE"⟩ [leaf .Field ent.Value] := by
  unfold parseUpdateStatement at h
  simp only at h
  rw [currentToken_eq] at h
  split_ifs at h with hent hset
  all_goals first | (cases h; done) | skip
  rename_i hset
  cases h
  have hk : (seen p.advance.rest).Typ = .Identifier := by simpa using hent
  obtain ⟨ent, r, hr, hs⟩ := seen_not_eof p.advance.rest (by rw [hk]; decide)
  have e2 := advance_rest_cons p.advance ent r hr
  obtain ⟨st, e3, hst⟩ := expect_exact p.advance.advance (str "SET") (by simpa using hset)
  rw [hs] at hk ⊢
  exact ⟨ent, st, by rw [hr, ← e2, e3], hk, hst, rfl⟩

theorem parseAnalyzeStatement_exact (p q : Parser) (n : AST)
    (h : p.parseAnalyzeStatement = .ok (q, n)) :
    ∃ ent, p.advance.rest = ent :: q.rest ∧ ent.Typ = .Identifier ∧
      n = .mk ⟨.Analyze, str "ANALYZE"⟩ [leaf .Field ent.Value] := by
  unfold parseAnalyzeStatement at h
  simp only at h
  rw [currentToken_eq] at h
  split_ifs at h with hent
  all_goals first | (cases h; done) | skip
  cases h
  have hk : (seen p.advance.rest).Typ = .Identifier := by simpa using hent
  obtain ⟨ent, r, hr, hs⟩ := seen_not_eof p.advance.rest (by rw [hk]; decide)
  have e2 := advance_rest_cons p.advance ent r hr
  rw [hs] at hk ⊢
  exact ⟨ent, by rw [hr, ← e2], hk, rfl⟩

/-- The first token of every successful parseQuery: it is not the EOF token, and the rest
of the input is what the statement function starts on. -/
theorem parseQuery_first (p q : Parser) (n : AST) (h : p.parseQuery = .ok (q, n)) :
    ∃ kw, p.rest = kw :: p.advance.rest ∧ kw.Typ ≠ .EOF ∧
      ((kw.Value = str "SELECT" ∧ p.parseSelectStatement = .ok (q, n)) ∨
       (kw.Value = str "FIND" ∧ p.parseFindStatement = .ok (q, n)) ∨
       (kw.Value = str "UPDATE" ∧ p.parseUpdateStatement = .ok (q, n)) ∨
       (kw.Value = str "ANALYZE" ∧ p.parseAnalyzeStatement = .ok (q, n))) := by
  unfold parseQuery at h
  simp only at h
  rw [hasMore_eq, currentToken_eq] at h
  split_ifs at h with h0 h1 h2 h3 h4
  all_goals
    have hne : (seen p.rest).Typ ≠ .EOF := by simpa using h0
    obtain ⟨kw, r, hr, hs⟩ := seen_not_eof p.rest hne
    rw [hs] at hne
    refine ⟨kw, by rw [advance_rest_cons p kw r hr, hr], hne, ?_⟩
  · exact Or.inl ⟨hs ▸ h1, h⟩
  · exact Or.inr (Or.inl ⟨hs ▸ h2, h⟩)
  · exact Or.inr (Or.inr (Or.inl ⟨hs ▸ h3, h⟩))
  · exact Or.inr (Or.inr (Or.inr ⟨hs ▸ h4, h⟩))

end Parser

/-! ## The interpreter -/

namespace Interpreter

variable {Row : Type}

theorem executeSelect_ok (i : Interpreter Row) (node : AST) :
    ∃ result, (i.executeSelect node).1 = .ok result := ⟨_, rfl⟩

theorem executeFind_ok (i : Interpreter Row) (node : AST) :
    ∃ result, (i.executeFind node).1 = .ok result := ⟨_, rfl⟩

theorem executeUpdate_ok (i : Interpreter Row) (node : AST) :
    ∃ result, (i.executeUpdate node).1 = .ok result := ⟨_, rfl⟩

theorem executeAnalyze_ok (i : Interpreter Row) (node : AST) :
    ∃ result, (i.executeAnalyze node).1 = .ok result := ⟨_, rfl⟩

theorem not_failed_ok {α : Type} (r : α) : ¬ failed (Except.ok r : Except GoError α) := by
  rintro ⟨err, h⟩
  cases h

end Interpreter

namespace Interpreter

variable {Row : Type}

theorem fetchAndCount_ok (db : DB Row) (m : Model) (fields : List GoString)
    (rows : List Row) (n : Nat) (hf : db.find m fields 100 = .ok rows)
    (hc : db.count m = .ok n) :
    fetchAndCount db m fields = (some rows, n, [.Find m fields 100, .Count m]) := by
  simp only [fetchAndCount, hf, hc]

theorem entityOf_field (v : ASTNode) (E : GoString) (cs clauses : List AST) :
    entityOf (.mk v (.mk ⟨.Field, E⟩ cs :: clauses)) = E := rfl

theorem Execute_find (rv v : ASTNode) (db : Option (DB Row)) (children more : List AST)
    (hv : v.Typ = .Find) :
    (NewInterpreter (some (.mk rv (.mk v children :: more))) db).Execute =
      (NewInterpreter (some (.mk rv (.mk v children :: more))) db).executeFind
        (.mk v children) := by
  simp only [Execute, NewInterpreter, TreeNode.Children, TreeNode.Value, hv]

theorem sqc_Execute_of_parse (query : GoString) (db : Option (DB Row)) (toks : List Token)
    (ast : AST) (ht : (NewLexer query).Tokenize = some (.ok toks))
    (hp : (NewParser toks).Parse = .ok ast) :
    StoreQL.Execute query db =
      some (match (NewInterpreter (some ast) db).Execute with
        | (.error err, ops) => (.error (wrapError "execution failed: " err), ops)
        | (.ok result, ops) => (.ok result, ops)) := by
  simp only [StoreQL.Execute, ht, Option.map_some', hp]

end Interpreter

namespace Interpreter

variable {Row : Type}

theorem foldl_skip {α β : Type} (step : α → β → α) (l : List β) (a : α)
    (h : ∀ b, ∀ c ∈ l, step b c = b) : l.foldl step a = a := by
  induction l generalizing a with
  | nil => rfl
  | cons c l ih =>
    rw [List.foldl_cons, h a c (List.mem_cons_self _ _)]
    exact ih a (fun b d hd => h b d (List.mem_cons_of_mem _ hd))

theorem foldl_fields (step : List GoString × GoString → AST → List GoString × GoString)
    (T : GoString) (l : List AST)
    (h : ∀ acc, ∀ c ∈ l, step acc c =
      (acc.1 ++ [c.Value.Value], if acc.2 = [] then T else acc.2))
    (a : List GoString) (s : GoString) :
    l.foldl step (a, s) =
      (a ++ l.map (fun c => c.Value.Value),
       match l with
       | [] => s
       | _ :: _ => if s = [] then T else s) := by
  induction l generalizing a s with
  | nil => simp
  | cons c l ih =>
    rw [List.foldl_cons, h (a, s) c (List.mem_cons_self _ _),
      ih (fun acc d hd => h acc d (List.mem_cons_of_mem _ hd))]
    cases l with
    | nil => simp
    | cons d l => by_cases hs : s = [] <;> by_cases hT : T = [] <;> simp [hs, hT]

/-- The second Field of a node whose Field children come first. -/
theorem selectComponents_eq (v : ASTNode) (fs cl : List AST)
    (hfs : ∀ f ∈ fs, f.Value.Typ = .Field) (hcl : ∀ c ∈ cl, c.Value.Typ ≠ .Field) :
    selectComponents (.mk v (fs ++ cl)) =
      (fs.map (fun f => f.Value.Value),
       match fs with
       | _ :: g :: _ => g.Value.Value
       | _ => []) := by
  unfold selectComponents
  simp only [TreeNode.Children]
  rw [List.foldl_append]
  rw [foldl_skip _ cl _ (fun b c hc => by simp only [if_neg (hcl c hc)])]
  match fs, hfs with
  | [], _ => rfl
  | [f], hfs =>
    rw [foldl_fields _ [] [f] (fun acc c hc => by
      simp only [if_pos (hfs c hc)]
      cases cl with
      | nil => by_cases ha : acc.2 = [] <;> simp [ha]
      | cons d cl =>
        have hd := hcl d (List.mem_cons_self _ _)
        by_cases ha : acc.2 = [] <;> simp [ha, hd])]
    simp
  | f :: g :: fs', hfs =>
    have hg := hfs g (by simp)
    rw [foldl_fields _ g.Value.Value (f :: g :: fs') (fun acc c hc => by
      simp only [if_pos (hfs c hc)]
      by_cases ha : acc.2 = [] <;> simp [ha, hg])]
    simp

theorem entityOf_eq (v : ASTNode) (fs cl : List AST)
    (hfs : ∀ f ∈ fs, f.Value.Typ = .Field) (hcl : ∀ c ∈ cl, c.Value.Typ ≠ .Field) :
    entityOf (.mk v (fs ++ cl)) =
      match fs with
      | f :: _ => f.Value.Value
      | [] => [] := by
  unfold entityOf
  simp only [TreeNode.Children]
  match fs, hfs with
  | [], _ =>
    cases cl with
    | nil => rfl
    | cons d cl => simp [hcl d (List.mem_cons_self _ _)]
  | f :: fs', hfs => simp [hfs f (List.mem_cons_self _ _)]

theorem executeSelect_congr (i : Interpreter Row) (n1 n2 : AST)
    (h : selectComponents n1 = selectComponents n2) :
    i.executeSelect n1 = i.executeSelect n2 := by
  unfold executeSelect
  rw [h]

theorem executeFind_congr (i : Interpreter Row) (n1 n2 : AST) (h : entityOf n1 = entityOf n2) :
    i.executeFind n1 = i.executeFind n2 := by
  unfold executeFind
  rw [h]

theorem executeUpdate_congr (i : Interpreter Row) (n1 n2 : AST) (h : entityOf n1 = entityOf n2) :
    i.executeUpdate n1 = i.executeUpdate n2 := by
  unfold executeUpdate
  rw [h]

theorem executeAnalyze_congr (i : Interpreter Row) (n1 n2 : AST)
    (h : entityOf n1 = entityOf n2) :
    i.executeAnalyze n1 = i.executeAnalyze n2 := by
  unfold executeAnalyze
  rw [h]

end Interpreter

namespace FSM

variable {CB : Type}

theorem lookup_NewFSM (s0 s : State) (e : Event) : (NewFSM s0 : FSM CB).lookup s e = none := rfl

theorem lookup_AddTransition (fsm : FSM CB) (f : State) (ev : Event) (t : State)
    (s : State) (e : Event) :
    (fsm.AddTransition f ev t).lookup s e =
      if s = f ∧ e = ev then some t else fsm.lookup s e := by
  unfold lookup AddTransition
  simp only
  by_cases hs : s = f
  · subst hs
    by_cases he : e = ev
    · simp [he]
    · cases h : fsm.transitions s <;> simp [he]
  · simp [hs]

theorem Trigger_transitions (fsm : FSM CB) (e : Event) :
    (fsm.Trigger e).2.1.transitions = fsm.transitions ∧
    (fsm.Trigger e).2.1.callbacks = fsm.callbacks := by
  unfold Trigger
  cases h : fsm.transitions fsm.current with
  | none => exact ⟨rfl, rfl⟩
  | some m =>
    simp only
    cases h2 : m e with
    | none => exact ⟨rfl, rfl⟩
    | some n => exact ⟨rfl, rfl⟩

theorem lookup_congr (f g : FSM CB) (h : f.transitions = g.transitions) (s : State) (e : Event) :
    f.lookup s e = g.lookup s e := by
  unfold lookup
  rw [h]

theorem Current_snd (fsm : FSM CB) : fsm.Current.2 = fsm := rfl

theorem CanTransition_eq (fsm : FSM CB) (e : Event) :
    fsm.CanTransition e = ((fsm.lookup fsm.current e).isSome, fsm) := by
  unfold CanTransition lookup
  cases h : fsm.transitions fsm.current with
  | none => rfl
  | some m =>
    simp only
    cases h2 : m e <;> rfl

theorem Trigger_of_lookup_none (fsm : FSM CB) (e : Event) (h : fsm.lookup fsm.current e = none) :
    failed (fsm.Trigger e).1 ∧ (fsm.Trigger e).2.1 = fsm ∧ (fsm.Trigger e).2.2 = [] := by
  unfold lookup at h
  unfold Trigger
  cases h1 : fsm.transitions fsm.current with
  | none => exact ⟨⟨_, rfl⟩, rfl, rfl⟩
  | some m =>
    rw [h1] at h
    simp only at h
    simp only
    rw [h]
    exact ⟨⟨_, rfl⟩, rfl, rfl⟩

theorem Trigger_of_lookup_some (fsm : FSM CB) (e : Event) (t : State)
    (h : fsm.lookup fsm.current e = some t) :
    (fsm.Trigger e).1 = .ok () ∧ (fsm.Trigger e).2.1 = { fsm with current := t } ∧
    (fsm.Trigger e).2.2 = .SetCurrent t ::
      ((fsm.callbacks e).getD []).map (fun cb => Effect.Call cb fsm.current t) := by
  unfold lookup at h
  unfold Trigger
  cases h1 : fsm.transitions fsm.current with
  | none => rw [h1] at h; cases h
  | some m =>
    rw [h1] at h
    simp only at h
    simp only
    rw [h]
    refine ⟨rfl, rfl, ?_⟩
    cases fsm.callbacks e <;> rfl

theorem lastTarget_append (regs : List Transition) (t : Transition) (s : State) (e : Event) :
    lastTarget (regs ++ [t]) s e =
      if s = t.From ∧ e = t.Evt then some t.To else lastTarget regs s e := by
  unfold lastTarget
  rw [List.reverse_append, List.reverse_singleton, List.singleton_append, List.find?_cons]
  by_cases h : s = t.From ∧ e = t.Evt
  · obtain ⟨rfl, rfl⟩ := h
    simp
  · rw [if_neg h]
    have : decide (t.From = s ∧ t.Evt = e) = false := by
      rw [decide_eq_false_iff_not]
      rintro ⟨h1, h2⟩
      exact h ⟨h1.symm, h2.symm⟩
    rw [this]

theorem lastTarget_isSome (regs : List Transition) (s : State) (e : Event) :
    (lastTarget regs s e).isSome = true ↔ ∃ t ∈ regs, t.From = s ∧ t.Evt = e := by
  unfold lastTarget
  rw [Option.isSome_map', List.find?_isSome]
  constructor
  · rintro ⟨t, ht, hp⟩
    exact ⟨t, List.mem_reverse.1 ht, by simpa using hp⟩
  · rintro ⟨t, ht, hp⟩
    exact ⟨t, List.mem_reverse.2 ht, by simpa using hp⟩

theorem registrations_append (a b : List (FSMCall CB)) :
    registrations (a ++ b) = registrations a ++ registrations b := by
  unfold registrations
  exact List.filterMap_append _ _ _

theorem callbacksFor_append (e : Event) (a b : List (FSMCall CB)) :
    callbacksFor e (a ++ b) = callbacksFor e a ++ callbacksFor e b := by
  unfold callbacksFor
  exact List.filterMap_append _ _ _

theorem afterAll_append (fsm : FSM CB) (a : List (FSMCall CB)) (c : FSMCall CB) :
    fsm.afterAll (a ++ [c]) = (fsm.afterAll a).after c := by
  unfold afterAll
  rw [List.foldl_append]
  rfl

/-- The transition table of a built machine holds, for each pair, the target of the last
registration. -/
theorem lookup_built (s0 : State) (calls : List (FSMCall CB)) (s : State) (e : Event) :
    (built s0 calls).lookup s e = lastTarget (registrations calls) s e := by
  induction calls using List.reverseRecOn with
  | nil => rfl
  | append_singleton calls c ih =>
    unfold built at ih ⊢
    rw [afterAll_append, registrations_append]
    cases c with
    | AddTransition f ev t =>
      have hr : registrations [(FSMCall.AddTransition f ev t : FSMCall CB)] =
          [{ From := f, Evt := ev, To := t }] := rfl
      rw [hr, lastTarget_append, ← ih]
      exact lookup_AddTransition _ f ev t s e
    | Trigger ev =>
      have hr : registrations [(FSMCall.Trigger ev : FSMCall CB)] = [] := rfl
      rw [hr, List.append_nil, ← ih]
      exact lookup_congr _ _ (Trigger_transitions _ ev).1 s e
    | Current =>
      have hr : registrations [(FSMCall.Current : FSMCall CB)] = [] := rfl
      rw [hr, List.append_nil, ← ih]
      rfl
    | CanTransition ev =>
      have hr : registrations [(FSMCall.CanTransition ev : FSMCall CB)] = [] := rfl
      rw [hr, List.append_nil, ← ih]
      rw [show ((NewFSM s0 : FSM CB).afterAll calls).after (.CanTransition ev) =
        (NewFSM s0 : FSM CB).afterAll calls from by
          simp only [after, CanTransition_eq]]
    | OnTransition ev cb =>
      have hr : registrations [(FSMCall.OnTransition ev cb : FSMCall CB)] = [] := rfl
      rw [hr, List.append_nil, ← ih]
      rfl

/-- The callbacks a built machine holds for an event are those registered for it, in the
order of registration. -/
theorem callbacks_built (s0 : State) (calls : List (FSMCall CB)) (e : Event) :
    ((built s0 calls).callbacks e).getD [] = callbacksFor e calls := by
  induction calls using List.reverseRecOn with
  | nil => rfl
  | append_singleton calls c ih =>
    unfold built at ih ⊢
    rw [afterAll_append, callbacksFor_append, ← ih]
    cases c with
    | AddTransition f ev t => simp [after, AddTransition, callbacksFor]
    | Trigger ev =>
      simp only [after, (Trigger_transitions _ ev).2]
      simp [callbacksFor]
    | Current => simp [after, Current, callbacksFor]
    | CanTransition ev => simp [after, CanTransition_eq, callbacksFor]
    | OnTransition ev cb =>
      simp only [after, OnTransition, callbacksFor, List.filterMap_cons, List.filterMap_nil]
      by_cases h : ev = e
      · subst h
        cases hc : ((NewFSM s0 : FSM CB).afterAll calls).callbacks ev <;> simp [hc]
      · have h2 : ¬ e = ev := fun h3 => h h3.symm
        simp [h, h2]

end FSM

theorem ite_some_inv {α : Type} (c : Prop) [Decidable c] (a t : α) (r : Option α)
    (h : (if c then some a else r) = some t) : (c ∧ a = t) ∨ r = some t := by
  by_cases hc : c
  · rw [if_pos hc] at h
    exact Or.inl ⟨hc, Option.some.inj h⟩
  · rw [if_neg hc] at h
    exact Or.inr h

theorem order_lookup_mem (CB : Type) (s : State) (e : Event) (t : State)
    (h : (NewOrderStateMachine : FSM CB).lookup s e = some t) :
    ({ From := s, Evt := e, To := t } : Transition) ∈
      [⟨OrderPending, EventConfirm, OrderConfirmed⟩,
       ⟨OrderConfirmed, EventProcess, OrderProcessing⟩,
       ⟨OrderProcessing, EventShip, OrderShipped⟩,
       ⟨OrderShipped, EventDeliver, OrderDelivered⟩,
       ⟨OrderPending, EventCancel, OrderCancelled⟩,
       ⟨OrderConfirmed, EventCancel, OrderCancelled⟩,
       ⟨OrderProcessing, EventCancel, OrderCancelled⟩,
       ⟨OrderShipped, EventCancel, OrderCancelled⟩,
       ⟨OrderDelivered, EventRefund, OrderRefunded⟩,
       ⟨OrderCancelled, EventRefund, OrderRefunded⟩] := by
  simp only [NewOrderStateMachine, FSM.lookup_AddTransition, FSM.lookup_NewFSM] at h
  simp only [List.mem_cons, List.mem_singleton, Transition.mk.injEq, List.not_mem_nil,
    or_false]
  rcases ite_some_inv _ _ _ _ h with ⟨h1, h2⟩ | h
  · exact Or.inr (Or.inr (Or.inr (Or.inr (Or.inr (Or.inr (Or.inr (Or.inr (Or.inr
      ⟨h1.1, h1.2, h2.symm⟩))))))))
  rcases ite_some_inv _ _ _ _ h with ⟨h1, h2⟩ | h
  · exact Or.inr (Or.inr (Or.inr (Or.inr (Or.inr (Or.inr (Or.inr (Or.inr (Or.inl
      ⟨h1.1, h1.2, h2.symm⟩))))))))
  rcases ite_some_inv _ _ _ _ h with ⟨h1, h2⟩ | h
  · exact Or.inr (Or.inr (Or.inr (Or.inr (Or.inr (Or.inr (Or.inr (Or.inl
      ⟨h1.1, h1.2, h2.symm⟩)))))))
  rcases ite_some_inv _ _ _ _ h with ⟨h1, h2⟩ | h
  · exact Or.inr (Or.inr (Or.inr (Or.inl ⟨h1.1, h1.2, h2.symm⟩)))
  rcases ite_some_inv _ _ _ _ h with ⟨h1, h2⟩ | h
  · exact Or.inr (Or.inr (Or.inr (Or.inr (Or.inr (Or.inr (Or.inl
      ⟨h1.1, h1.2, h2.symm⟩))))))
  rcases ite_some_inv _ _ _ _ h with ⟨h1, h2⟩ | h
  · exact Or.inr (Or.inr (Or.inl ⟨h1.1, h1.2, h2.symm⟩))
  rcases ite_some_inv _ _ _ _ h with ⟨h1, h2⟩ | h
  · exact Or.inr (Or.inr (Or.inr (Or.inr (Or.inr (Or.inl ⟨h1.1, h1.2, h2.symm⟩)))))
  rcases ite_some_inv _ _ _ _ h with ⟨h1, h2⟩ | h
  · exact Or.inr (Or.inl ⟨h1.1, h1.2, h2.symm⟩)
  rcases ite_some_inv _ _ _ _ h with ⟨h1, h2⟩ | h
  · exact Or.inr (Or.inr (Or.inr (Or.inr (Or.inl ⟨h1.1, h1.2, h2.symm⟩))))
  rcases ite_some_inv _ _ _ _ h with ⟨h1, h2⟩ | h
  · exact Or.inl ⟨h1.1, h1.2, h2.symm⟩
  · cases h

theorem order_mem_lookup (CB : Type) (s : State) (e : Event) (t : State)
    (h : ({ From := s, Evt := e, To := t } : Transition) ∈
      [⟨OrderPending, EventConfirm, OrderConfirmed⟩,
       ⟨OrderConfirmed, EventProcess, OrderProcessing⟩,
       ⟨OrderProcessing, EventShip, OrderShipped⟩,
       ⟨OrderShipped, EventDeliver, OrderDelivered⟩,
       ⟨OrderPending, EventCancel, OrderCancelled⟩,
       ⟨OrderConfirmed, EventCancel, OrderCancelled⟩,
       ⟨OrderProcessing, EventCancel, OrderCancelled⟩,
       ⟨OrderShipped, EventCancel, OrderCancelled⟩,
       ⟨OrderDelivered, EventRefund, OrderRefunded⟩,
       ⟨OrderCancelled, EventRefund, OrderRefunded⟩]) :
    (NewOrderStateMachine : FSM CB).lookup s e = some t := by
  simp only [List.mem_cons, List.mem_singleton, Transition.mk.injEq, List.not_mem_nil,
    or_false] at h
  rcases h with ⟨rfl, rfl, rfl⟩ | ⟨rfl, rfl, rfl⟩ | ⟨rfl, rfl, rfl⟩ | ⟨rfl, rfl, rfl⟩ |
    ⟨rfl, rfl, rfl⟩ | ⟨rfl, rfl, rfl⟩ | ⟨rfl, rfl, rfl⟩ | ⟨rfl, rfl, rfl⟩ | ⟨rfl, rfl, rfl⟩ |
    ⟨rfl, rfl, rfl⟩ <;> rfl

theorem order_path (CB : Type) :
    ((NewOrderStateMachine : FSM CB).afterAll [.Trigger EventConfirm]).current =
      OrderConfirmed ∧
    ((NewOrderStateMachine : FSM CB).afterAll
      [.Trigger EventConfirm, .Trigger EventProcess]).current = OrderProcessing ∧
    ((NewOrderStateMachine : FSM CB).afterAll
      [.Trigger EventConfirm, .Trigger EventProcess, .Trigger EventShip]).current =
      OrderShipped ∧
    ((NewOrderStateMachine : FSM CB).afterAll
      [.Trigger EventConfirm, .Trigger EventProcess, .Trigger EventShip,
       .Trigger EventDeliver]).current = OrderDelivered :=
  ⟨by rfl, by rfl, by rfl, by rfl⟩

namespace Interpreter

variable {Row : Type}

/-- On the tree of a successful Parse the interpreter returns a result with Success set. -/
theorem Execute_of_Parse (toks : List Token) (tree : AST) (db : Option (DB Row))
    (h : (NewParser toks).Parse = .ok tree) :
    ∃ result ops, (NewInterpreter (some tree) db).Execute = (.ok result, ops) ∧
      result.Success = true := by
  obtain ⟨q, n, hq, rfl⟩ := Parser.Parse_inv _ _ h
  obtain ⟨_, k, fs, w, o, l, rfl, hk, _⟩ := Parser.parseQuery_inv _ _ _ hq
  obtain ⟨kt, kv⟩ := k
  simp only [List.mem_cons, List.mem_singleton, List.not_mem_nil, or_false] at hk
  have hk2 : kt = .Select ∨ kt = .Find ∨ kt = .Update ∨ kt = .Analyze := hk
  rcases hk2 with rfl | rfl | rfl | rfl
  · exact ⟨_, _, rfl, rfl⟩
  · exact ⟨_, _, rfl, rfl⟩
  · exact ⟨_, _, rfl, rfl⟩
  · exact ⟨_, _, rfl, rfl⟩

end Interpreter

theorem Tokenize_returns (query : GoString) :
    ∃ toks, (NewLexer query).Tokenize = some (.ok toks) := by
  obtain ⟨init, last, h, _⟩ := Tokenize_eq (NewLexer query) rfl
  exact ⟨_, h⟩

namespace Parser

/-- FIND, an entity, WHERE, and then tokens that do not start an ORDER clause: the
statement node has the entity and an empty Where node, and the cursor stops after WHERE. -/
theorem find_where_tail (fnd ent whr : Token) (t : List Token)
    (hf : fnd.reads (str "FIND")) (he : ent.Typ = .Identifier ∨ ent.Typ = .Keyword)
    (hw : whr.reads (str "WHERE")) (ht : ¬ (seen t).reads (str "ORDER")) :
    (NewParser (fnd :: ent :: whr :: t)).parseQuery =
      .ok ({ tokens := fnd :: ent :: whr :: t, pos := 3 },
           .mk ⟨.Find, str "FIND"⟩ [leaf .Field ent.Value, leaf .Where (str "WHERE")]) := by
  rw [parseQuery_find _ fnd _ rfl hf]
  have hadv : (NewParser (fnd :: ent :: whr :: t)).advance.advance.advance =
      { tokens := fnd :: ent :: whr :: t, pos := 3 } := by
    simp [NewParser, advance]
  have hcur : (NewParser (fnd :: ent :: whr :: t)).advance.currentToken = ent := rfl
  have hent' : ¬ (ent.Typ ≠ .Identifier ∧ ent.Typ ≠ .Keyword) := by
    rcases he with he | he <;> simp [he]
  have hpk : (NewParser (fnd :: ent :: whr :: t)).advance.advance.peek (str "WHERE") = true := by
    rw [peek_eq_true]
    exact hw
  have hpo : ((NewParser (fnd :: ent :: whr :: t)).advance.advance.advance).peek (str "ORDER")
      = false := by
    rw [← Bool.not_eq_true, peek_eq_true, hadv]
    exact ht
  rw [hadv] at hpo
  unfold parseFindStatement
  simp only [bind, Except.bind, hcur, if_neg hent', optionalClause, hpk, if_true,
    parseWhereClause, hpo, Bool.false_eq_true, if_false, hadv]
  rfl

end Parser

namespace ArrayStack

variable {T : Type}

theorem pushAll_items (s : ArrayStack T) (xs : List T) :
    (s.pushAll xs).items = s.items ++ xs := by
  unfold pushAll
  induction xs generalizing s with
  | nil => simp
  | cons x xs ih =>
    rw [List.foldl_cons, ih]
    simp [Push]

theorem Pop_append (ys : List T) (x : T) :
    (ArrayStack.mk (ys ++ [x])).Pop = (.ok x, ⟨ys⟩) := by
  unfold Pop
  simp

theorem Pop_nil : (ArrayStack.mk ([] : List T)).Pop = (.error (errorsNew "stack is empty"), ⟨[]⟩) :=
  rfl

theorem Peek_eq_Pop (s : ArrayStack T) : s.Peek = (s.Pop.1, s) := by
  unfold Peek Pop
  split_ifs <;> rfl

theorem popN_append (ys xs : List T) :
    popN xs.length (ArrayStack.mk (ys ++ xs)) = (xs.reverse.map .ok, ⟨ys⟩) := by
  induction xs using List.reverseRecOn with
  | nil => simp [popN]
  | append_singleton xs x ih =>
    rw [List.length_append, List.length_singleton, popN, ← List.append_assoc, Pop_append]
    simp only
    rw [ih]
    simp

end ArrayStack

theorem map_set_same {α β : Type} (f : α → β) (l : List α) (i : Nat) (a b : α)
    (h : l[i]? = some a) (hf : f b = f a) : (l.set i b).map f = l.map f := by
  apply List.ext_getElem?
  intro j
  rw [List.getElem?_map, List.getElem?_map, List.getElem?_set]
  by_cases hij : i = j
  · subst hij
    have hlt : i < l.length := by
      by_contra hc
      rw [List.getElem?_eq_none (by omega)] at h
      cases h
    rw [if_pos rfl, if_pos hlt, h]
    simp [hf]
  · rw [if_neg hij]

namespace LinkedQueue

variable {T : Type}

theorem holds_NewQueue : (NewQueue : LinkedQueue T).holds [] := ⟨rfl, rfl⟩

theorem holds_Enqueue (q : LinkedQueue T) (xs : List T) (x : T) (h : q.holds xs) :
    ∃ q', q.Enqueue x = some q' ∧ q'.holds (xs ++ [x]) := by
  obtain ⟨heap, head, tail, size⟩ := q
  obtain ⟨hs, hm⟩ := h
  simp only at hs hm
  cases head with
  | none =>
    cases tail with
    | some t => exact absurd hm id
    | none =>
      have hxs : xs = [] := hm
      subst hxs
      refine ⟨_, rfl, ?_, ?_⟩
      · simp only [hs]; simp
      · refine ⟨by simp, le_refl _, by simp, ?_, by simp⟩
        intro i h1 h2
        omega
  | some h =>
    cases tail with
    | none => exact absurd hm id
    | some t =>
      obtain ⟨ht, hle, hdata, hlink, hlast⟩ := hm
      have htlt : t < heap.length := by omega
      have hget : (heap ++ [({ data := x, next := none } : node T)])[t]? = some heap[t] := by
        rw [List.getElem?_append_left htlt, List.getElem?_eq_getElem htlt]
      refine ⟨{ heap := (heap ++ [({ data := x, next := none } : node T)]).set t
                  { heap[t] with next := some heap.length },
                head := some h, tail := some heap.length, size := size + 1 }, ?_, ?_, ?_⟩
      · simp only [Enqueue, hget]
      · simp only [hs]; simp
      · refine ⟨by simp, by omega, ?_, ?_, ?_⟩
        · simp only
          rw [List.map_drop, map_set_same (fun n : node T => n.data) _ t heap[t]
              { heap[t] with next := some heap.length } hget rfl,
            List.map_append, List.drop_append_of_le_length (by simp; omega), ← List.map_drop,
            hdata]
          rfl
        · intro i h1 h2
          simp only
          rw [List.getElem?_set]
          by_cases hit : t = i
          · subst hit
            rw [if_pos rfl, if_pos (by simp; omega)]
            simp [← ht]
          · rw [if_neg hit, List.getElem?_append_left (by omega)]
            exact hlink i h1 (by omega)
        · simp only
          rw [List.getElem?_set, if_neg (by omega), List.getElem?_concat_length]
          rfl

theorem holds_nil (q : LinkedQueue T) (h : q.holds []) :
    q.head = none ∧ q.tail = none ∧ q.size = 0 := by
  obtain ⟨heap, head, tail, size⟩ := q
  obtain ⟨hs, hm⟩ := h
  simp only at hs hm
  cases head with
  | none =>
    cases tail with
    | some t => exact absurd hm id
    | none => exact ⟨rfl, rfl, by simpa using hs⟩
  | some h =>
    cases tail with
    | none => exact absurd hm id
    | some t =>
      obtain ⟨ht, hle, hdata, _⟩ := hm
      have := congrArg List.length hdata
      simp at this
      omega

theorem holds_cons (q : LinkedQueue T) (x : T) (xs : List T) (h : q.holds (x :: xs)) :
    ∃ hd tl n, q.head = some hd ∧ q.tail = some tl ∧ q.heap[hd]? = some n ∧ n.data = x ∧
      q.size = xs.length + 1 ∧
      ({ heap := q.heap, head := n.next, tail := if n.next = none then none else q.tail,
         size := q.size - 1 } : LinkedQueue T).holds xs := by
  obtain ⟨heap, head, tail, size⟩ := q
  obtain ⟨hs, hm⟩ := h
  simp only at hs hm
  cases head with
  | none =>
    cases tail with
    | some t => exact absurd hm id
    | none => cases hm
  | some h =>
    cases tail with
    | none => exact absurd hm id
    | some t =>
      obtain ⟨ht, hle, hdata, hlink, hlast⟩ := hm
      have hlt : h < heap.length := by omega
      rw [List.drop_eq_getElem_cons hlt, List.map_cons] at hdata
      obtain ⟨hx, hrest⟩ := List.cons.inj hdata
      refine ⟨h, t, heap[h], rfl, rfl, List.getElem?_eq_getElem hlt, hx, ?_, ?_, ?_⟩
      · simpa using hs
      · simp only [hs]; simp
      · by_cases heq : h = t
        · subst heq
          have hn : heap[h].next = none := by
            rw [List.getElem?_eq_getElem hlt] at hlast
            simpa using hlast
          simp only [hn, if_true]
          rw [List.drop_of_length_le (by omega)] at hrest
          exact hrest.symm
        · have hn : heap[h].next = some (h + 1) := by
            have := hlink h (le_refl _) (by omega)
            rw [List.getElem?_eq_getElem hlt] at this
            simpa using this
          simp only [hn]
          refine ⟨ht, by omega, hrest, ?_, hlast⟩
          intro i h1 h2
          exact hlink i (by omega) h2

theorem holds_Dequeue_nil (q : LinkedQueue T) (h : q.holds []) :
    q.Dequeue = some (.error (errorsNew "queue is empty"), q) ∧
    q.Front = some (.error (errorsNew "queue is empty"), q) := by
  obtain ⟨h1, _, _⟩ := holds_nil q h
  simp [Dequeue, Front, h1]

theorem holds_Dequeue_cons (q : LinkedQueue T) (x : T) (xs : List T) (h : q.holds (x :: xs)) :
    (∃ q', q.Dequeue = some (.ok x, q') ∧ q'.holds xs) ∧ q.Front = some (.ok x, q) := by
  obtain ⟨hd, tl, n, h1, h2, h3, h4, _, h6⟩ := holds_cons q x xs h
  constructor
  · refine ⟨_, ?_, h6⟩
    simp only [Dequeue, h1, h3, h4]
  · simp only [Front, h1, h3, h4]

theorem holds_Clear (q : LinkedQueue T) : q.Clear.holds [] := ⟨rfl, rfl⟩

end LinkedQueue

theorem chainFrom_nil {T : Type} (heap : List (node T)) (fuel : Nat) :
    chainFrom heap fuel none = some [] := by
  cases fuel <;> rfl

theorem chainFrom_step {T : Type} (heap : List (node T)) (fuel a : Nat) (n : node T)
    (h : heap[a]? = some n) :
    chainFrom heap (fuel + 1) (some a) =
      (chainFrom heap fuel n.next).map fun rest => n.data :: rest := by
  simp only [chainFrom, h]

theorem chainFrom_linked {T : Type} (heap : List (node T)) (t : Nat)
    (ht : t + 1 = heap.length)
    (hlast : (heap[t]?).map (fun n => n.next) = some none) :
    ∀ (d h fuel : Nat), h + d = t → d + 1 ≤ fuel →
      (∀ i, h ≤ i → i < t → (heap[i]?).map (fun n => n.next) = some (some (i + 1))) →
      chainFrom heap fuel (some h) = some ((heap.drop h).map fun n => n.data) := by
  intro d
  induction d with
  | zero =>
    intro h fuel hd hf _
    have hh : h = t := by omega
    subst hh
    have hlt : h < heap.length := by omega
    obtain ⟨f, rfl⟩ : ∃ f, fuel = f + 1 := ⟨fuel - 1, by omega⟩
    rw [chainFrom_step heap f h heap[h] (List.getElem?_eq_getElem hlt)]
    have hn : heap[h].next = none := by
      rw [List.getElem?_eq_getElem hlt] at hlast
      simpa using hlast
    rw [hn, chainFrom_nil, List.drop_eq_getElem_cons hlt, List.drop_of_length_le (by omega)]
    rfl
  | succ d ih =>
    intro h fuel hd hf hlink
    have hlt : h < heap.length := by omega
    obtain ⟨f, rfl⟩ : ∃ f, fuel = f + 1 := ⟨fuel - 1, by omega⟩
    rw [chainFrom_step heap f h heap[h] (List.getElem?_eq_getElem hlt)]
    have hn : heap[h].next = some (h + 1) := by
      have := hlink h (le_refl _) (by omega)
      rw [List.getElem?_eq_getElem hlt] at this
      simpa using this
    rw [hn, ih (h + 1) f (by omega) (by omega) (fun i h1 h2 => hlink i (by omega) h2),
      List.drop_eq_getElem_cons hlt]
    rfl

namespace LinkedQueue

variable {T : Type}

theorem toList_of_holds (q : LinkedQueue T) (xs : List T) (h : q.holds xs) :
    q.toList = some xs ∧ q.size = xs.length ∧ (q.head = none ↔ q.tail = none) ∧
      (q.tail = none ↔ q.size = 0) := by
  obtain ⟨heap, head, tail, size⟩ := q
  obtain ⟨hs, hm⟩ := h
  simp only at hs hm
  cases head with
  | none =>
    cases tail with
    | some t => exact absurd hm id
    | none =>
      have hxs : xs = [] := hm
      subst hxs
      refine ⟨chainFrom_nil _ _, hs, Iff.rfl, ?_⟩
      simp only [hs]
      simp
  | some h =>
    cases tail with
    | none => exact absurd hm id
    | some t =>
      obtain ⟨ht, hle, hdata, hlink, hlast⟩ := hm
      refine ⟨?_, hs, by simp, ?_⟩
      · unfold toList
        simp only
        rw [chainFrom_linked heap t ht hlast (t - h) h heap.length (by omega) (by omega) hlink,
          hdata]
      · have hl := congrArg List.length hdata
        simp only [List.length_map, List.length_drop] at hl
        simp only [hs]
        constructor
        · intro h0; cases h0
        · intro h0
          have : xs.length = 0 := by exact_mod_cast h0
          omega

theorem queue_afterAll_append (q : LinkedQueue T) (calls : List (QueueCall T)) (c : QueueCall T) :
    q.afterAll (calls ++ [c]) = (q.afterAll calls).bind fun q1 => q1.after c := by
  unfold afterAll
  rw [List.foldlM_append]
  cases List.foldlM after q calls with
  | none => rfl
  | some q1 => simp [List.foldlM_cons]

end LinkedQueue

theorem fifoAfter_append {T : Type} (calls : List (QueueCall T)) (c : QueueCall T) :
    fifoAfter (calls ++ [c]) =
      match c with
      | .Enqueue item => fifoAfter calls ++ [item]
      | .Dequeue => (fifoAfter calls).tail
      | .Clear => []
      | _ => fifoAfter calls := by
  unfold fifoAfter
  rw [List.foldl_append]
  cases c <;> rfl

theorem fifoAfter_enqueues {T : Type} (calls : List (QueueCall T)) (xs : List T) :
    fifoAfter (calls ++ xs.map .Enqueue) = fifoAfter calls ++ xs := by
  induction xs using List.reverseRecOn with
  | nil => simp
  | append_singleton xs x ih =>
    rw [List.map_append, ← List.append_assoc, List.map_singleton, fifoAfter_append, ih]
    exact List.append_assoc _ _ _

namespace LinkedQueue

variable {T : Type}

/-- A queue built by method calls holds what the specification says it holds. -/
theorem holds_afterAll (calls : List (QueueCall T)) :
    ∃ q, (NewQueue : LinkedQueue T).afterAll calls = some q ∧ q.holds (fifoAfter calls) := by
  induction calls using List.reverseRecOn with
  | nil => exact ⟨NewQueue, rfl, holds_NewQueue⟩
  | append_singleton calls c ih =>
    obtain ⟨q, hq, hh⟩ := ih
    rw [queue_afterAll_append, hq, fifoAfter_append]
    simp only [Option.some_bind]
    cases c with
    | Enqueue item => exact holds_Enqueue q _ item hh
    | Dequeue =>
      cases hx : fifoAfter calls with
      | nil =>
        rw [hx] at hh
        refine ⟨q, ?_, hh⟩
        simp only [after, (holds_Dequeue_nil q hh).1, Option.map_some']
      | cons x xs =>
        rw [hx] at hh
        obtain ⟨⟨q', hd, hh'⟩, _⟩ := holds_Dequeue_cons q x xs hh
        refine ⟨q', ?_, hh'⟩
        simp only [after, hd, Option.map_some']
    | Front =>
      refine ⟨q, ?_, hh⟩
      cases hx : fifoAfter calls with
      | nil =>
        rw [hx] at hh
        simp only [after, (holds_Dequeue_nil q hh).2, Option.map_some']
      | cons x xs =>
        rw [hx] at hh
        simp only [after, (holds_Dequeue_cons q x xs hh).2, Option.map_some']
    | IsEmpty => exact ⟨q, rfl, hh⟩
    | Size => exact ⟨q, rfl, hh⟩
    | Clear => exact ⟨q.Clear, rfl, holds_Clear q⟩

theorem dequeueN_holds (xs : List T) :
    ∀ q : LinkedQueue T, q.holds xs →
      ∃ q', q.dequeueN xs.length = some (xs.map .ok, q') ∧ q'.holds [] := by
  induction xs with
  | nil => intro q h; exact ⟨q, rfl, h⟩
  | cons x xs ih =>
    intro q h
    obtain ⟨⟨q1, hd, hh1⟩, _⟩ := holds_Dequeue_cons q x xs h
    obtain ⟨q', hn, hh'⟩ := ih q1 hh1
    refine ⟨q', ?_, hh'⟩
    simp only [List.length_cons, dequeueN, hd, hn, List.map_cons]

end LinkedQueue

namespace KeySet

variable {T : Type} [GoComparable T]

theorem eq_left_congr (x y k : T) (h : GoComparable.eq x y = true) :
    GoComparable.eq k x = GoComparable.eq k y := by
  cases hx : GoComparable.eq k x with
  | true => exact (GoComparable.trans k x y hx h).symm
  | false =>
    cases hy : GoComparable.eq k y with
    | false => rfl
    | true =>
      have hyx : GoComparable.eq y x = true := by rw [GoComparable.symm]; exact h
      rw [GoComparable.trans k y x hy hyx] at hx
      cases hx

theorem any_congr (l : List T) (x y : T) (h : GoComparable.eq x y = true) :
    (l.any fun key => GoComparable.eq key x) = l.any fun key => GoComparable.eq key y := by
  induction l with
  | nil => rfl
  | cons a l ih => rw [List.any_cons, List.any_cons, ih, eq_left_congr x y a h]

theorem has_congr (m : KeySet T) (x y : T) (h : GoComparable.eq x y = true) :
    m.has x = m.has y :=
  any_congr m.keys x y h

theorem eq_self_of_has (m : KeySet T) (x : T) (h : m.has x = true) :
    GoComparable.eq x x = true := by
  obtain ⟨k, _, hk⟩ := List.any_eq_true.1 h
  have hxk : GoComparable.eq x k = true := by rw [GoComparable.symm]; exact hk
  exact GoComparable.trans x k x hxk hk

theorem has_store (m : KeySet T) (k y : T) (h : m.has k = false) :
    (m.store k).has y = (m.has y || GoComparable.eq k y) := by
  have h2 : ¬ m.has k = true := by rw [h]; exact Bool.false_ne_true
  unfold store
  rw [dif_neg h2]
  unfold has
  simp only [List.any_append, List.any_cons, List.any_nil, Bool.or_false]

theorem has_delete (m : KeySet T) (k y : T) :
    (m.delete k).has y = (m.has y && !GoComparable.eq y k) := by
  unfold delete has
  simp only
  induction m.keys with
  | nil => rfl
  | cons a l ih =>
    rw [List.filter_cons, List.any_cons]
    cases hak : GoComparable.eq a k with
    | true =>
      simp only [Bool.not_true, Bool.false_eq_true, if_false]
      rw [ih]
      cases hay : GoComparable.eq a y with
      | false => simp
      | true =>
        have hya : GoComparable.eq y a = true := by rw [GoComparable.symm]; exact hay
        rw [GoComparable.trans y a k hya hak]
        simp
    | false =>
      simp only [Bool.not_false, if_true, List.any_cons]
      rw [ih]
      cases hay : GoComparable.eq a y with
      | false => simp
      | true =>
        have hyk : GoComparable.eq y k = false := by
          rw [GoComparable.symm, ← eq_left_congr a y k hay, GoComparable.symm]
          exact hak
        simp [hyk]

theorem filter_length (l : List T) (k : T)
    (hp : l.Pairwise fun a b => GoComparable.eq a b = false) :
    (l.filter fun key => !GoComparable.eq key k).length +
      (if (l.any fun key => GoComparable.eq key k) = true then 1 else 0) = l.length := by
  induction l with
  | nil => rfl
  | cons a l ih =>
    obtain ⟨ha, hl⟩ := List.pairwise_cons.1 hp
    rw [List.filter_cons, List.any_cons]
    cases hak : GoComparable.eq a k with
    | true =>
      have hno : (l.any fun key => GoComparable.eq key k) = false := by
        rw [← any_congr l a k hak]
        rw [Bool.eq_false_iff]
        intro hany
        obtain ⟨b, hb, hba⟩ := List.any_eq_true.1 hany
        rw [GoComparable.symm, ha b hb] at hba
        cases hba
      have hall : (l.filter fun key => !GoComparable.eq key k) = l := by
        rw [List.filter_eq_self]
        intro b hb
        have hbk : GoComparable.eq b k = false := by
          rw [Bool.eq_false_iff]
          intro hbk
          have hany : (l.any fun key => GoComparable.eq key k) = true :=
            List.any_eq_true.2 ⟨b, hb, hbk⟩
          rw [hno] at hany
          cases hany
        rw [hbk]
        rfl
      simp [hall]
    | false =>
      have := ih hl
      simp only [Bool.not_false, if_true, List.length_cons, Bool.false_or]
      omega

end KeySet

namespace HashSet

variable {T : Type} [GoComparable T]

theorem Items_eq (s : HashSet T) : s.Items = (s.items.keys, s) := by
  unfold Items
  have h : ∀ (l acc : List T), l.foldl (fun result item => result ++ [item]) acc = acc ++ l := by
    intro l
    induction l with
    | nil => intro acc; simp
    | cons a l ih => intro acc; rw [List.foldl_cons, ih]; simp
  rw [h]
  rfl

theorem Contains_congr (s : HashSet T) (x y : T) (h : GoComparable.eq x y = true) :
    (s.Contains x).1 = (s.Contains y).1 :=
  KeySet.has_congr s.items x y h

theorem Contains_Add (s : HashSet T) (x y : T) :
    ((s.Add x).2.Contains y).1 = (GoComparable.eq y x || (s.Contains y).1) := by
  unfold Add Contains
  cases h : s.items.has x with
  | true =>
    simp only [if_true]
    cases hyx : GoComparable.eq y x with
    | false => rfl
    | true => rw [KeySet.has_congr s.items y x hyx, h]; rfl
  | false =>
    simp only [Bool.false_eq_true, if_false]
    rw [KeySet.has_store s.items x y h, GoComparable.symm x y, Bool.or_comm]

theorem Contains_Remove (s : HashSet T) (x y : T) :
    ((s.Remove x).2.Contains y).1 = (!GoComparable.eq y x && (s.Contains y).1) := by
  unfold Remove Contains
  cases h : s.items.has x with
  | true =>
    simp only [Bool.not_true, Bool.false_eq_true, if_false]
    rw [KeySet.has_delete, Bool.and_comm]
  | false =>
    simp only [Bool.not_false, if_true]
    cases hyx : GoComparable.eq y x with
    | false => rfl
    | true => rw [KeySet.has_congr s.items y x hyx, h]; rfl

theorem Contains_Add_self (s : HashSet T) (x : T) :
    ((s.Add x).2.Contains x).1 = GoComparable.eq x x := by
  rw [Contains_Add]
  cases h : (s.Contains x).1 with
  | false => rw [Bool.or_false]
  | true => rw [KeySet.eq_self_of_has s.items x h]; rfl

theorem Contains_Remove_self (s : HashSet T) (x : T) :
    ((s.Remove x).2.Contains x).1 = false := by
  rw [Contains_Remove]
  cases h : (s.Contains x).1 with
  | false => rw [Bool.and_false]
  | true => rw [KeySet.eq_self_of_has s.items x h]; rfl

theorem Add_fst (s : HashSet T) (x : T) : (s.Add x).1 = !(s.Contains x).1 := by
  unfold Add Contains
  cases s.items.has x <;> rfl

theorem Remove_fst (s : HashSet T) (x : T) : (s.Remove x).1 = (s.Contains x).1 := by
  unfold Remove Contains
  cases s.items.has x <;> rfl

theorem Size_Add (s : HashSet T) (x : T) :
    (s.Add x).2.Size.1 = s.Size.1 + (if (s.Add x).1 then 1 else 0) := by
  unfold Add Size KeySet.len
  cases h : s.items.has x with
  | true => simp
  | false =>
    have h2 : ¬ s.items.has x = true := by rw [h]; exact Bool.false_ne_true
    simp [KeySet.store, dif_neg h2]

theorem Size_Remove (s : HashSet T) (x : T) :
    (s.Remove x).2.Size.1 + (if (s.Remove x).1 then 1 else 0) = s.Size.1 := by
  unfold Remove Size KeySet.len
  have hlen := KeySet.filter_length s.items.keys x s.items.distinct
  cases h : s.items.has x with
  | true =>
    have h2 : (s.items.keys.any fun key => GoComparable.eq key x) = true := h
    rw [h2] at hlen
    simpa [KeySet.delete] using hlen
  | false => simp

theorem Size_eq_length (s : HashSet T) :
    s.Size.1 = s.Items.1.length ∧
      s.Items.1.Pairwise (fun a b => GoComparable.eq a b = false) ∧
      ∀ y, (s.Contains y).1 = true ↔ ∃ k ∈ s.Items.1, GoComparable.eq k y = true := by
  rw [Items_eq]
  refine ⟨rfl, s.items.distinct, ?_⟩
  intro y
  exact List.any_eq_true

theorem Items_of_lawful (hlaw : ∀ a b : T, GoComparable.eq a b = true ↔ a = b)
    (s : HashSet T) :
    s.Items.1.Nodup ∧ ∀ y, y ∈ s.Items.1 ↔ (s.Contains y).1 = true := by
  rw [Items_eq]
  constructor
  · refine List.Pairwise.imp ?_ s.items.distinct
    intro a b hab h
    rw [(hlaw a b).2 h] at hab
    cases hab
  · intro y
    constructor
    · intro hy
      exact List.any_eq_true.2 ⟨y, hy, (hlaw y y).2 rfl⟩
    · intro hy
      obtain ⟨k, hk, hky⟩ := List.any_eq_true.1 hy
      rw [← (hlaw k y).1 hky]
      exact hk

end HashSet

namespace HashSet

variable {T : Type} [GoComparable T]

theorem Contains_foldl_Add (l : List T) (r : HashSet T) (x : T) :
    ((l.foldl (fun (r : HashSet T) item => (r.Add item).2) r).Contains x).1 =
      ((l.any fun key => GoComparable.eq key x) || (r.Contains x).1) := by
  induction l generalizing r with
  | nil => simp
  | cons a l ih =>
    rw [List.foldl_cons, ih, Contains_Add, List.any_cons, GoComparable.symm x a]
    cases GoComparable.eq a x <;> cases (l.any fun key => GoComparable.eq key x) <;> simp

theorem foldl_select (keep : Bool → Bool) (other : HashSet T) (l : List T) (r : HashSet T)
    (x : T) :
    (l.foldl
      (fun (acc : HashSet T × HashSet T) item =>
        let test := acc.2.Contains item
        if keep test.1 then ((acc.1.Add item).2, test.2) else (acc.1, test.2))
      (r, other)).2 = other ∧
    (((l.foldl
      (fun (acc : HashSet T × HashSet T) item =>
        let test := acc.2.Contains item
        if keep test.1 then ((acc.1.Add item).2, test.2) else (acc.1, test.2))
      (r, other)).1).Contains x).1 =
      (((l.any fun key => GoComparable.eq key x) && keep (other.Contains x).1) ||
        (r.Contains x).1) := by
  induction l generalizing r with
  | nil => simp
  | cons a l ih =>
    rw [List.foldl_cons]
    simp only
    by_cases hk : keep (other.Contains a).1 = true
    · have hstep : (if keep (other.Contains a).1 = true
          then ((r.Add a).2, (other.Contains a).2) else (r, (other.Contains a).2)) =
          ((r.Add a).2, other) := by rw [if_pos hk]; rfl
      rw [hstep]
      refine ⟨(ih (r.Add a).2).1, ?_⟩
      rw [(ih (r.Add a).2).2, Contains_Add, List.any_cons, GoComparable.symm x a]
      cases hax : GoComparable.eq a x with
      | false => simp
      | true =>
        rw [← Contains_congr other a x hax, hk]
        simp
    · have hstep : (if keep (other.Contains a).1 = true
          then ((r.Add a).2, (other.Contains a).2) else (r, (other.Contains a).2)) =
          (r, other) := by rw [if_neg hk]; rfl
      rw [hstep]
      refine ⟨(ih r).1, ?_⟩
      rw [(ih r).2, List.any_cons]
      cases hax : GoComparable.eq a x with
      | false => simp
      | true =>
        have hk2 : keep (other.Contains a).1 = false := by simpa using hk
        rw [← Contains_congr other a x hax, hk2]
        simp

theorem Contains_NewSet (x : T) : ((NewSet : HashSet T).Contains x).1 = false := rfl

theorem any_keys (s : HashSet T) (x : T) :
    (s.items.keys.any fun key => GoComparable.eq key x) = (s.Contains x).1 := rfl

theorem Union_spec (a b : HashSet T) (x : T) :
    ((a.Union b).1.Contains x).1 = ((a.Contains x).1 || (b.Contains x).1) ∧
    (a.Union b).2 = (a, b) := by
  constructor
  · simp only [Union, Items_eq]
    rw [Contains_foldl_Add, Contains_foldl_Add, Contains_NewSet, any_keys, any_keys]
    cases (a.Contains x).1 <;> cases (b.Contains x).1 <;> rfl
  · simp only [Union, Items_eq]

theorem Intersection_spec (a b : HashSet T) (x : T) :
    ((a.Intersection b).1.Contains x).1 = ((a.Contains x).1 && (b.Contains x).1) ∧
    (a.Intersection b).2 = (a, b) := by
  obtain ⟨h1, h2⟩ := foldl_select (fun t => t) b a.items.keys NewSet x
  constructor
  · simp only [Intersection, Items_eq]
    rw [h2, Contains_NewSet, any_keys]
    simp
  · simp only [Intersection, Items_eq]
    rw [h1]

theorem Difference_spec (a b : HashSet T) (x : T) :
    ((a.Difference b).1.Contains x).1 = ((a.Contains x).1 && !(b.Contains x).1) ∧
    (a.Difference b).2 = (a, b) := by
  obtain ⟨h1, h2⟩ := foldl_select (fun t => !t) b a.items.keys NewSet x
  constructor
  · simp only [Difference, Items_eq]
    rw [h2, Contains_NewSet, any_keys]
    simp
  · simp only [Difference, Items_eq]
    rw [h1]

end HashSet

namespace GenericTree

variable {T : Type}

theorem traverseChildren_append (a b : List (TreeNode T)) :
    traverseChildren (a ++ b) = traverseChildren a ++ traverseChildren b := by
  induction a with
  | nil => rfl
  | cons c a ih => rw [List.cons_append, traverseChildren, traverseChildren, ih, List.append_assoc]

theorem traverseChildren_set (cs : List (TreeNode T)) :
    ∀ (i : Nat) (c c1 : TreeNode T), cs[i]? = some c →
      (traverseChildren (cs.set i c1)).length + (traverseHelper c).length =
        (traverseChildren cs).length + (traverseHelper c1).length := by
  induction cs with
  | nil => intro i c c1 h; cases h
  | cons d cs ih =>
    intro i c c1 h
    cases i with
    | zero =>
      have hd : d = c := by simpa using h
      subst hd
      rw [List.set_cons_zero, traverseChildren, traverseChildren]
      simp only [List.length_append]
      omega
    | succ i =>
      have h2 : cs[i]? = some c := by simpa using h
      rw [List.set_cons_succ, traverseChildren, traverseChildren]
      simp only [List.length_append]
      have := ih i c c1 h2
      omega

theorem traverseHelper_length (n : TreeNode T) :
    (traverseHelper n).length = (traverseChildren n.Children).length + 1 := by
  cases n with
  | mk v cs => rw [traverseHelper]; rfl

theorem traverse_modifyAt (f : TreeNode T → TreeNode T)
    (hf : ∀ p, (traverseHelper (f p)).length = (traverseHelper p).length + 1) :
    ∀ (path : List Nat) (r r1 : TreeNode T), TreeNode.modifyAt f path r = some r1 →
      (traverseHelper r1).length = (traverseHelper r).length + 1 := by
  intro path
  induction path with
  | nil =>
    intro r r1 h
    have : f r = r1 := by simpa [TreeNode.modifyAt] using h
    rw [← this, hf]
  | cons i rest ih =>
    intro r r1 h
    simp only [TreeNode.modifyAt] at h
    cases hc : r.Children[i]? with
    | none => rw [hc] at h; cases h
    | some c =>
      rw [hc] at h
      simp only at h
      cases hm : TreeNode.modifyAt f rest c with
      | none => rw [hm] at h; cases h
      | some c1 =>
        rw [hm] at h
        have hr1 : TreeNode.mk r.Value (r.Children.set i c1) = r1 := by simpa using h
        rw [← hr1, traverseHelper_length, traverseHelper_length r]
        have h1 := ih c c1 hm
        have h2 := traverseChildren_set r.Children i c c1 hc
        have h3 : (TreeNode.mk r.Value (r.Children.set i c1)).Children = r.Children.set i c1 := rfl
        rw [h3]
        omega

theorem traverse_appendChild (p child : TreeNode T) (hc : child.Children = []) :
    (traverseHelper (p.appendChild child)).length = (traverseHelper p).length + 1 := by
  cases child with
  | mk w ds =>
    have hds : ds = [] := hc
    subst hds
    rw [traverseHelper_length, traverseHelper_length p]
    simp only [TreeNode.appendChild, TreeNode.Children]
    rw [traverseChildren_append]
    simp [traverseChildren, traverseHelper]

theorem afterCall_Insert (t t1 : GenericTree T) (path : List Nat) (value : T)
    (h : t.afterCall (.Insert path value) = some t1) :
    t1.Traverse.length = t.Traverse.length + 1 ∧ t1.size = t.size + 1 := by
  obtain ⟨root, size⟩ := t
  simp only [afterCall, Insert] at h
  cases root with
  | none => simp at h
  | some r =>
    simp only at h
    cases hn : r.nodeAt path with
    | none => rw [hn] at h; simp at h
    | some p =>
      cases hm : TreeNode.modifyAt (fun p => p.appendChild (.mk value [])) path r with
      | none => rw [hn, hm] at h; simp at h
      | some r1 =>
        rw [hn, hm] at h
        simp only [Option.some.injEq] at h
        subst h
        exact ⟨traverse_modifyAt _ (fun p => traverse_appendChild p (.mk value []) rfl) path r r1 hm, rfl⟩

theorem afterCall_AddChild (t t1 : GenericTree T) (path : List Nat) (value : T)
    (h : t.afterCall (.AddChild path value) = some t1) :
    t1.Traverse.length = t.Traverse.length + 1 ∧ t1.size = t.size := by
  obtain ⟨root, size⟩ := t
  simp only [afterCall, afterAddChild] at h
  cases root with
  | none => simp at h
  | some r =>
    simp only at h
    cases hn : r.nodeAt path with
    | none => rw [hn] at h; simp at h
    | some p =>
      cases hm : TreeNode.modifyAt (fun p => (p.AddChild value).1) path r with
      | none => rw [hn, hm] at h; simp at h
      | some r1 =>
        rw [hn, hm] at h
        simp only [Option.some.injEq] at h
        subst h
        exact ⟨traverse_modifyAt _ (fun p => traverse_appendChild p (.mk value []) rfl) path r r1 hm, rfl⟩

theorem size_afterCalls (r : T) (calls : List (TreeCall T)) :
    match (NewTree r).afterCalls calls with
    | some t => t.Size.1 + addChildCalls calls = t.Traverse.length
    | none => True := by
  induction calls using List.reverseRecOn with
  | nil => rfl
  | append_singleton calls c ih =>
    unfold afterCalls at ih ⊢
    rw [List.foldlM_append]
    cases ht : List.foldlM afterCall (NewTree r) calls with
    | none => trivial
    | some t =>
      rw [ht] at ih
      simp only at ih
      simp only [Option.bind_eq_bind, Option.some_bind, List.foldlM_cons, List.foldlM_nil,
        Option.pure_def, Option.bind_some]
      cases hc : t.afterCall c with
      | none => trivial
      | some t1 =>
        simp only
        cases c with
        | Insert path value =>
          obtain ⟨h1, h2⟩ := afterCall_Insert t t1 path value hc
          have hcnt : addChildCalls (calls ++ [TreeCall.Insert path value]) =
              addChildCalls calls := by simp [addChildCalls]
          rw [hcnt, h1]
          simp only [Size] at ih ⊢
          rw [h2]
          push_cast
          omega
        | AddChild path value =>
          obtain ⟨h1, h2⟩ := afterCall_AddChild t t1 path value hc
          have hcnt : addChildCalls (calls ++ [TreeCall.AddChild path value]) =
              addChildCalls calls + 1 := by simp [addChildCalls]
          rw [hcnt, h1]
          simp only [Size] at ih ⊢
          rw [h2]
          push_cast
          omega

end GenericTree

theorem mod_add_inj (c h i j : Nat) (hi : i < c) (hj : j < c)
    (heq : (h + i) % c = (h + j) % c) : i = j := by
  have h1 : h + i ≡ h + j [MOD c] := heq
  have h2 : i ≡ j [MOD c] := Nat.ModEq.add_left_cancel' h h1
  have h3 : i % c = j % c := h2
  rwa [Nat.mod_eq_of_lt hi, Nat.mod_eq_of_lt hj] at h3

namespace Buffer

variable {T : Type} [Inhabited T]

theorem contents_length (b : Buffer T) : b.contents.length = b.size := by
  simp [contents]

theorem put_spec (c : Nat) (b : Buffer T) (x : T) (hw : b.wellFormed c) (hs : b.size < c) :
    ∃ b1, b.put x = some b1 ∧ b1.wellFormed c ∧ b1.contents = b.contents ++ [x] := by
  obtain ⟨hc, hd, hsz, hh, ht⟩ := hw
  have hcpos : 0 < c := by omega
  have htl : b.tail < b.data.length := by rw [ht, hd]; exact Nat.mod_lt _ hcpos
  refine ⟨{ b with data := b.data.set b.tail x, tail := (b.tail + 1) % b.capacity,
                   size := b.size + 1 }, ?_, ?_, ?_⟩
  · simp only [put, htl, if_true, hc, if_neg (Nat.pos_iff_ne_zero.1 hcpos)]
  · refine ⟨hc, by simp [hd], by simp; omega, hh, ?_⟩
    simp only [hc, ht]
    rw [Nat.mod_add_mod, Nat.add_assoc]
  · simp only [contents, List.range_succ, List.map_append, List.map_singleton, hc]
    congr 1
    · apply List.map_congr_left
      intro i hi
      have hi2 : i < b.size := List.mem_range.1 hi
      have hne : b.tail ≠ (b.head + i) % c := by
        rw [ht]
        intro heq
        have := mod_add_inj c b.head b.size i hs (by omega) heq
        omega
      rw [List.getD_eq_getElem?_getD, List.getD_eq_getElem?_getD, List.getElem?_set_ne hne]
    · rw [List.getD_eq_getElem?_getD, ← ht, List.getElem?_set_self htl]
      rfl

theorem take_spec (c : Nat) (b : Buffer T) (hw : b.wellFormed c) (hs : 0 < b.size) :
    ∃ x rest b1, b.contents = x :: rest ∧ b.take = some (x, b1) ∧ b1.wellFormed c ∧
      b1.contents = rest := by
  obtain ⟨hc, hd, hsz, hh, ht⟩ := hw
  have hcpos : 0 < c := by omega
  have hhl : b.head < b.data.length := by rw [hd]; exact hh
  obtain ⟨s, hs1⟩ : ∃ s, b.size = s + 1 := ⟨b.size - 1, by omega⟩
  refine ⟨b.data[b.head], (List.range s).map fun i =>
      b.data.getD ((b.head + (i + 1)) % c) default,
    { b with head := (b.head + 1) % b.capacity, size := b.size - 1 }, ?_, ?_, ?_, ?_⟩
  · simp only [contents, hs1, List.range_succ_eq_map, List.map_cons, List.map_map, hc]
    congr 1
    rw [Nat.add_zero, Nat.mod_eq_of_lt hh, List.getD_eq_getElem?_getD,
      List.getElem?_eq_getElem hhl]
    rfl
  · simp only [take, List.getElem?_eq_getElem hhl, hc,
      if_neg (Nat.pos_iff_ne_zero.1 hcpos)]
  · refine ⟨hc, hd, by simp; omega, ?_, ?_⟩
    · simp only [hc]; exact Nat.mod_lt _ hcpos
    · simp only [hc, ht, hs1, Nat.add_sub_cancel]
      rw [Nat.mod_add_mod]
      congr 1
      omega
  · simp only [contents, hs1, Nat.add_sub_cancel, hc]
    apply List.map_congr_left
    intro i _
    rw [Nat.mod_add_mod]
    congr 2
    omega

end Buffer

namespace Buffer

variable {T : Type} [Inhabited T]

/-- One call on a well-formed buffer and on the queue holding its contents: both return
the same, or neither returns, and the buffer after the call is well formed and holds what
the queue holds. -/
theorem call_sim (c : Nat) (b : Buffer T) (q : BoundedFifo T) (hw : b.wellFormed c)
    (hq : q = { capacity := c, items := b.contents }) (k : BufferCall T) :
    match b.call k, q.call k with
    | none, none => True
    | some (r, b1), some (r1, q1) =>
      r = r1 ∧ b1.wellFormed c ∧ q1 = { capacity := c, items := b1.contents }
    | _, _ => False := by
  subst hq
  have hlen := contents_length b
  have hcap : b.capacity = c := hw.1
  cases k with
  | Produce x =>
    by_cases hfull : b.size = c
    · simp [call, Produce, BoundedFifo.call, hlen, hfull, hcap]
    · obtain ⟨b1, h1, h2, h3⟩ := put_spec c b x hw (by have := hw.2.2.1; omega)
      simp [call, Produce, BoundedFifo.call, hlen, hfull, hcap, h1, h2, h3]
  | Consume =>
    by_cases hempty : b.size = 0
    · have hnil : b.contents = [] := List.length_eq_zero.1 (by rw [hlen, hempty])
      simp [call, Consume, BoundedFifo.call, hempty, hnil]
    · obtain ⟨x, rest, b1, h0, h1, h2, h3⟩ := take_spec c b hw (by omega)
      simp [call, Consume, BoundedFifo.call, hempty, h0, h1, h2, h3]
  | TryProduce x =>
    by_cases hfull : b.size = c
    · simp [call, TryProduce, BoundedFifo.call, hlen, hfull, hcap, hw]
    · obtain ⟨b1, h1, h2, h3⟩ := put_spec c b x hw (by have := hw.2.2.1; omega)
      simp [call, TryProduce, BoundedFifo.call, hlen, hfull, hcap, h1, h2, h3]
  | TryConsume =>
    by_cases hempty : b.size = 0
    · have hnil : b.contents = [] := List.length_eq_zero.1 (by rw [hlen, hempty])
      simp [call, TryConsume, BoundedFifo.call, hempty, hnil, hw]
    · obtain ⟨x, rest, b1, h0, h1, h2, h3⟩ := take_spec c b hw (by omega)
      simp [call, TryConsume, BoundedFifo.call, hempty, h0, h1, h2, h3]
  | Size =>
    simp [call, Size, BoundedFifo.call, hlen, hw]

theorem run_sim (c : Nat) (calls : List (BufferCall T)) :
    ∀ (b : Buffer T), b.wellFormed c →
      match b.run calls, (BoundedFifo.mk c b.contents).run calls with
      | none, none => True
      | some (rs, b1), some (rs1, q1) =>
        rs = rs1 ∧ b1.wellFormed c ∧ q1 = { capacity := c, items := b1.contents }
      | _, _ => False := by
  induction calls with
  | nil => intro b hw; exact ⟨rfl, hw, rfl⟩
  | cons k calls ih =>
    intro b hw
    have hstep := call_sim c b _ hw rfl k
    simp only [run, BoundedFifo.run]
    cases hb : b.call k with
    | none =>
      cases hq : (BoundedFifo.mk c b.contents).call k with
      | none => trivial
      | some v => rw [hb, hq] at hstep; exact False.elim hstep
    | some v =>
      obtain ⟨r, b1⟩ := v
      cases hq : (BoundedFifo.mk c b.contents).call k with
      | none => rw [hb, hq] at hstep; exact False.elim hstep
      | some w =>
        obtain ⟨r1, q1⟩ := w
        rw [hb, hq] at hstep
        obtain ⟨hr, hw1, hq1⟩ := hstep
        subst hr hq1
        have hrest := ih b1 hw1
        simp only
        cases hb2 : b1.run calls with
        | none =>
          cases hq2 : (BoundedFifo.mk c b1.contents).run calls with
          | none => trivial
          | some v2 => rw [hb2, hq2] at hrest; exact False.elim hrest
        | some v2 =>
          obtain ⟨rs, b2⟩ := v2
          cases hq2 : (BoundedFifo.mk c b1.contents).run calls with
          | none => rw [hb2, hq2] at hrest; exact False.elim hrest
          | some w2 =>
            obtain ⟨rs1, q2⟩ := w2
            rw [hb2, hq2] at hrest
            obtain ⟨hrs, hw2, hq2'⟩ := hrest
            exact ⟨by rw [hrs], hw2, hq2'⟩

theorem wellFormed_new (c : Nat) (hc : 1 ≤ c) :
    ∃ b0 : Buffer T, NewBuffer (c : Int) = some b0 ∧ b0.wellFormed c ∧ b0.contents = [] := by
  refine ⟨{ data := List.replicate c default, capacity := c, size := 0, head := 0, tail := 0 },
    ?_, ?_, rfl⟩
  · simp [NewBuffer]
  · exact ⟨rfl, by simp, Nat.zero_le _, (by omega : 0 < c), by simp⟩

end Buffer

theorem fanInRange_spec {T : Type} (cancelled : Nat → Bool) (input : List T) :
    ∀ (k : Nat) (sent : List T),
      (∃ taken, taken <+: input ∧
        (fanInRange cancelled input k sent).2.2 = sent ++ taken ∧
        ((fanInRange cancelled input k sent).1 = false → taken = input)) ∧
      ((∀ j, cancelled j = false) →
        fanInRange cancelled input k sent = (false, k + input.length, sent ++ input)) := by
  induction input with
  | nil =>
    intro k sent
    exact ⟨⟨[], List.prefix_refl _, by simp [fanInRange], fun _ => rfl⟩,
      fun _ => by simp [fanInRange]⟩
  | cons item rest ih =>
    intro k sent
    constructor
    · by_cases hk : cancelled k = true
      · refine ⟨[], List.nil_prefix, by simp [fanInRange, hk], ?_⟩
        intro h
        simp [fanInRange, hk] at h
      · obtain ⟨⟨taken, hp, he, hr⟩, _⟩ := ih (k + 1) (sent ++ [item])
        refine ⟨item :: taken, List.cons_prefix_cons.2 ⟨rfl, hp⟩, ?_, ?_⟩
        · simp only [fanInRange, hk, Bool.false_eq_true, if_false]
          rw [he]
          simp
        · intro h
          simp only [fanInRange, hk, Bool.false_eq_true, if_false] at h
          rw [hr h]
    · intro hno
      simp only [fanInRange, hno k, Bool.false_eq_true, if_false]
      rw [(ih (k + 1) (sent ++ [item])).2 hno]
      simp [Nat.add_assoc, Nat.add_comm 1]

theorem fanInLoop_spec {T : Type} (cancelled : Nat → Bool) (inputs : List (List T)) :
    ∀ (k : Nat) (sent : List T),
      (∃ taken, taken <+: inputs.flatten ∧ fanInLoop cancelled inputs k sent = sent ++ taken) ∧
      ((∀ j, cancelled j = false) →
        fanInLoop cancelled inputs k sent = sent ++ inputs.flatten) := by
  induction inputs with
  | nil =>
    intro k sent
    exact ⟨⟨[], List.prefix_refl _, by simp [fanInLoop]⟩, fun _ => by simp [fanInLoop]⟩
  | cons input inputs ih =>
    intro k sent
    obtain ⟨⟨taken, hp, he, hr⟩, hno1⟩ := fanInRange_spec cancelled input k sent
    constructor
    · cases hres : fanInRange cancelled input k sent with
      | mk returned rest =>
        obtain ⟨k1, sent1⟩ := rest
        rw [hres] at he hr
        simp only at he hr
        cases returned with
        | true =>
          refine ⟨taken, ?_, ?_⟩
          · rw [List.flatten_cons]
            exact hp.trans (List.prefix_append _ _)
          · simp only [fanInLoop, hres]
            exact he
        | false =>
          have ht : taken = input := hr rfl
          obtain ⟨⟨taken2, hp2, he2⟩, _⟩ := ih k1 sent1
          refine ⟨input ++ taken2, ?_, ?_⟩
          · rw [List.flatten_cons]
            exact (List.prefix_append_right_inj input).2 hp2
          · simp only [fanInLoop, hres]
            rw [he2, he, ht, List.append_assoc]
    · intro hno
      simp only [fanInLoop, hno1 hno]
      rw [(ih _ _).2 hno, List.flatten_cons, List.append_assoc]

/-- C1: for every input string, Lexer.Tokenize on a fresh lexer and sqc.Tokenize return
a nil error and a non-empty token sequence whose last token has kind EOF or Error and
in which no earlier token has kind EOF or Error; the input
`FIND products WHERE price < 100` yields exactly Keyword(FIND), Identifier(products),
Keyword(WHERE), Identifier(price), Operator(<), Number(100), EOF. -/
theorem Tokenize_terminated_sequence :
    (∀ input : GoString, ∃ init last,
      (NewLexer input).Tokenize = some (.ok (init ++ [last])) ∧
      Tokenize input = some (.ok (init ++ [last])) ∧
      init ++ [last] ≠ [] ∧
      (last.Typ = .EOF ∨ last.Typ = .Error) ∧
      ∀ t ∈ init, t.Typ ≠ .EOF ∧ t.Typ ≠ .Error) ∧
    Tokenize (str "FIND products WHERE price < 100") = some (.ok
      [{ Typ := .Keyword, Value := str "FIND", Line := 1, Column := 1 },
       { Typ := .Identifier, Value := str "products", Line := 1, Column := 6 },
       { Typ := .Keyword, Value := str "WHERE", Line := 1, Column := 15 },
       { Typ := .Identifier, Value := str "price", Line := 1, Column := 21 },
       { Typ := .Operator, Value := str "<", Line := 1, Column := 27 },
       { Typ := .Number, Value := str "100", Line := 1, Column := 29 },
       { Typ := .EOF, Value := [], Line := 1, Column := 32 }]) := by
  refine ⟨fun input => ?_, by rfl⟩
  obtain ⟨init, last, h, hlast, hinit⟩ := Tokenize_eq (NewLexer input) rfl
  exact ⟨init, last, h, h, by simp, hlast, hinit⟩

/-- C2: sqc.Validate accepts the minimal well-formed queries.
`Validate("SELECT * FROM products")` returns no error, and for every identifier `e = c :: cs`
that is not a keyword, `Validate("SELECT * FROM " + e)` and `Validate("FIND " + e)` return no
error, Parse producing root[Select[Field "*", Field e]] and root[Find[Field e]] from the
tokens of the two queries. -/
theorem Validate_accepts_minimal_queries (c : Byte) (cs : GoString)
    (hc : isLetter c = true ∨ c = 95)
    (hcs : ∀ b ∈ cs, isLetter b = true ∨ isDigit b = true ∨ b = 95)
    (hnk : keywords (ToUpper (c :: cs)) = false) :
    Validate (str "SELECT * FROM products") = some (.ok ()) ∧
    Validate (str "SELECT * FROM " ++ (c :: cs)) = some (.ok ()) ∧
    Validate (str "FIND " ++ (c :: cs)) = some (.ok ()) ∧
    (∃ toks, Tokenize (str "SELECT * FROM " ++ (c :: cs)) = some (.ok toks) ∧
      (NewParser toks).Parse = .ok (.mk ⟨.Query, str "ROOT"⟩
        [.mk ⟨.Select, str "SELECT"⟩ [leaf .Field (str "*"), leaf .Field (c :: cs)]])) ∧
    (∃ toks, Tokenize (str "FIND " ++ (c :: cs)) = some (.ok toks) ∧
      (NewParser toks).Parse = .ok (.mk ⟨.Query, str "ROOT"⟩
        [.mk ⟨.Find, str "FIND"⟩ [leaf .Field (c :: cs)]])) := by
  obtain ⟨t1, hs1, hs2⟩ := Tokenize_parse_select_star c cs hc hcs hnk
  obtain ⟨t2, hf1, hf2⟩ := Tokenize_parse_find c cs hc hcs hnk
  exact ⟨by rfl, Validate_of_parse _ _ _ hs1 hs2, Validate_of_parse _ _ _ hf1 hf2,
    ⟨t1, hs1, hs2⟩, ⟨t2, hf1, hf2⟩⟩

set_option maxRecDepth 100000 in
/-- Witness for C2 at the identifier `stores`. -/
theorem Validate_accepts_minimal_queries_witness :
    keywords (ToUpper (str "stores")) = false ∧
    Validate (str "SELECT * FROM " ++ str "stores") = some (.ok ()) ∧
    Validate (str "FIND " ++ str "stores") = some (.ok ()) :=
  ⟨by decide,
   (Validate_accepts_minimal_queries 115 (str "tores") (by decide) (by decide) (by decide)).2.1,
   (Validate_accepts_minimal_queries 115 (str "tores") (by decide) (by decide) (by decide)).2.2.1⟩

/-- C3, counterexample: a keyword after FIND or FROM is taken as the name.  The queries
`FIND WHERE` and `SELECT * FROM WHERE` name no entity and no source, yet Parse returns
the trees root[Find[Field WHERE]] and root[Select[Field *, Field WHERE]] and no error. -/
theorem Parse_accepts_keyword_as_name :
    (∃ toks, Tokenize (str "FIND WHERE") = some (.ok toks) ∧
      shape toks = [(.Keyword, str "FIND"), (.Keyword, str "WHERE"), (.EOF, [])] ∧
      (NewParser toks).Parse = .ok (.mk ⟨.Query, str "ROOT"⟩
        [.mk ⟨.Find, str "FIND"⟩ [leaf .Field (str "WHERE")]])) ∧
    (∃ toks, Tokenize (str "SELECT * FROM WHERE") = some (.ok toks) ∧
      shape toks = [(.Keyword, str "SELECT"), (.Asterisk, str "*"), (.Keyword, str "FROM"),
        (.Keyword, str "WHERE"), (.EOF, [])] ∧
      (NewParser toks).Parse = .ok (.mk ⟨.Query, str "ROOT"⟩
        [.mk ⟨.Select, str "SELECT"⟩ [leaf .Field (str "*"), leaf .Field (str "WHERE")]])) :=
  ⟨⟨[{ Typ := .Keyword, Value := str "FIND", Line := 1, Column := 1 },
      { Typ := .Keyword, Value := str "WHERE", Line := 1, Column := 6 },
      { Typ := .EOF, Value := [], Line := 1, Column := 11 }], by rfl, by rfl, by rfl⟩,
   ⟨[{ Typ := .Keyword, Value := str "SELECT", Line := 1, Column := 1 },
      { Typ := .Asterisk, Value := str "*", Line := 1, Column := 8 },
      { Typ := .Keyword, Value := str "FROM", Line := 1, Column := 10 },
      { Typ := .Keyword, Value := str "WHERE", Line := 1, Column := 15 },
      { Typ := .EOF, Value := [], Line := 1, Column := 20 }], by rfl, by rfl, by rfl⟩⟩

/-- C3, amended: Parser.Parse returns an error (and no tree) for an empty token sequence,
for a sequence holding only EOF, and whenever the parser does not see what it tests for at
a structural point, a keyword being tested by its text (`reads`) and a name by its kind:
(i) a SELECT field list followed by a token that does not read FROM (so also
`SELECT a, b FROM products`, where a comma follows the first field);
(ii) FROM followed by a token that is neither an Identifier nor a Keyword (so also
`SELECT FROM`);
(iii) ORDER, where an order clause is parsed (after the source or the WHERE of a SELECT,
after the entity or the WHERE of a FIND), followed by a token that does not read BY;
(iv) LIMIT, where a limit clause is parsed, not followed by a Number token;
(v) UPDATE and an Identifier followed by a token that does not read SET;
(vi) FIND followed by a token that is neither an Identifier nor a Keyword, UPDATE or
ANALYZE followed by a token that is not an Identifier. -/
theorem Parse_fails_at_structural_points :
    failed (NewParser []).Parse ∧
    (∀ eof : Token, eof.Typ = .EOF → failed (NewParser [eof]).Parse) ∧
    (∀ (sel : Token) (fl r : List Token), sel.reads (str "SELECT") → fieldListOf fl r →
      ¬ (seen r).reads (str "FROM") → failed (NewParser (sel :: (fl ++ r))).Parse) ∧
    (∃ toks, Tokenize (str "SELECT a, b FROM products") = some (.ok toks) ∧
      failed (NewParser toks).Parse) ∧
    (∀ (sel frm : Token) (fl r : List Token), sel.reads (str "SELECT") →
      fieldListOf fl (frm :: r) → frm.reads (str "FROM") →
      (seen r).Typ ≠ .Identifier ∧ (seen r).Typ ≠ .Keyword →
      failed (NewParser (sel :: (fl ++ frm :: r))).Parse) ∧
    (∃ toks, Tokenize (str "SELECT FROM") = some (.ok toks) ∧
      failed (NewParser toks).Parse) ∧
    (∀ (sel frm src ord : Token) (fl wh r : List Token), sel.reads (str "SELECT") →
      fieldListOf fl (frm :: src :: (wh ++ ord :: r)) → frm.reads (str "FROM") →
      (src.Typ = .Identifier ∨ src.Typ = .Keyword) → whereOf wh → ord.reads (str "ORDER") →
      ¬ (seen r).reads (str "BY") →
      failed (NewParser (sel :: (fl ++ frm :: src :: (wh ++ ord :: r)))).Parse) ∧
    (∀ (find ent ord : Token) (wh r : List Token), find.reads (str "FIND") →
      (ent.Typ = .Identifier ∨ ent.Typ = .Keyword) → whereOf wh → ord.reads (str "ORDER") →
      ¬ (seen r).reads (str "BY") →
      failed (NewParser (find :: ent :: (wh ++ ord :: r))).Parse) ∧
    (∀ (sel frm src lim : Token) (fl wh ob r : List Token), sel.reads (str "SELECT") →
      fieldListOf fl (frm :: src :: (wh ++ (ob ++ lim :: r))) → frm.reads (str "FROM") →
      (src.Typ = .Identifier ∨ src.Typ = .Keyword) → whereOf wh → orderOf ob →
      lim.reads (str "LIMIT") → (seen r).Typ ≠ .Number →
      failed (NewParser (sel :: (fl ++ frm :: src :: (wh ++ (ob ++ lim :: r))))).Parse) ∧
    (∀ (upd ent : Token) (r : List Token), upd.reads (str "UPDATE") → ent.Typ = .Identifier →
      ¬ (seen r).reads (str "SET") → failed (NewParser (upd :: ent :: r)).Parse) ∧
    (∀ (find : Token) (r : List Token), find.reads (str "FIND") →
      (seen r).Typ ≠ .Identifier ∧ (seen r).Typ ≠ .Keyword →
      failed (NewParser (find :: r)).Parse) ∧
    (∀ (upd : Token) (r : List Token), upd.reads (str "UPDATE") →
      (seen r).Typ ≠ .Identifier → failed (NewParser (upd :: r)).Parse) ∧
    (∀ (ana : Token) (r : List Token), ana.reads (str "ANALYZE") →
      (seen r).Typ ≠ .Identifier → failed (NewParser (ana :: r)).Parse) := by
  refine ⟨⟨_, rfl⟩, ?_, ?_, ⟨_, rfl, _, rfl⟩, ?_, ⟨_, rfl, _, rfl⟩, ?_, ?_, ?_, ?_, ?_, ?_, ?_⟩
  · intro eof h
    apply Parser.Parse_failed_of_parseQuery
    rw [Parser.parseQuery_eq, Parser.rest_NewParser, Parser.seen_cons, if_pos h]
    exact ⟨_, rfl⟩
  · intro sel fl r hsel hfl hr
    apply Parser.Parse_failed_of_parseQuery
    rw [Parser.parseQuery_select _ sel _ rfl hsel]
    exact Parser.select_failed_no_from _ sel fl r rfl hfl hr
  · intro sel frm fl r hsel hfl hfrm hr
    apply Parser.Parse_failed_of_parseQuery
    rw [Parser.parseQuery_select _ sel _ rfl hsel]
    exact Parser.select_failed_no_source _ sel frm fl r rfl hfl hfrm hr
  · intro sel frm src ord fl wh r hsel hfl hfrm hsrc hwh hord hr
    apply Parser.Parse_failed_of_parseQuery
    rw [Parser.parseQuery_select _ sel _ rfl hsel]
    exact Parser.select_failed_no_by _ sel frm src ord fl wh r rfl hfl hfrm hsrc hwh hord hr
  · intro find ent ord wh r hfind hent hwh hord hr
    apply Parser.Parse_failed_of_parseQuery
    rw [Parser.parseQuery_find _ find _ rfl hfind]
    exact Parser.find_failed_no_by _ find ent ord wh r rfl hent hwh hord hr
  · intro sel frm src lim fl wh ob r hsel hfl hfrm hsrc hwh hob hlim hr
    apply Parser.Parse_failed_of_parseQuery
    rw [Parser.parseQuery_select _ sel _ rfl hsel]
    exact Parser.select_failed_no_number _ sel frm src lim fl wh ob r rfl hfl hfrm hsrc hwh hob
      hlim hr
  · intro upd ent r hupd hent hr
    apply Parser.Parse_failed_of_parseQuery
    rw [Parser.parseQuery_update _ upd _ rfl hupd]
    exact Parser.update_failed_no_set _ upd ent r rfl hent hr
  · intro find r hfind hr
    apply Parser.Parse_failed_of_parseQuery
    rw [Parser.parseQuery_find _ find _ rfl hfind]
    exact Parser.find_failed_no_entity _ find r rfl hr
  · intro upd r hupd hr
    apply Parser.Parse_failed_of_parseQuery
    rw [Parser.parseQuery_update _ upd _ rfl hupd]
    exact Parser.update_failed_no_entity _ upd r rfl hr
  · intro ana r hana hr
    apply Parser.Parse_failed_of_parseQuery
    rw [Parser.parseQuery_analyze _ ana _ rfl hana]
    exact Parser.analyze_failed_no_entity _ ana r rfl hr

/-- Witness for the amended C3, item (v): `UPDATE products` followed by EOF instead of SET. -/
theorem Parse_fails_at_structural_points_witness :
    failed (NewParser [{ Typ := .Keyword, Value := str "UPDATE", Line := 1, Column := 1 },
      { Typ := .Identifier, Value := str "products", Line := 1, Column := 8 },
      { Typ := .EOF, Value := [], Line := 1, Column := 16 }]).Parse :=
  Parse_fails_at_structural_points.2.2.2.2.2.2.2.2.2.1
    { Typ := .Keyword, Value := str "UPDATE", Line := 1, Column := 1 }
    { Typ := .Identifier, Value := str "products", Line := 1, Column := 8 }
    [{ Typ := .EOF, Value := [], Line := 1, Column := 16 }]
    ⟨by decide, rfl⟩ rfl (fun h => h.1 rfl)

/-- C4, the code at the failing input: the query `'FIND' products` lexes to a String
token with text FIND followed by an identifier, so its first token is not a Keyword token;
Parse returns no error on these tokens but the tree root[Find[Field products]]. -/
theorem Parse_accepts_quoted_FIND :
    ∃ first rest, Tokenize (39 :: str "FIND" ++ 39 :: str " products") =
        some (.ok (first :: rest)) ∧
      first.Typ = .String ∧ first.Typ ≠ .Keyword ∧ first.Value = str "FIND" ∧
      (NewParser (first :: rest)).Parse = .ok (.mk ⟨.Query, str "ROOT"⟩
        [.mk ⟨.Find, str "FIND"⟩ [leaf .Field (str "products")]]) ∧
      ¬ failed (NewParser (first :: rest)).Parse :=
  ⟨{ Typ := .String, Value := str "FIND", Line := 1, Column := 1 },
   [{ Typ := .Identifier, Value := str "products", Line := 1, Column := 8 },
    { Typ := .EOF, Value := [], Line := 1, Column := 16 }],
   by rfl, rfl, by decide, rfl, by rfl,
   fun h => by
    obtain ⟨err, herr⟩ := h
    exact Except.noConfusion (show (Except.ok _ : Except GoError AST) = .error err from herr)⟩

/-- C5: for every data store whose fetch and count succeed, executing a FIND statement
whose entity is products, orders or stores (model `m`) issues one fetch bounded to 100
records and one count, and returns Type "FIND", Success = true, Data = the fetched records
and Count = the store's total count for that entity (not the number of records fetched);
for every other entity name it returns Success = true, Count = 0 and no data without
issuing any store call.  The same holds end to end for `FIND products` and
`FIND customers` through sqc.Execute. -/
theorem find_counts_whole_collection {Row : Type} (db : DB Row) (m : Model) (E : GoString)
    (rows : List Row) (n : Nat) (rv v : ASTNode) (cs clauses more : List AST)
    (hv : v.Typ = .Find)
    (hm : (E, m) ∈ [(str "products", Model.Product), (str "orders", Model.Order),
      (str "stores", Model.Store)])
    (hf : db.find m [] 100 = .ok rows) (hc : db.count m = .ok n) :
    (NewInterpreter (some (.mk rv (.mk v (.mk ⟨.Field, E⟩ cs :: clauses) :: more)))
        (some db)).Execute =
      (.ok { Typ := str "FIND", Data := some rows, Count := n, Success := true,
             Message := str "Found " ++ decimal n ++ str " " ++ E ++ str " from REAL database" },
       [.Find m [] 100, .Count m]) ∧
    (∀ E' : GoString, E' ≠ str "products" → E' ≠ str "orders" → E' ≠ str "stores" →
      (NewInterpreter (some (.mk rv (.mk v (.mk ⟨.Field, E'⟩ cs :: clauses) :: more)))
          (some db)).Execute =
        (.ok { Typ := str "FIND", Data := none, Count := 0, Success := true,
               Message := str "Found " ++ decimal 0 ++ str " " ++ E' ++
                 str " from REAL database" }, [])) ∧
    (m = .Product → Execute (str "FIND products") (some db) =
      some (.ok { Typ := str "FIND", Data := some rows, Count := n, Success := true,
                  Message := str "Found " ++ decimal n ++ str " " ++ str "products" ++
                    str " from REAL database" },
            [.Find .Product [] 100, .Count .Product])) ∧
    Execute (str "FIND customers") (some db) =
      some (.ok { Typ := str "FIND", Data := none, Count := 0, Success := true,
                  Message := str "Found 0 customers from REAL database" }, []) := by
  refine ⟨?_, ?_, ?_, ?_⟩
  · rw [Interpreter.Execute_find _ _ _ _ _ hv]
    simp only [List.mem_cons, Prod.mk.injEq, List.mem_singleton, List.not_mem_nil, or_false] at hm
    rcases hm with ⟨rfl, rfl⟩ | ⟨rfl, rfl⟩ | ⟨rfl, rfl⟩
    · simp only [Interpreter.executeFind, NewInterpreter, Interpreter.entityOf_field,
        Interpreter.fetchAndCount_ok db _ _ rows n hf hc, if_true]
    · simp only [Interpreter.executeFind, NewInterpreter, Interpreter.entityOf_field,
        Interpreter.fetchAndCount_ok db _ _ rows n hf hc, if_true,
        if_neg (show str "orders" ≠ str "products" by decide)]
    · simp only [Interpreter.executeFind, NewInterpreter, Interpreter.entityOf_field,
        Interpreter.fetchAndCount_ok db _ _ rows n hf hc, if_true,
        if_neg (show str "stores" ≠ str "products" by decide),
        if_neg (show str "stores" ≠ str "orders" by decide)]
  · intro E' h1 h2 h3
    rw [Interpreter.Execute_find _ _ _ _ _ hv]
    simp only [Interpreter.executeFind, NewInterpreter, Interpreter.entityOf_field,
      if_neg h1, if_neg h2, if_neg h3]
  · rintro rfl
    rw [Interpreter.sqc_Execute_of_parse (str "FIND products") (some db) _
      (.mk ⟨.Query, str "ROOT"⟩ [.mk ⟨.Find, str "FIND"⟩ [.mk ⟨.Field, str "products"⟩ []]])
      (by rfl) (by rfl)]
    rw [Interpreter.Execute_find _ _ _ _ _ rfl]
    simp only [Interpreter.executeFind, NewInterpreter, Interpreter.entityOf_field,
      Interpreter.fetchAndCount_ok db _ _ rows n hf hc, if_true]
  · rw [Interpreter.sqc_Execute_of_parse (str "FIND customers") (some db) _
      (.mk ⟨.Query, str "ROOT"⟩ [.mk ⟨.Find, str "FIND"⟩ [.mk ⟨.Field, str "customers"⟩ []]])
      (by rfl) (by rfl)]
    rw [Interpreter.Execute_find _ _ _ _ _ rfl]
    simp only [Interpreter.executeFind, NewInterpreter, Interpreter.entityOf_field,
      if_neg (show str "customers" ≠ str "products" by decide),
      if_neg (show str "customers" ≠ str "orders" by decide),
      if_neg (show str "customers" ≠ str "stores" by decide)]
    rfl

/-- Witness for C5 on the sample store (every fetch returns three records, every count is
250): FIND orders returns the three records with Count = 250. -/
theorem find_counts_whole_collection_witness :
    sampleDB.find .Order [] 100 = .ok [1, 2, 3] ∧ sampleDB.count .Order = .ok 250 ∧
    (NewInterpreter (some (.mk ⟨.Query, str "ROOT"⟩
        [.mk ⟨.Find, str "FIND"⟩ [.mk ⟨.Field, str "orders"⟩ []]])) (some sampleDB)).Execute =
      (.ok { Typ := str "FIND", Data := some [1, 2, 3], Count := 250, Success := true,
             Message := str "Found " ++ decimal 250 ++ str " " ++ str "orders" ++
               str " from REAL database" },
       [.Find .Order [] 100, .Count .Order]) :=
  ⟨rfl, rfl,
   (find_counts_whole_collection sampleDB .Order (str "orders") [1, 2, 3] 250
      ⟨.Query, str "ROOT"⟩ ⟨.Find, str "FIND"⟩ [] [] [] rfl (by decide) rfl rfl).1⟩

/-- C6: Interpreter.Execute returns an error (and no result) exactly when the AST is nil,
the root has no children, or the kind of the root's first child is not Select, Find,
Update or Analyze; in every other case it returns a result and no error. -/
theorem Execute_fails_exactly_when {Row : Type} (i : Interpreter Row) :
    (failed i.Execute.1 ↔
      (i.ast = none ∨
       (∃ root, i.ast = some root ∧ root.Children = []) ∨
       (∃ root q rest, i.ast = some root ∧ root.Children = q :: rest ∧
          q.Value.Typ ≠ .Select ∧ q.Value.Typ ≠ .Find ∧
          q.Value.Typ ≠ .Update ∧ q.Value.Typ ≠ .Analyze))) ∧
    (¬ failed i.Execute.1 → ∃ result, i.Execute.1 = .ok result) := by
  have hdich : ∀ r : Except GoError (QueryResult Row), ¬ failed r → ∃ result, r = .ok result := by
    intro r hr
    cases r with
    | error e => exact absurd ⟨e, rfl⟩ hr
    | ok v => exact ⟨v, rfl⟩
  refine ⟨?_, hdich _⟩
  obtain ⟨ast, db⟩ := i
  cases ast with
  | none =>
    constructor
    · intro _; exact Or.inl rfl
    · intro _; exact ⟨_, rfl⟩
  | some root =>
    cases hch : root.Children with
    | nil =>
      constructor
      · intro _; exact Or.inr (Or.inl ⟨root, rfl, hch⟩)
      · intro _
        simp only [Interpreter.Execute, hch]
        exact ⟨_, rfl⟩
    | cons q rest =>
      have hsome :
          ((some root : Option AST) = none ∨
            (∃ r, (some root : Option AST) = some r ∧ r.Children = []) ∨
            (∃ r q' rest', (some root : Option AST) = some r ∧ r.Children = q' :: rest' ∧
              q'.Value.Typ ≠ .Select ∧ q'.Value.Typ ≠ .Find ∧
              q'.Value.Typ ≠ .Update ∧ q'.Value.Typ ≠ .Analyze)) ↔
          (q.Value.Typ ≠ .Select ∧ q.Value.Typ ≠ .Find ∧
              q.Value.Typ ≠ .Update ∧ q.Value.Typ ≠ .Analyze) := by
        constructor
        · rintro (h | ⟨r, h, hr⟩ | ⟨r, q', rest', h, hr, hq⟩)
          · cases h
          · cases h; rw [hch] at hr; cases hr
          · cases h; rw [hch] at hr; cases hr; exact hq
        · intro hq
          exact Or.inr (Or.inr ⟨root, q, rest, rfl, hch, hq⟩)
      rw [hsome]
      simp only [Interpreter.Execute, hch]
      cases hT : q.Value.Typ <;>
        simp [failed, Interpreter.executeSelect, Interpreter.executeFind,
          Interpreter.executeUpdate, Interpreter.executeAnalyze]

/-- C7, the code at the failing inputs: the tokens of `FIND products WHERE name = "abc`
end in the Error token of the unterminated string and those of `FIND products @` in the
Error token of the unrecognized character, yet sqc.Validate returns the nil error and
sqc.Execute returns a result and no error, for every store. -/
theorem lexical_error_not_reported :
    (∃ toks last, Tokenize (str "FIND products WHERE name = " ++ 34 :: str "abc") =
        some (.ok (toks ++ [last])) ∧ last.Typ = .Error) ∧
    Validate (str "FIND products WHERE name = " ++ 34 :: str "abc") = some (.ok ()) ∧
    (∀ (Row : Type) (db : Option (DB Row)), ∃ result ops,
      Execute (str "FIND products WHERE name = " ++ 34 :: str "abc") db =
        some (.ok result, ops)) ∧
    (∃ toks last, Tokenize (str "FIND products @") = some (.ok (toks ++ [last])) ∧
      last.Typ = .Error) ∧
    Validate (str "FIND products @") = some (.ok ()) ∧
    (∀ (Row : Type) (db : Option (DB Row)), ∃ result ops,
      Execute (str "FIND products @") db = some (.ok result, ops)) := by
  refine ⟨⟨[{ Typ := .Keyword, Value := str "FIND", Line := 1, Column := 1 },
       { Typ := .Identifier, Value := str "products", Line := 1, Column := 6 },
       { Typ := .Keyword, Value := str "WHERE", Line := 1, Column := 15 },
       { Typ := .Identifier, Value := str "name", Line := 1, Column := 21 },
       { Typ := .Operator, Value := str "=", Line := 1, Column := 26 }],
      { Typ := .Error, Value := str "unterminated string", Line := 1, Column := 28 },
      by rfl, rfl⟩, by rfl, ?_,
    ⟨[{ Typ := .Keyword, Value := str "FIND", Line := 1, Column := 1 },
       { Typ := .Identifier, Value := str "products", Line := 1, Column := 6 }],
      { Typ := .Error, Value := str "@", Line := 1, Column := 15 }, by rfl, rfl⟩, by rfl, ?_⟩
  · intro Row db
    rw [Interpreter.sqc_Execute_of_parse _ db _
      (.mk ⟨.Query, str "ROOT"⟩ [.mk ⟨.Find, str "FIND"⟩
        [.mk ⟨.Field, str "products"⟩ [], .mk ⟨.Where, str "WHERE"⟩ []]])
      (by rfl) (by rfl)]
    rw [Interpreter.Execute_find _ _ _ _ _ rfl]
    exact ⟨_, _, rfl⟩
  · intro Row db
    rw [Interpreter.sqc_Execute_of_parse _ db _
      (.mk ⟨.Query, str "ROOT"⟩ [.mk ⟨.Find, str "FIND"⟩ [.mk ⟨.Field, str "products"⟩ []]])
      (by rfl) (by rfl)]
    rw [Interpreter.Execute_find _ _ _ _ _ rfl]
    exact ⟨_, _, rfl⟩

/-- C8: keyword recognition is case-insensitive and normalising.  For every word
`c :: cs` made of a letter or underscore followed by letters, digits and underscores,
Tokenize returns [Keyword with the upper-cased text, EOF] when the upper-cased word is one
of the 21 keywords and [Identifier with the text unchanged, EOF] otherwise; and the run is
maximal: whatever follows the word (`r`, not starting with a letter, digit or underscore),
the first token of `word ++ r` is that same token and the lexer stops right after the word. -/
theorem keyword_recognition (c : Byte) (cs r : GoString)
    (hc : isLetter c = true ∨ c = 95)
    (hcs : ∀ b ∈ cs, isLetter b = true ∨ isDigit b = true ∨ b = 95)
    (hr : ∀ b ∈ r.head?, ¬ (isLetter b = true ∨ isDigit b = true ∨ b = 95)) :
    (∃ toks, Tokenize (c :: cs) = some (.ok toks) ∧
      shape toks =
        if ToUpper (c :: cs) ∈
            [str "SELECT", str "FROM", str "WHERE", str "AND", str "OR",
             str "ORDER", str "BY", str "LIMIT", str "GROUP", str "ASC", str "DESC",
             str "FIND", str "UPDATE", str "SET", str "ANALYZE", str "IN",
             str "LIKE", str "NULL", str "TRUE", str "FALSE", str "CONCURRENT"]
        then [(.Keyword, ToUpper (c :: cs)), (.EOF, [])]
        else [(.Identifier, c :: cs), (.EOF, [])]) ∧
    (∃ tok l', (NewLexer ((c :: cs) ++ r)).NextToken = some (tok, l') ∧
      l'.pos = (c :: cs).length ∧
      (tok.Typ, tok.Value) =
        if ToUpper (c :: cs) ∈
            [str "SELECT", str "FROM", str "WHERE", str "AND", str "OR",
             str "ORDER", str "BY", str "LIMIT", str "GROUP", str "ASC", str "DESC",
             str "FIND", str "UPDATE", str "SET", str "ANALYZE", str "IN",
             str "LIKE", str "NULL", str "TRUE", str "FALSE", str "CONCURRENT"]
        then (.Keyword, ToUpper (c :: cs))
        else (.Identifier, c :: cs)) := by
  have hsp := Lexer.identStart_not_space c hc
  constructor
  · have hlex := Lexer.lexeme_ident c cs [] hc hcs (by simp)
    rw [List.append_nil] at hlex
    obtain ⟨toks, hrun, hshape⟩ := Lexer.Tokenize_one (c :: cs)
      (by simpa using hsp)
      (by rw [hlex]; split_ifs <;> rfl)
      (by rw [hlex]; split_ifs <;> simp)
    refine ⟨toks, hrun, ?_⟩
    rw [hshape, hlex]
    by_cases hk : keywords (ToUpper (c :: cs)) = true
    · rw [if_pos hk, if_pos ((keywords_iff _).1 hk)]
    · rw [if_neg hk, if_neg (fun h => hk ((keywords_iff _).2 h))]
  · have hlex := Lexer.lexeme_ident c cs r hc hcs hr
    obtain ⟨tok, hnext, hT, hV⟩ := Lexer.NextToken_of_rest' (NewLexer ((c :: cs) ++ r)) []
      ((c :: cs) ++ r) rfl (by simp) (by simpa using hsp)
    refine ⟨tok, _, hnext, ?_, ?_⟩
    · rw [hlex, Lexer.consume_pos]
      split_ifs <;> simp [NewLexer]
    · rw [hT, hV, hlex]
      by_cases hk : keywords (ToUpper (c :: cs)) = true
      · rw [if_pos hk, if_pos ((keywords_iff _).1 hk)]
      · rw [if_neg hk, if_neg (fun h => hk ((keywords_iff _).2 h))]

set_option maxRecDepth 100000 in
/-- Witness for C8 at the word `find` followed by a space: the hypotheses hold and the
word lexes to the keyword FIND. -/
theorem keyword_recognition_witness :
    (∃ toks, Tokenize (str "find") = some (.ok toks) ∧
      shape toks = [(.Keyword, str "FIND"), (.EOF, [])]) ∧
    (∃ tok l', (NewLexer (str "find ")).NextToken = some (tok, l') ∧
      l'.pos = 4 ∧ (tok.Typ, tok.Value) = (.Keyword, str "FIND")) :=
  keyword_recognition 102 (str "ind") (str " ") (by decide) (by decide) (by decide)


/-- C9: string literal scanning.  For a quote character `q` (double quote 34 or single
quote 39) and every string `s` that does not contain `q`, Tokenize of `q s q` is
[String with text `s`, EOF] and Tokenize of `q s` is the single token
[Error "unterminated string"]; the input `FIND products WHERE name = "abc` returns six
tokens ending in that Error token, with the lexer stopped at the end of the input
(position 31 of 31): the scan neither loops nor reads past the end. -/
theorem string_scanning (q : Byte) (s : GoString) (hq : q = 34 ∨ q = 39) (hs : q ∉ s) :
    (∃ toks, Tokenize (q :: (s ++ [q])) = some (.ok toks) ∧
      shape toks = [(.String, s), (.EOF, [])]) ∧
    (∃ toks, Tokenize (q :: s) = some (.ok toks) ∧
      shape toks = [(.Error, str "unterminated string")]) ∧
    Tokenize (str "FIND products WHERE name = " ++ 34 :: str "abc") = some (.ok
      [{ Typ := .Keyword, Value := str "FIND", Line := 1, Column := 1 },
       { Typ := .Identifier, Value := str "products", Line := 1, Column := 6 },
       { Typ := .Keyword, Value := str "WHERE", Line := 1, Column := 15 },
       { Typ := .Identifier, Value := str "name", Line := 1, Column := 21 },
       { Typ := .Operator, Value := str "=", Line := 1, Column := 26 },
       { Typ := .Error, Value := str "unterminated string", Line := 1, Column := 28 }]) ∧
    (Lexer.tokenizeLoop 32 (NewLexer (str "FIND products WHERE name = " ++ 34 :: str "abc")) []).map
      (fun r => (r.1.length, r.2.pos, r.2.input.length)) = some (6, 31, 31) := by
  obtain ⟨hsp, _⟩ := Lexer.quote_facts q hq
  refine ⟨?_, ?_, by rfl, by rfl⟩
  · have hlex : lexeme (q :: (s ++ [q])) = (.String, s, q :: (s ++ [q])) := by
      rw [Lexer.lexeme_quote q _ hq]
      exact Lexer.stringLexeme_closed q s [] hs
    obtain ⟨toks, hrun, hshape⟩ := Lexer.Tokenize_one (q :: (s ++ [q]))
      (by simpa using hsp) (by rw [hlex]) (by rw [hlex]; simp)
    exact ⟨toks, hrun, by rw [hshape, hlex]⟩
  · have hlex : lexeme (q :: s) = (.Error, str "unterminated string", q :: s) := by
      rw [Lexer.lexeme_quote q _ hq]
      exact Lexer.stringLexeme_open q s hs
    obtain ⟨toks, hrun, hshape⟩ := Lexer.Tokenize_one_error (q :: s)
      (by simpa using hsp) (by rw [hlex])
    exact ⟨toks, hrun, by rw [hshape, hlex]⟩

set_option maxRecDepth 100000 in
/-- Witness for C9 at the single-quoted literal `it is` (with a line feed inside). -/
theorem string_scanning_witness :
    ((39 : Byte) = 34 ∨ (39 : Byte) = 39) ∧ (39 : Byte) ∉ str "it\nis" ∧
    (∃ toks, Tokenize (39 :: (str "it\nis" ++ [39])) = some (.ok toks) ∧
      shape toks = [(.String, str "it\nis"), (.EOF, [])]) ∧
    (∃ toks, Tokenize (39 :: str "it\nis") = some (.ok toks) ∧
      shape toks = [(.Error, str "unterminated string")]) :=
  ⟨by decide, by decide,
   (string_scanning 39 (str "it\nis") (by decide) (by decide)).1,
   (string_scanning 39 (str "it\nis") (by decide) (by decide)).2.1⟩

/-- C10: number scanning absorbs the decimal point greedily.  For every non-empty digit
string `d` and every digit string `f` (possibly empty), Tokenize of `d` is
[Number d, EOF] and Tokenize of `d.f` is [Number d.f, EOF]; `12.` is the single Number
token `12.`, and `1.2.3` is Number `1.2`, Dot, Number `3`. -/
theorem number_scanning (d f : GoString) (hne : d ≠ [])
    (hd : ∀ b ∈ d, isDigit b = true) (hf : ∀ b ∈ f, isDigit b = true) :
    (∃ toks, Tokenize d = some (.ok toks) ∧ shape toks = [(.Number, d), (.EOF, [])]) ∧
    (∃ toks, Tokenize (d ++ 46 :: f) = some (.ok toks) ∧
      shape toks = [(.Number, d ++ 46 :: f), (.EOF, [])]) ∧
    (Tokenize (str "12.")).map (Except.map shape) =
      some (.ok [(.Number, str "12."), (.EOF, [])]) ∧
    (Tokenize (str "1.2.3")).map (Except.map shape) =
      some (.ok [(.Number, str "1.2"), (.Dot, str "."), (.Number, str "3"), (.EOF, [])]) := by
  obtain ⟨c, cs, rfl⟩ := List.exists_cons_of_ne_nil hne
  have hc : isDigit c = true := hd c (by simp)
  have hsp := (Lexer.digit_facts c hc).1
  refine ⟨?_, ?_, by rfl, by rfl⟩
  · have hlex : lexeme (c :: cs) = (.Number, c :: cs, c :: cs) := by
      rw [Lexer.lexeme_number c cs hc, Lexer.numberText_digits _ hd]
    obtain ⟨toks, hrun, hshape⟩ := Lexer.Tokenize_one (c :: cs)
      (by simpa using hsp) (by rw [hlex]) (by rw [hlex]; simp)
    exact ⟨toks, hrun, by rw [hshape, hlex]⟩
  · have hnum := Lexer.numberText_decimal (c :: cs) f [] hd hf (by simp)
    rw [List.append_nil] at hnum
    have hlex : lexeme (c :: cs ++ 46 :: f) = (.Number, c :: cs ++ 46 :: f, c :: cs ++ 46 :: f) := by
      rw [List.cons_append, Lexer.lexeme_number c _ hc, ← List.cons_append, hnum]
    obtain ⟨toks, hrun, hshape⟩ := Lexer.Tokenize_one (c :: cs ++ 46 :: f)
      (by simpa using hsp) (by rw [hlex]) (by rw [hlex]; simp)
    exact ⟨toks, hrun, by rw [hshape, hlex]⟩

set_option maxRecDepth 100000 in
/-- Witness for C10 at `d = 12` and the empty fraction. -/
theorem number_scanning_witness :
    str "12" ≠ [] ∧ (∀ b ∈ str "12", isDigit b = true) ∧
    (∃ toks, Tokenize (str "12") = some (.ok toks) ∧
      shape toks = [(.Number, str "12"), (.EOF, [])]) ∧
    (∃ toks, Tokenize (str "12" ++ 46 :: []) = some (.ok toks) ∧
      shape toks = [(.Number, str "12" ++ 46 :: []), (.EOF, [])]) :=
  ⟨by decide, by decide,
   (number_scanning (str "12") [] (by decide) (by decide) (by decide)).1,
   (number_scanning (str "12") [] (by decide) (by decide) (by decide)).2.1⟩

/-- C11: operator scanning.  For every input, the text of every Operator token that
Tokenize returns is one of `=`, `!`, `<`, `>`, `+`, `-`, `<=`, `>=`, `!=`, `==`.  At an
operator character `c`, NextToken reads two bytes when `c` and the byte after it form one
of `<=`, `>=`, `!=`, `==` (the token is that pair), and otherwise one byte (the token is
`c` alone); so `<>` yields Operator `<`, Operator `>` and `=<` yields `=`, `<`. -/
theorem operator_scanning :
    (∀ (input : GoString) (toks : List Token), Tokenize input = some (.ok toks) →
      ∀ t ∈ toks, t.Typ = .Operator →
        t.Value ∈ [str "=", str "!", str "<", str ">", str "+", str "-",
          str "<=", str ">=", str "!=", str "=="]) ∧
    (∀ (l : Lexer) (c d : Byte) (r : GoString), l.input.drop l.pos = c :: d :: r →
      Lexer.isOperatorChar c = true →
      [c, d] ∈ [str "<=", str ">=", str "!=", str "=="] →
      ∃ tok l', l.NextToken = some (tok, l') ∧ tok.Typ = .Operator ∧ tok.Value = [c, d] ∧
        l'.pos = l.pos + 2) ∧
    (∀ (l : Lexer) (c : Byte) (r : GoString), l.input.drop l.pos = c :: r →
      Lexer.isOperatorChar c = true →
      (∀ d r', r = d :: r' → [c, d] ∉ [str "<=", str ">=", str "!=", str "=="]) →
      ∃ tok l', l.NextToken = some (tok, l') ∧ tok.Typ = .Operator ∧ tok.Value = [c] ∧
        l'.pos = l.pos + 1) ∧
    (Tokenize (str "<>")).map (Except.map shape) =
      some (.ok [(.Operator, str "<"), (.Operator, str ">"), (.EOF, [])]) ∧
    (Tokenize (str "=<")).map (Except.map shape) =
      some (.ok [(.Operator, str "="), (.Operator, str "<"), (.EOF, [])]) := by
  refine ⟨?_, ?_, ?_, by rfl, by rfl⟩
  · intro input toks h t ht hop
    obtain ⟨toks', hrun, hshape⟩ := Lexer.Tokenize_shape input
    have heq : toks' = toks := by
      have h' : (NewLexer input).Tokenize = some (.ok toks) := h
      rw [hrun] at h'
      simpa using h'
    subst heq
    exact Lexer.lexAll_operator_text _ _ _ hshape (t.Typ, t.Value)
      (List.mem_map.2 ⟨t, ht, rfl⟩) hop
  · intro l c d r hrest hc h2
    obtain ⟨tok, hnext, hT, hV⟩ := Lexer.NextToken_operator l c (d :: r) hrest hc
    have hlex : operatorLexeme c (d :: r) = (.Operator, [c, d], [c, d]) := by
      simp only [List.mem_cons, List.mem_singleton, List.not_mem_nil, or_false] at h2
      simp only [operatorLexeme, if_pos h2]
    rw [hlex] at hnext hT hV
    exact ⟨tok, _, hnext, hT, hV, rfl⟩
  · intro l c r hrest hc h2
    obtain ⟨tok, hnext, hT, hV⟩ := Lexer.NextToken_operator l c r hrest hc
    have hlex : operatorLexeme c r = (.Operator, [c], [c]) := by
      cases r with
      | nil => rfl
      | cons d r' =>
        have := h2 d r' rfl
        simp only [List.mem_cons, List.mem_singleton, List.not_mem_nil, or_false] at this
        simp only [operatorLexeme, if_neg this]
    rw [hlex] at hnext hT hV
    exact ⟨tok, _, hnext, hT, hV, rfl⟩

/-- Witness for C11: at the start of `<=5` the scanner reads the two bytes of `<=`, and at
the start of `+=` only the `+`. -/
theorem operator_scanning_witness :
    (∃ tok l', (NewLexer (str "<=5")).NextToken = some (tok, l') ∧ tok.Typ = .Operator ∧
      tok.Value = [60, 61] ∧ l'.pos = 0 + 2) ∧
    (∃ tok l', (NewLexer (str "+=")).NextToken = some (tok, l') ∧ tok.Typ = .Operator ∧
      tok.Value = [43] ∧ l'.pos = 0 + 1) :=
  ⟨operator_scanning.2.1 (NewLexer (str "<=5")) 60 61 (str "5") rfl (by decide) (by decide),
   operator_scanning.2.2.1 (NewLexer (str "+=")) 43 (str "=") rfl (by decide)
     (fun d r' h => by
       have hd : d = 61 := by
         have h2 : ([61] : List Byte) = d :: r' := h
         exact (List.cons.inj h2).1.symm
       subst hd
       decide)⟩

/-- C12, the code at the failing input: the query `SELECT FROM products` has no field
before FROM, yet Parse returns no error on its tokens but the tree
root[Select[Field products]], whose Select node has a single Field child, and Validate
accepts the query; the interpreter then finds the field `products` and no source under
that node. -/
theorem Parse_accepts_select_without_fields :
    ∃ toks, Tokenize (str "SELECT FROM products") = some (.ok toks) ∧
      (NewParser toks).Parse = .ok (.mk ⟨.Query, str "ROOT"⟩
        [.mk ⟨.Select, str "SELECT"⟩ [leaf .Field (str "products")]]) ∧
      ¬ failed (NewParser toks).Parse ∧
      Validate (str "SELECT FROM products") = some (.ok ()) ∧
      Interpreter.selectComponents
        (.mk ⟨.Select, str "SELECT"⟩ [leaf .Field (str "products")]) =
        ([str "products"], []) :=
  ⟨[{ Typ := .Keyword, Value := str "SELECT", Line := 1, Column := 1 },
    { Typ := .Keyword, Value := str "FROM", Line := 1, Column := 8 },
    { Typ := .Identifier, Value := str "products", Line := 1, Column := 13 },
    { Typ := .EOF, Value := [], Line := 1, Column := 21 }],
   by rfl, by rfl,
   fun h => by
    obtain ⟨err, herr⟩ := h
    exact Except.noConfusion (show (Except.ok _ : Except GoError AST) = .error err from herr),
   by rfl, by rfl⟩

/-- C13: the tree of every successful Parse.  For every token sequence on which Parse
returns a tree, the root (ROOT, of kind Query) has exactly one child, a statement node of
kind Select, Find, Update or Analyze, and the kinds of that node's children are, left to
right, `nf` Field nodes with `nf` at least 1, then at most one Where, then at most one
OrderBy, then at most one Limit.  The nodes stand in the order of the text they come from:
the tokens are the statement keyword `kw` and then, for SELECT, the field list `fl` (at
most one token), the token taken for FROM, the source token `src`, the clause tokens `wh`,
`ob`, `lm` and the tokens left unread, and the children of the Select node are the Field
node of `fl` (if any), then the Field node with the text of `src`, then the clause nodes;
for FIND the entity token and the clause tokens, with the Field node of the entity first;
for UPDATE and ANALYZE the entity token, whose Field node is the only child. -/
theorem Parse_tree_shape (toks : List Token) (tree : AST)
    (h : (NewParser toks).Parse = .ok tree) :
    ∃ stmt, tree.Value = ⟨.Query, str "ROOT"⟩ ∧ tree.Children = [stmt] ∧
      stmt.Value.Typ ∈ [NodeType.Select, .Find, .Update, .Analyze] ∧
      (∃ nf w o l, 1 ≤ nf ∧ w ≤ 1 ∧ o ≤ 1 ∧ l ≤ 1 ∧
        childKinds stmt = List.replicate nf .Field ++ List.replicate w .Where ++
          List.replicate o .OrderBy ++ List.replicate l .Limit) ∧
      ∃ kw r unread, toks = kw :: r ∧ kw.Typ ≠ .EOF ∧
        ((kw.Value = str "SELECT" ∧ ∃ fl frm src wh ob lm,
            r = fl ++ frm :: src :: (wh ++ (ob ++ (lm ++ unread))) ∧
            fieldListOf fl (frm :: src :: (wh ++ (ob ++ (lm ++ unread)))) ∧
            frm.reads (str "FROM") ∧ (src.Typ = .Identifier ∨ src.Typ = .Keyword) ∧
            whereOf wh ∧ orderOf ob ∧ limitOf lm ∧
            (wh = [] → ¬ (seen (ob ++ (lm ++ unread))).reads (str "WHERE")) ∧
            (ob = [] → ¬ (seen (lm ++ unread)).reads (str "ORDER")) ∧
            (lm = [] → ¬ (seen unread).reads (str "LIMIT")) ∧
            stmt = .mk ⟨.Select, str "SELECT"⟩
              (fieldNodes fl ++ leaf .Field src.Value :: clauseNodes wh ob lm)) ∨
         (kw.Value = str "FIND" ∧ ∃ ent wh ob,
            r = ent :: (wh ++ (ob ++ unread)) ∧
            (ent.Typ = .Identifier ∨ ent.Typ = .Keyword) ∧ whereOf wh ∧ orderOf ob ∧
            (wh = [] → ¬ (seen (ob ++ unread)).reads (str "WHERE")) ∧
            (ob = [] → ¬ (seen unread).reads (str "ORDER")) ∧
            stmt = .mk ⟨.Find, str "FIND"⟩ (leaf .Field ent.Value :: clauseNodes wh ob [])) ∨
         (kw.Value = str "UPDATE" ∧ ∃ ent st,
            r = ent :: st :: unread ∧ ent.Typ = .Identifier ∧ st.reads (str "SET") ∧
            stmt = .mk ⟨.Update, str "UPDATE"⟩ [leaf .Field ent.Value]) ∨
         (kw.Value = str "ANALYZE" ∧ ∃ ent,
            r = ent :: unread ∧ ent.Typ = .Identifier ∧
            stmt = .mk ⟨.Analyze, str "ANALYZE"⟩ [leaf .Field ent.Value])) := by
  obtain ⟨q, n, hq, rfl⟩ := Parser.Parse_inv _ _ h
  refine ⟨n, rfl, rfl, ?_, ?_, ?_⟩
  · obtain ⟨_, k, fs, w, o, l, rfl, hk, -⟩ := Parser.parseQuery_inv _ _ _ hq
    exact hk
  · obtain ⟨_, k, fs, w, o, l, rfl, hk, hfs, hfl, hw, ho, hl⟩ := Parser.parseQuery_inv _ _ _ hq
    refine ⟨fs.length, w.length, o.length, l.length, ?_, ?_, ?_, ?_, ?_⟩
    · rcases hfs with h1 | h1 <;> omega
    · rcases hw with rfl | rfl <;> simp
    · rcases ho with rfl | rfl <;> simp
    · rcases hl with rfl | ⟨t, rfl⟩ <;> simp
    · simp only [childKinds, TreeNode.Children, List.map_append, childKinds_fields fs hfl]
      rcases hw with rfl | rfl <;> rcases ho with rfl | rfl <;> rcases hl with rfl | ⟨t, rfl⟩ <;>
        simp [leaf, TreeNode.Value]
  · obtain ⟨kw, hkw, hne, hcase⟩ := Parser.parseQuery_first _ _ _ hq
    rw [Parser.rest_NewParser] at hkw
    refine ⟨kw, (NewParser toks).advance.rest, q.rest, hkw, hne, ?_⟩
    rcases hcase with ⟨hv, hs⟩ | ⟨hv, hs⟩ | ⟨hv, hs⟩ | ⟨hv, hs⟩
    · exact Or.inl ⟨hv, Parser.parseSelectStatement_exact _ _ _ hs⟩
    · exact Or.inr (Or.inl ⟨hv, Parser.parseFindStatement_exact _ _ _ hs⟩)
    · exact Or.inr (Or.inr (Or.inl ⟨hv, Parser.parseUpdateStatement_exact _ _ _ hs⟩))
    · exact Or.inr (Or.inr (Or.inr ⟨hv, Parser.parseAnalyzeStatement_exact _ _ _ hs⟩))

/-- Witness for C13: the tokens of `SELECT * FROM products WHERE ORDER BY LIMIT 5`, whose
tree has the Field node of `*` before the Field node of the source `products`, and then
one node of each clause. -/
theorem Parse_tree_shape_witness :
    (NewParser clauseQueryTokens).Parse = .ok clauseQueryTree ∧
    ∃ stmt, clauseQueryTree.Value = ⟨.Query, str "ROOT"⟩ ∧
      clauseQueryTree.Children = [stmt] ∧
      stmt.Value.Typ ∈ [NodeType.Select, .Find, .Update, .Analyze] ∧
      (∃ nf w o l, 1 ≤ nf ∧ w ≤ 1 ∧ o ≤ 1 ∧ l ≤ 1 ∧
        childKinds stmt = List.replicate nf .Field ++ List.replicate w .Where ++
          List.replicate o .OrderBy ++ List.replicate l .Limit) ∧
      ∃ kw r unread, clauseQueryTokens = kw :: r ∧ kw.Typ ≠ .EOF ∧
        ((kw.Value = str "SELECT" ∧ ∃ fl frm src wh ob lm,
            r = fl ++ frm :: src :: (wh ++ (ob ++ (lm ++ unread))) ∧
            fieldListOf fl (frm :: src :: (wh ++ (ob ++ (lm ++ unread)))) ∧
            frm.reads (str "FROM") ∧ (src.Typ = .Identifier ∨ src.Typ = .Keyword) ∧
            whereOf wh ∧ orderOf ob ∧ limitOf lm ∧
            (wh = [] → ¬ (seen (ob ++ (lm ++ unread))).reads (str "WHERE")) ∧
            (ob = [] → ¬ (seen (lm ++ unread)).reads (str "ORDER")) ∧
            (lm = [] → ¬ (seen unread).reads (str "LIMIT")) ∧
            stmt = .mk ⟨.Select, str "SELECT"⟩
              (fieldNodes fl ++ leaf .Field src.Value :: clauseNodes wh ob lm)) ∨
         (kw.Value = str "FIND" ∧ ∃ ent wh ob,
            r = ent :: (wh ++ (ob ++ unread)) ∧
            (ent.Typ = .Identifier ∨ ent.Typ = .Keyword) ∧ whereOf wh ∧ orderOf ob ∧
            (wh = [] → ¬ (seen (ob ++ unread)).reads (str "WHERE")) ∧
            (ob = [] → ¬ (seen unread).reads (str "ORDER")) ∧
            stmt = .mk ⟨.Find, str "FIND"⟩ (leaf .Field ent.Value :: clauseNodes wh ob [])) ∨
         (kw.Value = str "UPDATE" ∧ ∃ ent st,
            r = ent :: st :: unread ∧ ent.Typ = .Identifier ∧ st.reads (str "SET") ∧
            stmt = .mk ⟨.Update, str "UPDATE"⟩ [leaf .Field ent.Value]) ∨
         (kw.Value = str "ANALYZE" ∧ ∃ ent,
            r = ent :: unread ∧ ent.Typ = .Identifier ∧
            stmt = .mk ⟨.Analyze, str "ANALYZE"⟩ [leaf .Field ent.Value])) :=
  ⟨by rfl, Parse_tree_shape clauseQueryTokens clauseQueryTree (by rfl)⟩

/-- C14: the parser on arbitrary token sequences.  For every token sequence, Parse returns
an error or a tree; in a returned tree every node of kind Where has no children, whatever
tokens follow the WHERE keyword; and the cursor of the parser that parseQuery leaves behind
still reads the same tokens and lies within `0 .. len(tokens)`.  The tokens
`FIND products WHERE , 1 @` (no EOF token, an Error token last) parse to
root[Find[Field products, Where]]. -/
theorem Parse_total_where_childless :
    (∀ toks : List Token, failed (NewParser toks).Parse ∨
      ∃ tree, (NewParser toks).Parse = .ok tree ∧
        ∀ n ∈ tree.subtrees, n.Value.Typ = .Where → n.Children = []) ∧
    (∀ (toks : List Token) (q : Parser) (stmt : AST),
      (NewParser toks).parseQuery = .ok (q, stmt) → q.tokens = toks ∧ q.pos ≤ toks.length) ∧
    (NewParser
      [{ Typ := .Keyword, Value := str "FIND", Line := 1, Column := 1 },
       { Typ := .Identifier, Value := str "products", Line := 1, Column := 6 },
       { Typ := .Keyword, Value := str "WHERE", Line := 1, Column := 15 },
       { Typ := .Comma, Value := str ",", Line := 1, Column := 21 },
       { Typ := .Number, Value := str "1", Line := 1, Column := 23 },
       { Typ := .Error, Value := str "@", Line := 1, Column := 25 }]).Parse =
      .ok (.mk ⟨.Query, str "ROOT"⟩
        [.mk ⟨.Find, str "FIND"⟩ [leaf .Field (str "products"), leaf .Where (str "WHERE")]]) := by
  refine ⟨?_, ?_, by rfl⟩
  · intro toks
    cases hp : (NewParser toks).Parse with
    | error e => exact Or.inl ⟨e, rfl⟩
    | ok tree =>
      refine Or.inr ⟨tree, rfl, ?_⟩
      obtain ⟨q, n, hq, rfl⟩ := Parser.Parse_inv _ _ hp
      obtain ⟨_, k, fs, w, o, l, rfl, hk, _, hfl, hw, ho, hl⟩ := Parser.parseQuery_inv _ _ _ hq
      have hleaves : ∀ c ∈ fs ++ (w ++ (o ++ l)), c.Children = [] := by
        intro c hc
        simp only [List.mem_append] at hc
        rcases hc with hc | hc | hc | hc
        · obtain ⟨t, rfl⟩ := hfl c hc; rfl
        · rcases hw with rfl | rfl
          · cases hc
          · rw [List.mem_singleton.1 hc]; rfl
        · rcases ho with rfl | rfl
          · cases hc
          · rw [List.mem_singleton.1 hc]; rfl
        · rcases hl with rfl | ⟨t, rfl⟩
          · cases hc
          · rw [List.mem_singleton.1 hc]; rfl
      intro m hm hkind
      rw [TreeNode.subtrees, TreeNode.subtreesOf, TreeNode.subtrees, TreeNode.subtreesOf,
        subtreesOf_leaves _ hleaves] at hm
      simp only [List.append_nil, List.mem_cons] at hm
      rcases hm with rfl | rfl | hm
      · cases hkind
      · exfalso
        simp only [List.mem_cons, List.mem_singleton, List.not_mem_nil, or_false] at hk
        have hk2 : k.Typ = .Where := hkind
        rw [hk2] at hk
        revert hk; decide
      · exact hleaves m hm
  · intro toks q stmt hq
    obtain ⟨⟨h1, _, h3⟩, _⟩ := Parser.parseQuery_inv _ _ _ hq
    have h1' : q.tokens = toks := h1
    refine ⟨h1', ?_⟩
    have := h3 (Nat.zero_le _)
    rw [h1'] at this
    exact this

/-- C15: UPDATE and ANALYZE are acknowledgement-only.  For every store (a nil one
included) and every tree whose statement node is of kind Update, Execute issues no store
call and returns Type UPDATE, no data, Count 0, Success true and the message
`Executed UPDATE ` followed by the entity, where the entity is the text of the statement
node's first child when that child is a Field node and is empty otherwise; the same holds
for Analyze with ANALYZE.  The queries `UPDATE products SET price = 5` and
`ANALYZE orders` are answered this way. -/
theorem update_analyze_acknowledge_only {Row : Type} (db : Option (DB Row)) :
    (∀ (rv : ASTNode) (v : GoString) (children more : List AST),
      (NewInterpreter (some (.mk rv (.mk ⟨.Update, v⟩ children :: more))) db).Execute =
        (.ok { Typ := str "UPDATE", Data := none, Count := 0, Success := true,
               Message := str "Executed UPDATE " ++
                 (match children with
                  | first :: _ => if first.Value.Typ = .Field then first.Value.Value else []
                  | [] => []) }, [])) ∧
    (∀ (rv : ASTNode) (v : GoString) (children more : List AST),
      (NewInterpreter (some (.mk rv (.mk ⟨.Analyze, v⟩ children :: more))) db).Execute =
        (.ok { Typ := str "ANALYZE", Data := none, Count := 0, Success := true,
               Message := str "Executed ANALYZE " ++
                 (match children with
                  | first :: _ => if first.Value.Typ = .Field then first.Value.Value else []
                  | [] => []) }, [])) ∧
    StoreQL.Execute (str "UPDATE products SET price = 5") db =
      some (.ok { Typ := str "UPDATE", Data := none, Count := 0, Success := true,
                  Message := str "Executed UPDATE products" }, []) ∧
    StoreQL.Execute (str "ANALYZE orders") db =
      some (.ok { Typ := str "ANALYZE", Data := none, Count := 0, Success := true,
                  Message := str "Executed ANALYZE orders" }, []) := by
  refine ⟨?_, ?_, by rfl, by rfl⟩
  · intro rv v children more
    cases children <;> rfl
  · intro rv v children more
    cases children <;> rfl

/-- C16: the interpreter ignores the clauses.  For every store (a nil one included) and
every two trees whose statement nodes have the same kind and text and the same Field
children `fs` in front, followed by any Where, OrderBy and Limit nodes `cl1` in one and
`cl2` in the other (of any text, with any children, possibly none), Execute returns the
same result and issues the same store calls. -/
theorem clauses_ignored {Row : Type} (db : Option (DB Row)) (rv : ASTNode) (k : NodeType)
    (v : GoString) (fs cl1 cl2 : List AST)
    (hfs : ∀ f ∈ fs, f.Value.Typ = .Field)
    (h1 : ∀ c ∈ cl1, c.Value.Typ ∈ [NodeType.Where, .OrderBy, .Limit])
    (h2 : ∀ c ∈ cl2, c.Value.Typ ∈ [NodeType.Where, .OrderBy, .Limit]) :
    (NewInterpreter (some (.mk rv [.mk ⟨k, v⟩ (fs ++ cl1)])) db).Execute =
      (NewInterpreter (some (.mk rv [.mk ⟨k, v⟩ (fs ++ cl2)])) db).Execute := by
  have hne : ∀ cl : List AST, (∀ c ∈ cl, c.Value.Typ ∈ [NodeType.Where, .OrderBy, .Limit]) →
      ∀ c ∈ cl, c.Value.Typ ≠ .Field := by
    intro cl h c hc hF
    have := h c hc
    rw [hF] at this
    revert this
    decide
  have hs : Interpreter.selectComponents (.mk ⟨k, v⟩ (fs ++ cl1)) =
      Interpreter.selectComponents (.mk ⟨k, v⟩ (fs ++ cl2)) := by
    rw [Interpreter.selectComponents_eq _ fs cl1 hfs (hne cl1 h1),
      Interpreter.selectComponents_eq _ fs cl2 hfs (hne cl2 h2)]
  have he : Interpreter.entityOf (.mk ⟨k, v⟩ (fs ++ cl1)) =
      Interpreter.entityOf (.mk ⟨k, v⟩ (fs ++ cl2)) := by
    rw [Interpreter.entityOf_eq _ fs cl1 hfs (hne cl1 h1),
      Interpreter.entityOf_eq _ fs cl2 hfs (hne cl2 h2)]
  cases k <;>
    simp only [Interpreter.Execute, NewInterpreter, TreeNode.Children, TreeNode.Value]
  · exact Interpreter.executeSelect_congr _ _ _ hs
  · exact Interpreter.executeFind_congr _ _ _ he
  · exact Interpreter.executeUpdate_congr _ _ _ he
  · exact Interpreter.executeAnalyze_congr _ _ _ he

/-- Witness for C16 on the sample store: the tree of `SELECT * FROM products` and the tree
of the same query with a WHERE and a LIMIT 5 clause. -/
theorem clauses_ignored_witness :
    (NewInterpreter (some (.mk ⟨.Query, str "ROOT"⟩ [.mk ⟨.Select, str "SELECT"⟩
        ([leaf .Field (str "*"), leaf .Field (str "products")] ++
         [leaf .Where (str "WHERE"), leaf .Limit (str "5")])])) (some sampleDB)).Execute =
      (NewInterpreter (some (.mk ⟨.Query, str "ROOT"⟩ [.mk ⟨.Select, str "SELECT"⟩
        ([leaf .Field (str "*"), leaf .Field (str "products")] ++ [])]))
        (some sampleDB)).Execute :=
  clauses_ignored (some sampleDB) ⟨.Query, str "ROOT"⟩ .Select (str "SELECT")
    [leaf .Field (str "*"), leaf .Field (str "products")]
    [leaf .Where (str "WHERE"), leaf .Limit (str "5")] []
    (by decide) (by decide) (by decide)

/-- C17, the code at the failing input: on every store, `SELECT * FROM stores` issues no
store call and returns Count 0 and no data, because executeSelect has cases for products
and orders only; on the sample store (250 records in every collection) `FIND stores`
fetches at most 100 records of the stores collection, counts it and returns 250, and
`SELECT * FROM products` does the same on the products collection. -/
theorem select_has_no_stores_case {Row : Type} (db : DB Row) :
    StoreQL.Execute (str "SELECT * FROM stores") (some db) =
      some (.ok { Typ := str "SELECT", Data := none, Count := 0, Success := true,
                  Message := str "Selected 0 records FROM stores (REAL data)" }, []) ∧
    StoreQL.Execute (str "FIND stores") (some sampleDB) =
      some (.ok { Typ := str "FIND", Data := some [1, 2, 3], Count := 250, Success := true,
                  Message := str "Found 250 stores from REAL database" },
            [.Find .Store [] 100, .Count .Store]) ∧
    StoreQL.Execute (str "SELECT * FROM products") (some sampleDB) =
      some (.ok { Typ := str "SELECT", Data := some [1, 2, 3], Count := 250, Success := true,
                  Message := str "Selected 250 records FROM products (REAL data)" },
            [.Find .Product [str "*", str "products"] 100, .Count .Product]) := by
  refine ⟨?_, by rfl, by rfl⟩
  have hc : Interpreter.selectComponents (.mk ⟨.Select, str "SELECT"⟩
      [leaf .Field (str "*"), leaf .Field (str "stores")]) =
      ([str "*", str "stores"], str "stores") := by rfl
  rw [Interpreter.sqc_Execute_of_parse (str "SELECT * FROM stores") (some db) _
    (.mk ⟨.Query, str "ROOT"⟩ [.mk ⟨.Select, str "SELECT"⟩
      [leaf .Field (str "*"), leaf .Field (str "stores")]])
    (by rfl) (by rfl)]
  simp only [Interpreter.Execute, NewInterpreter, TreeNode.Children, TreeNode.Value,
    Interpreter.executeSelect, hc,
    if_pos (show str "stores" ≠ [] by decide),
    if_neg (show str "stores" ≠ str "products" by decide),
    if_neg (show str "stores" ≠ str "orders" by decide)]
  rfl

/-- C18: when Trigger succeeds.  For the machine built by NewFSM and any sequence of
method calls, and every event `e`: Trigger(e) returns nil exactly when one of the
AddTransition calls registered a transition for (current state, e), which is exactly when
CanTransition(e) returns true; it then sets the current state to the target of the last
such AddTransition call and changes nothing else, and otherwise it returns an error and
leaves the machine as it was.  Registering (a, e) twice makes the second target the one
taken.  Current and CanTransition return the machine unchanged.  On the order machine,
Trigger(CONFIRM) succeeds from pending and Current() is then confirmed, while Trigger(SHIP)
from pending fails and Current() stays pending. -/
theorem Trigger_succeeds_iff_registered (CB : Type) :
    (∀ (s0 : State) (calls : List (FSMCall CB)) (e : Event),
      (((built s0 calls).Trigger e).1 = .ok () ↔
        ∃ t ∈ registrations calls, t.From = (built s0 calls).current ∧ t.Evt = e) ∧
      (((built s0 calls).Trigger e).1 = .ok () ↔
        ((built s0 calls).CanTransition e).1 = true) ∧
      (match lastTarget (registrations calls) (built s0 calls).current e with
       | some target =>
         ((built s0 calls).Trigger e).1 = .ok () ∧
         ((built s0 calls).Trigger e).2.1 = { built s0 calls with current := target }
       | none =>
         failed ((built s0 calls).Trigger e).1 ∧
         ((built s0 calls).Trigger e).2.1 = built s0 calls)) ∧
    (∀ (a b c : State) (e : Event),
      ((((NewFSM a : FSM CB).AddTransition a e b).AddTransition a e c).Trigger e).2.1.current
        = c) ∧
    (∀ (fsm : FSM CB) (e : Event),
      fsm.Current = (fsm.current, fsm) ∧ (fsm.CanTransition e).2 = fsm) ∧
    ((NewOrderStateMachine : FSM CB).Trigger EventConfirm).1 = .ok () ∧
    ((NewOrderStateMachine : FSM CB).Trigger EventConfirm).2.1.Current.1 = OrderConfirmed ∧
    failed ((NewOrderStateMachine : FSM CB).Trigger EventShip).1 ∧
    ((NewOrderStateMachine : FSM CB).Trigger EventShip).2.1.Current.1 = OrderPending := by
  refine ⟨?_, ?_, ?_, by rfl, by rfl, ⟨_, by rfl⟩, by rfl⟩
  · intro s0 calls e
    have hl := FSM.lookup_built s0 calls (built s0 calls).current e
    have hsome := FSM.lastTarget_isSome (registrations calls) (built s0 calls).current e
    rw [FSM.CanTransition_eq, hl]
    cases ht : lastTarget (registrations calls) (built s0 calls).current e with
    | none =>
      rw [ht] at hl hsome
      obtain ⟨⟨err, herr⟩, h2, _⟩ := FSM.Trigger_of_lookup_none _ e hl
      refine ⟨?_, ?_, ⟨err, herr⟩, h2⟩
      · rw [herr, ← hsome]
        simp
      · rw [herr]
        simp
    | some target =>
      rw [ht] at hl hsome
      obtain ⟨h1, h2, _⟩ := FSM.Trigger_of_lookup_some _ e target hl
      refine ⟨?_, ?_, h1, h2⟩
      · rw [h1, ← hsome]
        simp
      · rw [h1]
        simp
  · intro a b c e
    have h : (((NewFSM a : FSM CB).AddTransition a e b).AddTransition a e c).lookup
        (((NewFSM a : FSM CB).AddTransition a e b).AddTransition a e c).current e = some c := by
      rw [FSM.lookup_AddTransition]
      exact if_pos ⟨rfl, rfl⟩
    rw [(FSM.Trigger_of_lookup_some _ e c h).2.1]
  · intro fsm e
    exact ⟨rfl, by rw [FSM.CanTransition_eq]⟩

/-- C19: the callbacks of a successful Trigger.  For the machine built by NewFSM and any
sequence of method calls, and every event `e`: when Trigger(e) returns nil, what it does is,
in this order, the write of the new state to `current` and then one call
`callback(old state, new state)` for each OnTransition(e, callback) call, in the order of
those calls, and nothing else, so no callback registered for another event is called; when
Trigger(e) returns an error it does nothing.  Example with callbacks 1 and 3 registered for
CONFIRM and 2 for SHIP. -/
theorem Trigger_runs_callbacks (CB : Type) :
    (∀ (s0 : State) (calls : List (FSMCall CB)) (e : Event),
      match ((built s0 calls).Trigger e).1 with
      | .ok _ =>
        ((built s0 calls).Trigger e).2.2 =
          .SetCurrent ((built s0 calls).Trigger e).2.1.current ::
            (callbacksFor e calls).map (fun cb =>
              Effect.Call cb (built s0 calls).current ((built s0 calls).Trigger e).2.1.current)
      | .error _ => ((built s0 calls).Trigger e).2.2 = []) ∧
    ((built OrderPending
        [.AddTransition OrderPending EventConfirm OrderConfirmed,
         .OnTransition EventConfirm 1, .OnTransition EventShip 2,
         .OnTransition EventConfirm 3] : FSM Nat).Trigger EventConfirm).2.2 =
      [.SetCurrent OrderConfirmed, .Call 1 OrderPending OrderConfirmed,
       .Call 3 OrderPending OrderConfirmed] ∧
    ((built OrderPending
        [.AddTransition OrderPending EventConfirm OrderConfirmed,
         .OnTransition EventConfirm 1, .OnTransition EventShip 2,
         .OnTransition EventConfirm 3] : FSM Nat).Trigger EventShip).2.2 = [] := by
  refine ⟨?_, by rfl, by rfl⟩
  intro s0 calls e
  cases hl : (built s0 calls).lookup (built s0 calls).current e with
  | none =>
    obtain ⟨⟨err, herr⟩, _, h3⟩ := FSM.Trigger_of_lookup_none _ e hl
    rw [herr]
    exact h3
  | some target =>
    obtain ⟨h1, h2, h3⟩ := FSM.Trigger_of_lookup_some _ e target hl
    rw [h1]
    simp only
    rw [h3, h2, FSM.callbacks_built]

/-- C20, counterexample: the state delivered of the order machine has an outgoing edge
(REFUND, to refunded) and no CANCEL edge, and so has the state cancelled; after CONFIRM,
PROCESS, SHIP and DELIVER the machine is in delivered, where CanTransition(CANCEL) is false
and Trigger(CANCEL) fails. -/
theorem order_machine_delivered_no_cancel :
    (NewOrderStateMachine : FSM Unit).lookup OrderDelivered EventRefund = some OrderRefunded ∧
    (NewOrderStateMachine : FSM Unit).lookup OrderDelivered EventCancel = none ∧
    (NewOrderStateMachine : FSM Unit).lookup OrderCancelled EventRefund = some OrderRefunded ∧
    (NewOrderStateMachine : FSM Unit).lookup OrderCancelled EventCancel = none ∧
    ((NewOrderStateMachine : FSM Unit).afterAll
      [.Trigger EventConfirm, .Trigger EventProcess, .Trigger EventShip,
       .Trigger EventDeliver]).current = OrderDelivered ∧
    (((NewOrderStateMachine : FSM Unit).afterAll
      [.Trigger EventConfirm, .Trigger EventProcess, .Trigger EventShip,
       .Trigger EventDeliver]).CanTransition EventCancel).1 = false ∧
    failed (((NewOrderStateMachine : FSM Unit).afterAll
      [.Trigger EventConfirm, .Trigger EventProcess, .Trigger EventShip,
       .Trigger EventDeliver]).Trigger EventCancel).1 :=
  ⟨by rfl, by rfl, by rfl, by rfl, by rfl, by rfl, ⟨_, by rfl⟩⟩

/-- C20, amended: the order machine.  NewOrderStateMachine starts in pending with no
callbacks, and its transition table holds exactly ten edges: the forward path
pending -CONFIRM-> confirmed -PROCESS-> processing -SHIP-> shipped -DELIVER-> delivered,
a CANCEL edge to cancelled from pending, confirmed, processing and shipped, and a REFUND
edge to refunded from delivered and from cancelled.  Triggering CONFIRM, PROCESS, SHIP and
DELIVER one after another from the start leads through confirmed, processing and shipped
to delivered. -/
theorem order_machine_edges (CB : Type) :
    (NewOrderStateMachine : FSM CB).current = OrderPending ∧
    (∀ e : Event, (NewOrderStateMachine : FSM CB).callbacks e = none) ∧
    (∀ (s : State) (e : Event) (t : State),
      (NewOrderStateMachine : FSM CB).lookup s e = some t ↔
        ({ From := s, Evt := e, To := t } : Transition) ∈
          [⟨OrderPending, EventConfirm, OrderConfirmed⟩,
           ⟨OrderConfirmed, EventProcess, OrderProcessing⟩,
           ⟨OrderProcessing, EventShip, OrderShipped⟩,
           ⟨OrderShipped, EventDeliver, OrderDelivered⟩,
           ⟨OrderPending, EventCancel, OrderCancelled⟩,
           ⟨OrderConfirmed, EventCancel, OrderCancelled⟩,
           ⟨OrderProcessing, EventCancel, OrderCancelled⟩,
           ⟨OrderShipped, EventCancel, OrderCancelled⟩,
           ⟨OrderDelivered, EventRefund, OrderRefunded⟩,
           ⟨OrderCancelled, EventRefund, OrderRefunded⟩]) ∧
    ((NewOrderStateMachine : FSM CB).afterAll [.Trigger EventConfirm]).current =
      OrderConfirmed ∧
    ((NewOrderStateMachine : FSM CB).afterAll
      [.Trigger EventConfirm, .Trigger EventProcess]).current = OrderProcessing ∧
    ((NewOrderStateMachine : FSM CB).afterAll
      [.Trigger EventConfirm, .Trigger EventProcess, .Trigger EventShip]).current =
      OrderShipped ∧
    ((NewOrderStateMachine : FSM CB).afterAll
      [.Trigger EventConfirm, .Trigger EventProcess, .Trigger EventShip,
       .Trigger EventDeliver]).current = OrderDelivered :=
  ⟨rfl, fun _ => rfl,
   fun s e t => ⟨order_lookup_mem CB s e t, order_mem_lookup CB s e t⟩,
   order_path CB⟩

/-- C21: the stack is LIFO.  For every stack `s` and every sequence `xs`, after pushing the
elements of `xs` in order, `len(xs)` Pop calls return them in reverse order, each with a
nil error, and leave exactly the stack `s`.  Peek returns what Pop returns and leaves the
stack as it is.  On an empty stack Pop and Peek return the error `stack is empty` and leave
the stack empty.  Pushing 1, 2, 3 on a new stack and popping three times yields 3, 2, 1, and
a fourth Pop fails. -/
theorem stack_is_lifo (T : Type) :
    (∀ (s : ArrayStack T) (xs : List T),
      (s.pushAll xs).popN xs.length = (xs.reverse.map .ok, s)) ∧
    (∀ s : ArrayStack T, s.Peek = (s.Pop.1, s)) ∧
    (NewStack : ArrayStack T).Pop = (.error (errorsNew "stack is empty"), NewStack) ∧
    (NewStack : ArrayStack T).Peek = (.error (errorsNew "stack is empty"), NewStack) ∧
    (∀ s : ArrayStack T, s.IsEmpty.1 = true → s = NewStack) ∧
    ((((NewStack : ArrayStack Nat).Push 1).Push 2).Push 3).popN 4 =
      ([.ok 3, .ok 2, .ok 1, .error (errorsNew "stack is empty")], NewStack) := by
  refine ⟨?_, ArrayStack.Peek_eq_Pop, rfl, rfl, ?_, by rfl⟩
  · intro s xs
    have h := ArrayStack.pushAll_items s xs
    have h2 : s.pushAll xs = ⟨s.items ++ xs⟩ := by
      cases hs : s.pushAll xs
      rw [hs] at h
      simp only at h
      rw [h]
    rw [h2, ArrayStack.popN_append]
  · intro s h
    cases s with
    | mk items =>
      simp only [ArrayStack.IsEmpty, beq_iff_eq, List.length_eq_zero] at h
      rw [h]
      rfl

/-- Witness for C21: the stack with no items, for which IsEmpty returns true, is the new
stack. -/
theorem stack_is_lifo_witness : (ArrayStack.mk ([] : List Nat)) = NewStack :=
  (stack_is_lifo Nat).2.2.2.2.1 ⟨[]⟩ rfl

/-- C22: the queue is FIFO.  For every sequence of method calls on a new queue: no call
follows a pointer outside the allocated nodes; the data of the nodes linked from `head` are
the items that a first-in first-out sequence holds after the same calls; Size is their
number; `head` is nil exactly when `tail` is nil exactly when Size is 0; on an empty queue
Dequeue and Front return the error `queue is empty` and leave the queue as it is, otherwise
both return the item enqueued first.  Enqueueing `xs` and then calling Dequeue as often as
the queue has items returns the items it held before, followed by `xs`, in order, and
leaves the queue empty; on an empty queue these are `xs` themselves.  Enqueue 1, 2, 3 and
four Dequeue calls give 1, 2, 3 and the error. -/
theorem queue_is_fifo (T : Type) :
    (∀ calls : List (QueueCall T), ∃ q,
      (NewQueue : LinkedQueue T).afterAll calls = some q ∧
      q.toList = some (fifoAfter calls) ∧
      q.Size.1 = (fifoAfter calls).length ∧
      (q.head = none ↔ q.tail = none) ∧ (q.tail = none ↔ q.Size.1 = 0) ∧
      (match fifoAfter calls with
       | [] =>
         q.Dequeue = some (.error (errorsNew "queue is empty"), q) ∧
         q.Front = some (.error (errorsNew "queue is empty"), q)
       | x :: _ =>
         q.Dequeue.map (fun r => r.1) = some (.ok x) ∧ q.Front = some (.ok x, q))) ∧
    (∀ (calls : List (QueueCall T)) (xs : List T), ∃ q q',
      (NewQueue : LinkedQueue T).afterAll (calls ++ xs.map .Enqueue) = some q ∧
      q.dequeueN ((fifoAfter calls).length + xs.length) =
        some ((fifoAfter calls ++ xs).map .ok, q') ∧
      q'.head = none ∧ q'.tail = none ∧ q'.Size.1 = 0) ∧
    ((NewQueue : LinkedQueue Nat).afterAll [.Enqueue 1, .Enqueue 2, .Enqueue 3]).bind
        (fun q => (q.dequeueN 4).map fun r => r.1) =
      some [.ok 1, .ok 2, .ok 3, .error (errorsNew "queue is empty")] := by
  refine ⟨?_, ?_, by rfl⟩
  · intro calls
    obtain ⟨q, hq, hh⟩ := LinkedQueue.holds_afterAll calls
    obtain ⟨h1, h2, h3, h4⟩ := LinkedQueue.toList_of_holds q _ hh
    refine ⟨q, hq, h1, h2, h3, h4, ?_⟩
    cases hx : fifoAfter calls with
    | nil =>
      rw [hx] at hh
      exact LinkedQueue.holds_Dequeue_nil q hh
    | cons x xs =>
      rw [hx] at hh
      obtain ⟨⟨q', hd, _⟩, hf⟩ := LinkedQueue.holds_Dequeue_cons q x xs hh
      exact ⟨by rw [hd]; rfl, hf⟩
  · intro calls xs
    obtain ⟨q, hq, hh⟩ := LinkedQueue.holds_afterAll (calls ++ xs.map .Enqueue)
    rw [fifoAfter_enqueues] at hh
    obtain ⟨q', hn, hh'⟩ := LinkedQueue.dequeueN_holds _ q hh
    obtain ⟨e1, e2, e3⟩ := LinkedQueue.holds_nil q' hh'
    rw [List.length_append] at hn
    exact ⟨q, q', hq, hn, e1, e2, e3⟩

/-- C23, counterexample: a set of float64 and the element NaN.  Add(NaN) on a new set
returns true, and afterwards NaN is not a member; a second Add(NaN) returns true again and
Size is 2, though the set has no member at all (Contains(NaN) is still false); Remove(NaN)
returns false and Size stays 2. -/
theorem set_NaN_is_never_a_member :
    ((NewSet : HashSet Float64).Add .NaN).1 = true ∧
    (((NewSet : HashSet Float64).Add .NaN).2.Contains .NaN).1 = false ∧
    (((NewSet : HashSet Float64).Add .NaN).2.Add .NaN).1 = true ∧
    (((NewSet : HashSet Float64).Add .NaN).2.Add .NaN).2.Size.1 = 2 ∧
    ((((NewSet : HashSet Float64).Add .NaN).2.Add .NaN).2.Contains .NaN).1 = false ∧
    ((((NewSet : HashSet Float64).Add .NaN).2.Add .NaN).2.Remove .NaN).1 = false ∧
    ((((NewSet : HashSet Float64).Add .NaN).2.Add .NaN).2.Remove .NaN).2.Size.1 = 2 := by
  decide

/-- C23, amended: what the set reports, for every comparable element type.  For every set
and every `x`: Add(x) returns true exactly when Contains(x) was false, Remove(x) returns
true exactly when Contains(x) was true; after Add(x), `x` is a member exactly when `x == x`
(so always, unless `x` is a NaN), and after Remove(x) it is not a member; after Add(x) an
element `y` is a member exactly when `y == x` or it was a member, after Remove(x) exactly
when `y != x` and it was a member.  Size is the number of entries: the list returned by
Items has Size elements, no two of them equal under `==`, and the members are the values
equal to one of them; Add raises Size by one exactly when it returns true and Remove
lowers it by one exactly when it returns true.  Contains, Size and Items leave the set as
it is.  When `==` holds exactly between a value and itself, Items has no repetition and
holds exactly the members, so Size is the number of distinct members.  Adding `a` twice to
a new set of strings: the second Add returns false and Size is 1. -/
theorem set_reports_membership (T : Type) [GoComparable T] :
    (∀ (s : HashSet T) (x : T),
      (s.Add x).1 = !(s.Contains x).1 ∧
      (s.Remove x).1 = (s.Contains x).1 ∧
      ((s.Add x).2.Contains x).1 = GoComparable.eq x x ∧
      ((s.Remove x).2.Contains x).1 = false ∧
      (∀ y, ((s.Add x).2.Contains y).1 = (GoComparable.eq y x || (s.Contains y).1)) ∧
      (∀ y, ((s.Remove x).2.Contains y).1 = (!GoComparable.eq y x && (s.Contains y).1)) ∧
      (s.Add x).2.Size.1 = s.Size.1 + (if (s.Add x).1 then 1 else 0) ∧
      (s.Remove x).2.Size.1 + (if (s.Remove x).1 then 1 else 0) = s.Size.1 ∧
      (s.Contains x).2 = s) ∧
    (∀ s : HashSet T,
      s.Size.1 = s.Items.1.length ∧
      s.Items.1.Pairwise (fun a b => GoComparable.eq a b = false) ∧
      (∀ y, (s.Contains y).1 = true ↔ ∃ k ∈ s.Items.1, GoComparable.eq k y = true) ∧
      s.Size.2 = s ∧ s.Items.2 = s) ∧
    ((∀ a b : T, GoComparable.eq a b = true ↔ a = b) →
      ∀ s : HashSet T,
        s.Items.1.Nodup ∧ (∀ y, y ∈ s.Items.1 ↔ (s.Contains y).1 = true) ∧
        ∀ x, ((s.Add x).2.Contains x).1 = true) ∧
    (((NewSet : HashSet GoString).Add (str "a")).1 = true ∧
     (((NewSet : HashSet GoString).Add (str "a")).2.Add (str "a")).1 = false ∧
     (((NewSet : HashSet GoString).Add (str "a")).2.Add (str "a")).2.Size.1 = 1) := by
  refine ⟨?_, ?_, ?_, by decide⟩
  · intro s x
    exact ⟨HashSet.Add_fst s x, HashSet.Remove_fst s x, HashSet.Contains_Add_self s x,
      HashSet.Contains_Remove_self s x, HashSet.Contains_Add s x,
      HashSet.Contains_Remove s x, HashSet.Size_Add s x, HashSet.Size_Remove s x, rfl⟩
  · intro s
    obtain ⟨h1, h2, h3⟩ := HashSet.Size_eq_length s
    exact ⟨h1, h2, h3, rfl, rfl⟩
  · intro hlaw s
    obtain ⟨h1, h2⟩ := HashSet.Items_of_lawful hlaw s
    refine ⟨h1, h2, fun x => ?_⟩
    rw [HashSet.Contains_Add_self]
    exact (hlaw x x).2 rfl

/-- Witness for C23: the strings, whose `==` holds exactly between a string and itself; in
every set of strings Items has no repetition and holds exactly the members, and `x` is a
member after Add(x). -/
theorem set_reports_membership_witness :
    (∀ a b : GoString, GoComparable.eq a b = true ↔ a = b) ∧
    ∀ s : HashSet GoString,
      s.Items.1.Nodup ∧ (∀ y, y ∈ s.Items.1 ↔ (s.Contains y).1 = true) ∧
      ∀ x, ((s.Add x).2.Contains x).1 = true :=
  ⟨fun _ _ => decide_eq_true_iff,
   (set_reports_membership GoString).2.2.1 (fun _ _ => decide_eq_true_iff)⟩

/-- C24: set algebra.  For all sets A and B and every `x`: `x` is in A.Union(B) exactly
when it is in A or in B, in A.Intersection(B) exactly when it is in both, in
A.Difference(B) exactly when it is in A and not in B; each call builds its result in a set
made by NewSet and leaves A and B as they were.  This holds for every comparable element
type, whatever its `==`.  For A = {a, b} and B = {b, c}: the union has the three members
a, b, c, the intersection the one member b, the difference the one member a. -/
theorem set_algebra (T : Type) [GoComparable T] :
    (∀ (A B : HashSet T) (x : T),
      ((A.Union B).1.Contains x).1 = ((A.Contains x).1 || (B.Contains x).1) ∧
      ((A.Intersection B).1.Contains x).1 = ((A.Contains x).1 && (B.Contains x).1) ∧
      ((A.Difference B).1.Contains x).1 = ((A.Contains x).1 && !(B.Contains x).1) ∧
      (A.Union B).2 = (A, B) ∧ (A.Intersection B).2 = (A, B) ∧
      (A.Difference B).2 = (A, B)) ∧
    (((HashSet.ofList [str "a", str "b"]).Union (HashSet.ofList [str "b", str "c"])).1.Size.1
        = 3 ∧
     (∀ x ∈ [str "a", str "b", str "c"],
       (((HashSet.ofList [str "a", str "b"]).Union
         (HashSet.ofList [str "b", str "c"])).1.Contains x).1 = true) ∧
     ((HashSet.ofList [str "a", str "b"]).Intersection
        (HashSet.ofList [str "b", str "c"])).1.Size.1 = 1 ∧
     (((HashSet.ofList [str "a", str "b"]).Intersection
        (HashSet.ofList [str "b", str "c"])).1.Contains (str "b")).1 = true ∧
     ((HashSet.ofList [str "a", str "b"]).Difference
        (HashSet.ofList [str "b", str "c"])).1.Size.1 = 1 ∧
     (((HashSet.ofList [str "a", str "b"]).Difference
        (HashSet.ofList [str "b", str "c"])).1.Contains (str "a")).1 = true) := by
  refine ⟨?_, by decide⟩
  intro A B x
  exact ⟨(HashSet.Union_spec A B x).1, (HashSet.Intersection_spec A B x).1,
    (HashSet.Difference_spec A B x).1, (HashSet.Union_spec A B x).2,
    (HashSet.Intersection_spec A B x).2, (HashSet.Difference_spec A B x).2⟩

/-- C25: the buffer is a bounded first-in first-out queue.  For every capacity `c` of at
least 1 and every sequence of Produce, Consume, TryProduce, TryConsume and Size calls on
the buffer made by `NewBuffer(c)`: the calls return what the same calls return on a
first-in first-out queue of at most `c` items, and the buffer then holds what that queue
holds; a Produce that finds the buffer full and a Consume that finds it empty are the only
calls that do not return, and they are those that block on the queue.  After the calls
`size` is at most `c` and `tail = (head + size) mod c`; TryProduce returns false and leaves
the buffer as it is when `size = c`, and otherwise returns true and adds the item behind
those held; TryConsume returns false with the zero value and leaves the buffer as it is
when `size = 0`, and otherwise returns true with the oldest item held and removes it. -/
theorem buffer_is_bounded_fifo (T : Type) [Inhabited T] (c : Nat) (hc : 1 ≤ c)
    (calls : List (BufferCall T)) :
    ∃ b0 : Buffer T, NewBuffer (c : Int) = some b0 ∧
      (b0.run calls).map (fun r => (r.1, r.2.contents)) =
        ((BoundedFifo.mk c []).run calls).map (fun r => (r.1, r.2.items)) ∧
      match b0.run calls with
      | none => True
      | some (_, b) =>
        b.size ≤ c ∧ b.tail = (b.head + b.size) % c ∧ b.Size.1 = b.contents.length ∧
        (∀ x, if b.size = c then b.TryProduce x = some (false, b)
              else ∃ b1, b.TryProduce x = some (true, b1) ∧ b1.contents = b.contents ++ [x]) ∧
        (if b.size = 0 then b.TryConsume = some ((default, false), b)
         else ∃ y rest b1, b.contents = y :: rest ∧ b.TryConsume = some ((y, true), b1) ∧
           b1.contents = rest) := by
  obtain ⟨b0, h0, hw0, hc0⟩ := Buffer.wellFormed_new (T := T) c hc
  refine ⟨b0, h0, ?_, ?_⟩
  · have hsim := Buffer.run_sim c calls b0 hw0
    rw [hc0] at hsim
    cases hb : b0.run calls with
    | none =>
      cases hq : (BoundedFifo.mk c ([] : List T)).run calls with
      | none => rfl
      | some w => rw [hb, hq] at hsim; exact False.elim hsim
    | some v =>
      obtain ⟨rs, b1⟩ := v
      cases hq : (BoundedFifo.mk c ([] : List T)).run calls with
      | none => rw [hb, hq] at hsim; exact False.elim hsim
      | some w =>
        obtain ⟨rs1, q1⟩ := w
        rw [hb, hq] at hsim
        obtain ⟨h1, _, h3⟩ := hsim
        simp only [Option.map_some', h1, h3]
  · have hsim := Buffer.run_sim c calls b0 hw0
    cases hb : b0.run calls with
    | none => trivial
    | some v =>
      obtain ⟨rs, b⟩ := v
      have hw : b.wellFormed c := by
        rw [hb] at hsim
        cases hq : (BoundedFifo.mk c b0.contents).run calls with
        | none => rw [hq] at hsim; exact False.elim hsim
        | some w =>
          obtain ⟨rs1, q1⟩ := w
          rw [hq] at hsim
          exact hsim.2.1
      simp only
      refine ⟨hw.2.2.1, hw.2.2.2.2, (Buffer.contents_length b).symm, ?_, ?_⟩
      · intro x
        by_cases hfull : b.size = c
        · rw [if_pos hfull]
          simp [Buffer.TryProduce, hfull, hw.1]
        · rw [if_neg hfull]
          obtain ⟨b1, h1, _, h3⟩ := Buffer.put_spec c b x hw (by have := hw.2.2.1; omega)
          exact ⟨b1, by simp [Buffer.TryProduce, hfull, hw.1, h1], h3⟩
      · by_cases hempty : b.size = 0
        · rw [if_pos hempty]
          simp [Buffer.TryConsume, hempty]
        · rw [if_neg hempty]
          obtain ⟨y, rest, b1, h0', h1, _, h3⟩ := Buffer.take_spec c b hw (by omega)
          exact ⟨y, rest, b1, h0', by simp [Buffer.TryConsume, hempty, h1], h3⟩

/-- Witness for C25 at capacity 1: of two TryProduce calls in a row the second returns
false; after one Consume, which returns the item produced, a further TryProduce returns
true. -/
theorem buffer_is_bounded_fifo_witness :
    ∃ b0 : Buffer Nat, NewBuffer (1 : Int) = some b0 ∧
      (b0.run [.TryProduce 7, .TryProduce 8, .Consume, .TryProduce 9]).map
          (fun r => (r.1, r.2.contents)) =
        some ([.flag true, .flag false, .item 7, .flag true], [9]) := by
  obtain ⟨b0, h0, h1, _⟩ := buffer_is_bounded_fifo Nat 1 (le_refl 1)
    [.TryProduce 7, .TryProduce 8, .Consume, .TryProduce 9]
  exact ⟨b0, h0, h1.trans (by rfl)⟩

/-- C26: FanIn drains its inputs one after another.  In a run without cancellation, when
each input delivers a finite sequence and is then closed, the values delivered on the
output before it is closed are exactly those of the first input in order, then those of
the second, and so on: the concatenation of the inputs in argument order.  In every run,
with or without cancellation, what is delivered is a prefix of that concatenation, so the
values of two inputs are never interleaved. -/
theorem FanIn_concatenates (T : Type) (cancelled : Nat → Bool) (inputs : List (List T)) :
    ((∀ k, cancelled k = false) → FanIn cancelled inputs = inputs.flatten) ∧
    FanIn cancelled inputs <+: inputs.flatten := by
  constructor
  · intro hno
    have := (fanInLoop_spec cancelled inputs 0 []).2 hno
    simpa [FanIn] using this
  · obtain ⟨⟨taken, hp, he⟩, _⟩ := fanInLoop_spec cancelled inputs 0 []
    unfold FanIn
    rw [he]
    simpa using hp

/-- Witness for C26: without cancellation the inputs 1 2, then 3, then none, then 4 5 are
delivered as 1 2 3 4 5. -/
theorem FanIn_concatenates_witness :
    FanIn (fun _ => false) [[1, 2], [3], [], [4, 5]] = [1, 2, 3, 4, 5] :=
  (FanIn_concatenates Nat (fun _ => false) [[1, 2], [3], [], [4, 5]]).1 (fun _ => rfl)

/-- C27, the code at the failing input: on the tree made by `NewTree(r)`, after one
`AddChild(x)` on the root Traverse visits the two nodes, the root before its child, but
Size returns 1; AddChild changes a node and leaves the counter of the tree as it is.  In
general, after any sequence of Insert and AddChild calls on nodes of the tree, Size
returns the number of nodes that Traverse visits less the number of AddChild calls, so it
is the number of nodes as long as only Insert is called. -/
theorem Size_misses_AddChild (T : Type) :
    (∀ r x : T,
      ((NewTree r).afterAddChild (.node []) x).2.Size.1 = 1 ∧
      ((NewTree r).afterAddChild (.node []) x).2.Traverse = [.mk r [.mk x []], .mk x []] ∧
      ((NewTree r).Insert (.node []) x).2.Size.1 = 2 ∧
      ((NewTree r).Insert (.node []) x).2.Traverse = [.mk r [.mk x []], .mk x []]) ∧
    (∀ (r : T) (calls : List (TreeCall T)),
      match (NewTree r).afterCalls calls with
      | some t => t.Size.1 + addChildCalls calls = t.Traverse.length
      | none => True) :=
  ⟨fun _ _ => ⟨rfl, rfl, rfl, rfl⟩, GenericTree.size_afterCalls⟩

/-- C28: Execute fails exactly when Validate fails.  For every query and every store (a nil
one included) sqc.Execute and sqc.Validate both return, and Execute returns an error
exactly when Validate returns an error; when they return no error the result of Execute
has Success = true.  The reason: on every tree that Parse returns without error, for any
token sequence, the interpreter returns a result with Success = true and no error. -/
theorem Execute_error_iff_Validate_error {Row : Type} (db : Option (DB Row)) :
    (∀ query : GoString, ∃ r v, Execute query db = some r ∧ Validate query = some v ∧
      (failed r.1 ↔ failed v) ∧
      match r.1 with
      | .ok result => v = .ok () ∧ result.Success = true
      | .error _ => failed v) ∧
    (∀ toks : List Token,
      match (NewParser toks).Parse with
      | .ok tree => ∃ result ops,
          (NewInterpreter (some tree) db).Execute = (.ok result, ops) ∧ result.Success = true
      | .error _ => True) := by
  constructor
  · intro query
    obtain ⟨toks, ht⟩ := Tokenize_returns query
    cases hp : (NewParser toks).Parse with
    | error e =>
      refine ⟨(.error (wrapError "parsing failed: " e), []), .error e, ?_, ?_, ?_, ?_⟩
      · simp only [Execute, ht, Option.map_some', hp]
      · simp only [Validate, ht, Option.map_some', hp]
      · exact ⟨fun _ => ⟨e, rfl⟩, fun _ => ⟨_, rfl⟩⟩
      · exact ⟨e, rfl⟩
    | ok tree =>
      obtain ⟨result, ops, hx, hs⟩ := Interpreter.Execute_of_Parse toks tree db hp
      refine ⟨(.ok result, ops), .ok (), ?_, Validate_of_parse query toks tree ht hp, ?_, ?_⟩
      · rw [Interpreter.sqc_Execute_of_parse query db toks tree ht hp, hx]
      · constructor
        · rintro ⟨err, herr⟩; cases herr
        · rintro ⟨err, herr⟩; cases herr
      · exact ⟨rfl, hs⟩
  · intro toks
    cases hp : (NewParser toks).Parse with
    | error e => trivial
    | ok tree => exact Interpreter.Execute_of_Parse toks tree db hp

/-- C29: what follows WHERE is not parsed.  For the tokens FIND (Keyword), an Identifier
token `ent`, WHERE (Keyword) followed by any token sequence `t` that does not begin with a
token of text ORDER (`t` may hold anything else, may lack an EOF token, may be empty),
Parse returns root[Find[Field ent, Where]], and the parser stops with its cursor right after
WHERE, all of `t` unread.  So `FIND products WHERE price < 100 ORDER` is accepted by
Validate although BY is missing, and `FIND products WHERE price < 100 ORDER BY price`
parses to the same tree, without an OrderBy node. -/
theorem where_tail_not_parsed (fnd ent whr : Token) (t : List Token)
    (hf : fnd.Typ = .Keyword ∧ fnd.Value = str "FIND") (he : ent.Typ = .Identifier)
    (hw : whr.Typ = .Keyword ∧ whr.Value = str "WHERE")
    (ht : ∀ first ∈ t.head?, first.Value ≠ str "ORDER") :
    (NewParser (fnd :: ent :: whr :: t)).Parse = .ok (.mk ⟨.Query, str "ROOT"⟩
      [.mk ⟨.Find, str "FIND"⟩ [leaf .Field ent.Value, leaf .Where (str "WHERE")]]) ∧
    (∃ p stmt, (NewParser (fnd :: ent :: whr :: t)).parseQuery = .ok (p, stmt) ∧
      p.rest = t) ∧
    (∃ toks, Tokenize (str "FIND products WHERE price < 100 ORDER") = some (.ok toks) ∧
      (NewParser toks).Parse = .ok (.mk ⟨.Query, str "ROOT"⟩
        [.mk ⟨.Find, str "FIND"⟩ [leaf .Field (str "products"), leaf .Where (str "WHERE")]])) ∧
    Validate (str "FIND products WHERE price < 100 ORDER") = some (.ok ()) ∧
    (∃ toks, Tokenize (str "FIND products WHERE price < 100 ORDER BY price") =
        some (.ok toks) ∧
      (NewParser toks).Parse = .ok (.mk ⟨.Query, str "ROOT"⟩
        [.mk ⟨.Find, str "FIND"⟩
          [leaf .Field (str "products"), leaf .Where (str "WHERE")]])) := by
  have hq := Parser.find_where_tail fnd ent whr t ⟨by rw [hf.1]; decide, hf.2⟩ (Or.inl he)
    ⟨by rw [hw.1]; decide, hw.2⟩ (by
      rintro ⟨_, hv⟩
      cases t with
      | nil => exact absurd hv (by decide)
      | cons first t => exact ht first rfl hv)
  refine ⟨?_, ⟨_, _, hq, rfl⟩, ⟨_, by rfl, by rfl⟩, by rfl, ⟨_, by rfl, by rfl⟩⟩
  unfold Parser.Parse
  rw [hq]
  rfl

/-- Witness for C29: FIND products WHERE followed by the tokens of `price < 100 ORDER`. -/
theorem where_tail_not_parsed_witness :
    (NewParser
      [{ Typ := .Keyword, Value := str "FIND", Line := 1, Column := 1 },
       { Typ := .Identifier, Value := str "products", Line := 1, Column := 6 },
       { Typ := .Keyword, Value := str "WHERE", Line := 1, Column := 15 },
       { Typ := .Identifier, Value := str "price", Line := 1, Column := 21 },
       { Typ := .Operator, Value := str "<", Line := 1, Column := 27 },
       { Typ := .Number, Value := str "100", Line := 1, Column := 29 },
       { Typ := .Keyword, Value := str "ORDER", Line := 1, Column := 33 },
       { Typ := .EOF, Value := [], Line := 1, Column := 38 }]).Parse =
      .ok (.mk ⟨.Query, str "ROOT"⟩
        [.mk ⟨.Find, str "FIND"⟩ [leaf .Field (str "products"), leaf .Where (str "WHERE")]]) :=
  (where_tail_not_parsed
    { Typ := .Keyword, Value := str "FIND", Line := 1, Column := 1 }
    { Typ := .Identifier, Value := str "products", Line := 1, Column := 6 }
    { Typ := .Keyword, Value := str "WHERE", Line := 1, Column := 15 }
    [{ Typ := .Identifier, Value := str "price", Line := 1, Column := 21 },
     { Typ := .Operator, Value := str "<", Line := 1, Column := 27 },
     { Typ := .Number, Value := str "100", Line := 1, Column := 29 },
     { Typ := .Keyword, Value := str "ORDER", Line := 1, Column := 33 },
     { Typ := .EOF, Value := [], Line := 1, Column := 38 }]
    ⟨rfl, rfl⟩ rfl ⟨rfl, rfl⟩
    (by
      intro first hfirst
      cases hfirst
      decide)).1

/-- C30: Tokenize terminates.  Every NextToken call returns; it leaves the input as it is
and never moves the position backwards; from a position within the input it ends at a
position within the input, and when the token it returns is not EOF the position has
advanced by at least one byte.  So the loop of Tokenize breaks within `len(input) + 1`
iterations: for every input Tokenize returns a token sequence, of at most
`len(input) + 1` tokens. -/
theorem Tokenize_terminates :
    (∀ l : Lexer, ∃ tok l', l.NextToken = some (tok, l')) ∧
    (∀ (l : Lexer) (tok : Token) (l' : Lexer), l.NextToken = some (tok, l') →
      l'.input = l.input ∧ l.pos ≤ l'.pos ∧
      (l.pos ≤ l.input.length → l'.pos ≤ l.input.length) ∧
      (tok.Typ ≠ .EOF → l.pos + 1 ≤ l'.pos)) ∧
    (∀ input : GoString, ∃ toks, (NewLexer input).Tokenize = some (.ok toks) ∧
      Tokenize input = some (.ok toks) ∧ toks.length ≤ input.length + 1) := by
  refine ⟨?_, ?_, ?_⟩
  · intro l
    obtain ⟨tok, l', h1, _⟩ := Lexer.NextToken_progress l
    exact ⟨tok, l', h1⟩
  · intro l tok0 l0 h0
    obtain ⟨tok, l', h1, h2, h3, _, h5, h6⟩ := Lexer.NextToken_progress l
    rw [h0] at h1
    obtain ⟨rfl, rfl⟩ := Prod.mk.inj (Option.some.inj h1)
    exact ⟨h2, h3, h5, fun hne => (h6 hne).1⟩
  · intro input
    obtain ⟨toks, l', hrun, hlen⟩ :=
      Lexer.tokenizeLoop_length (input.length + 1) (NewLexer input) []
        (by simp [Lexer.rest_NewLexer])
    have hT : (NewLexer input).Tokenize = some (.ok toks) := by
      unfold Lexer.Tokenize
      show Option.map _ (Lexer.tokenizeLoop (input.length + 1) (NewLexer input) []) = _
      rw [hrun]
      rfl
    refine ⟨toks, hT, hT, ?_⟩
    rw [Lexer.rest_NewLexer] at hlen
    exact hlen

/-- Witness for C30: the first NextToken call on `FIND products` starts at position 0 and
returns the keyword FIND, which is not EOF; it ends at position 4, within the 13 bytes of
the input. -/
theorem Tokenize_terminates_witness :
    (NewLexer (str "FIND products")).NextToken =
      some ({ Typ := .Keyword, Value := str "FIND", Line := 1, Column := 1 },
            { input := str "FIND products", pos := 4, line := 1, column := 5,
              state := (NewLexer (str "FIND products")).state }) ∧
    (4 : Nat) ≤ (str "FIND products").length ∧ 0 + 1 ≤ (4 : Nat) :=
  ⟨by rfl,
   (Tokenize_terminates.2.1 (NewLexer (str "FIND products"))
      { Typ := .Keyword, Value := str "FIND", Line := 1, Column := 1 }
      { input := str "FIND products", pos := 4, line := 1, column := 5,
        state := (NewLexer (str "FIND products")).state } (by rfl)).2.2.1 (Nat.zero_le _),
   (Tokenize_terminates.2.1 (NewLexer (str "FIND products"))
      { Typ := .Keyword, Value := str "FIND", Line := 1, Column := 1 }
      { input := str "FIND products", pos := 4, line := 1, column := 5,
        state := (NewLexer (str "FIND products")).state } (by rfl)).2.2.2 (by decide)⟩

end StoreQL
